import Mathlib

/-!
# MaybeNumber: a shallow embedding of `maybe_number_for_c_plus_plus.{h,cpp}`

The C++ class `MaybeNumber` keeps, next to the text of a token, fourteen
classification histories (one `size_t` bitmask per predicate, newest character
in the lowest bit) and a numeric accumulator (`_multiplier`, `_place`,
`_forcenumber`).

Conventions of the embedding:

* `char` is `Char`; only the code point is ever inspected.
* `size_t` / `long long` are `Nat` bit patterns reduced `% 2 ^ 64` wherever the
  source can overflow; `int` is a 32-bit pattern.
* `double` is read as exact rational arithmetic (`ℚ`), `0.01` being `1 / 100`;
  the last section of the code repeats the accumulator with each operation
  rounded to binary64.
* Code that throws or that leaves defined behaviour returns `Except Error`.
-/

namespace MaybeNumber

/-! ## Constants (`maybe_number_constants.h`) -/

/-- The NUL character, which also pads the constant arrays that are declared
longer than their initialiser list. -/
def NUL : Char := Char.ofNat 0

/-- `const char CURR1 = '$'`. -/
def CURR1 : Char := '$'

/-- `const char CURR2 = '$'`. -/
def CURR2 : Char := '$'

/-- `const char CURRENCIES[3] = {'$', CURR1, CURR2}`. -/
def CURRENCIES : List Char := ['$', CURR1, CURR2]

/-- `const char IGNORE[13]`: twelve initialisers and one zero-initialised
element. -/
def IGNORE : List Char :=
  ['$', ',', ' ', ')', '%', Char.ofNat 10, Char.ofNat 9, '(', '-', Char.ofNat 39,
   CURR1, CURR2, NUL]

/-- `const char ALL_NUM_ELEMENTS[24]`: twenty-three initialisers and one
zero-initialised element. -/
def ALL_NUM_ELEMENTS : List Char :=
  ['$', ',', ' ', ')', '%', Char.ofNat 10, Char.ofNat 9, '(', '-', Char.ofNat 39,
   '0', '1', '2', '3', '4', '5', '6', '7', '8', '9', '.', CURR1, CURR2, NUL]

/-- `const char ACCEPTABLE_ENDS[2] = {' ', ')'}`. -/
def ACCEPTABLE_ENDS : List Char := [' ', ')']

/-! ## Errors -/

/-- The ways a call can fail: `std::out_of_range` thrown by `_get_bitmask`,
`TooLongStringError` thrown by the slicer, undefined behaviour (reading the
text out of bounds, popping an empty string, `log2` of zero, writing through a
null pointer), and a loop that has not ended within the iterations it was
given. -/
inductive Error where
  | out_of_range (bitmask_name : String)
  | too_long_string
  | undefined_behaviour
  | out_of_fuel
deriving DecidableEq, Repr

-- Results of fallible calls can be compared.
deriving instance DecidableEq for Except

/-! ## The data model -/

/-- The struct `MaybeNumber::Bitmask`, without its lambda: the lambda is a
function of the name alone and is given by `alt_func`. -/
structure Bitmask where
  name : String
  bitmask : Nat
deriving DecidableEq, Repr

end MaybeNumber

/-- The private data members of the class `MaybeNumber`. -/
structure MaybeNumber where
  original : List Char
  _token : Char
  the_bitmasks : List MaybeNumber.Bitmask
  _multiplier : ℚ
  _place : ℚ
  _forcenumber : ℚ
  _len_bitmasks : Nat
deriving DecidableEq

namespace MaybeNumber

/-- The static `is_in`: a linear scan of the first `array_length` elements. -/
def is_in (letter : Char) (array : List Char) (array_length : Nat) : Bool :=
  (array.take array_length).any (fun x => x == letter)

/-- The static `not_in`. -/
def not_in (letter : Char) (array : List Char) (array_length : Nat) : Bool :=
  if is_in letter array array_length then false else true

/-- The value `(size_t)((1 << length) - 1)` of the `ISACCEPTABLESTART` lambda.
`1` is a 32-bit `int`: the shift count is taken modulo 32 (as the shift
instruction does), the subtraction wraps in two's complement, and the
conversion to `size_t` sign-extends. For `length < 32` this is
`2 ^ length - 1`. -/
def start_mask (length : Nat) : Nat :=
  let shifted : Nat := (1 <<< (length % 32)) % 2 ^ 32
  let minus_one : Nat := (shifted + (2 ^ 32 - 1)) % 2 ^ 32
  if minus_one < 2 ^ 31 then minus_one else minus_one + (2 ^ 64 - 2 ^ 32)

/-- The loop of the `ISACCEPTABLESTART` lambda that looks its own history up
by name in the vector it is handed. -/
def acceptable_start_scan : List Bitmask → Nat → Bool
  | [], _ => true
  | b :: rest, length =>
    if b.name = "ISACCEPTABLESTART" then
      if length > 0 then b.bitmask == start_mask length else true
    else acceptable_start_scan rest length

/-- The lambda registered under each name by `_populate_bitmask_vector`;
`token` is the `this->token()` that the `ISTOKEN` lambda reads. -/
def alt_func (token : Char) (name : String) (letter : Char)
    (bitmasks : List Bitmask) (length : Nat) : Bool :=
  if name = "ISNUMBERELEM" then is_in letter ALL_NUM_ELEMENTS 24
  else if name = "ISDASH" then letter == '-'
  else if name = "ISDOT" then letter == '.'
  else if name = "ISDIGIT" then decide (letter.toNat ≥ 48) && decide (letter.toNat < 58)
  else if name = "ISTOKEN" then letter == token
  else if name = "ISDEFNOTNUMBER" then not_in letter ALL_NUM_ELEMENTS 24
  else if name = "ISUPPER" then decide (letter.toNat ≥ 65) && decide (letter.toNat < 91)
  else if name = "ISLOWER" then decide (letter.toNat ≥ 97) && decide (letter.toNat < 123)
  else if name = "ISACCEPTABLESTART" then
    if letter ≠ ' ' ∧ not_in letter CURRENCIES 3 = true then false
    else acceptable_start_scan bitmasks length
  else if name = "ISACCEPTABLEEND" then is_in letter ACCEPTABLE_ENDS 2
  else if name = "ISCLOSEDPAREN" then letter == ')'
  else if name = "ISOPENPAREN" then letter == '('
  else if name = "ISPERCENT" then letter == '%'
  else if name = "ISCURRENCY" then is_in letter CURRENCIES 2
  else false

/-- The names in the order `_populate_bitmask_vector` registers them. -/
def bitmask_names : List String :=
  ["ISNUMBERELEM", "ISDASH", "ISDOT", "ISDIGIT", "ISTOKEN", "ISDEFNOTNUMBER",
   "ISUPPER", "ISLOWER", "ISACCEPTABLESTART", "ISACCEPTABLEEND", "ISCLOSEDPAREN",
   "ISOPENPAREN", "ISPERCENT", "ISCURRENCY"]

/-- `_populate_bitmask_vector`: fourteen `push_back`s of a `Bitmask` whose
constructor sets `bitmask(0b0)`. -/
def _populate_bitmask_vector (bitmask_vector : List Bitmask) : List Bitmask :=
  bitmask_vector ++ bitmask_names.map (fun n => { name := n, bitmask := 0 })

/-- `Bitmask::push_back`: `bitmask = (bitmask << 1) | (int)bit` on a `size_t`. -/
def Bitmask.push_back (token : Char) (b : Bitmask) (letter : Char)
    (btmsks : List Bitmask) (len_bitmasks : Nat) : Bitmask :=
  { b with bitmask :=
      ((b.bitmask <<< 1) % 2 ^ 64) ||| (alt_func token b.name letter btmsks len_bitmasks).toNat }

/-- `Bitmask::pop_back`: `bitmask >>= 1`. -/
def Bitmask.pop_back (b : Bitmask) : Bitmask :=
  { b with bitmask := b.bitmask >>> 1 }

/-- The loop of `_adjust_bits(const char c)`: the bitmasks are updated in place
one after the other, each lambda seeing the vector as it stands. -/
def adjust_loop (token : Char) (c : Char) (len_bitmasks : Nat) :
    List Nat → List Bitmask → List Bitmask
  | [], bs => bs
  | i :: is, bs =>
    match bs[i]? with
    | some b => adjust_loop token c len_bitmasks is
        (bs.set i (b.push_back token c bs len_bitmasks))
    | none => adjust_loop token c len_bitmasks is bs

/-- `_setup` on a freshly declared object (empty `original`, empty vector). -/
def _setup (token : Char) : MaybeNumber :=
  { original := []
    _token := token
    the_bitmasks := _populate_bitmask_vector []
    _multiplier := 1
    _place := 1
    _forcenumber := 0
    _len_bitmasks := 0 }

/-- `_adjust_bits(const char c)`, the push variant. The counter is a `size_t`
that would need `2 ^ 64` appends to wrap. -/
def _adjust_bits_push (m : MaybeNumber) (c : Char) : MaybeNumber :=
  { m with
    the_bitmasks :=
      adjust_loop m._token c m._len_bitmasks (List.range m.the_bitmasks.length) m.the_bitmasks
    _len_bitmasks := m._len_bitmasks + 1 }

/-- `_adjust_bits()`, the pop variant; `_len_bitmasks --` wraps at zero. -/
def _adjust_bits_pop (m : MaybeNumber) : MaybeNumber :=
  { m with
    the_bitmasks := m.the_bitmasks.map Bitmask.pop_back
    _len_bitmasks := (m._len_bitmasks + (2 ^ 64 - 1)) % 2 ^ 64 }

/-- `_get_bitmask`: linear scan by name, throwing `std::out_of_range`. -/
def get_bitmask_in (bitmask_name : String) : List Bitmask → Except Error Bitmask
  | [] => .error (.out_of_range bitmask_name)
  | b :: rest => if b.name = bitmask_name then .ok b else get_bitmask_in bitmask_name rest

/-- `MaybeNumber::_get_bitmask`. -/
def _get_bitmask (m : MaybeNumber) (bitmask_name : String) : Except Error Bitmask :=
  get_bitmask_in bitmask_name m.the_bitmasks

/-- `isdot()`: `_get_bitmask("ISDOT").bitmask`. -/
def isdot (m : MaybeNumber) : Except Error Nat := do
  let b ← _get_bitmask m "ISDOT"
  pure b.bitmask

/-- `MaybeNumber::push_back`. -/
def push_back (m : MaybeNumber) (letter : Char) : Except Error MaybeNumber :=
  if letter = NUL then pure m
  else
    let m1 : MaybeNumber :=
      if letter = '(' ∨ letter = '-' then { m with _multiplier := m._multiplier * (-1) }
      else if letter = '%' then { m with _multiplier := m._multiplier * (1 / 100) }
      else m
    let m2 := _adjust_bits_push m1 letter
    let m3 : MaybeNumber := { m2 with original := m2.original ++ [letter] }
    if letter.toNat = 46 then pure { m3 with _place := 1 / 10 }
    else if is_in letter ALL_NUM_ELEMENTS 24 && not_in letter IGNORE 13 then do
      let ltr : ℚ := (letter.toNat : ℚ)
      let to_add : ℚ := ltr - 48
      let dot ← isdot m3
      if dot = 0 then
        pure { m3 with _forcenumber := m3._forcenumber * 10 + to_add }
      else
        pure { m3 with
          _forcenumber := m3._forcenumber + to_add * m3._place
          _place := m3._place / 10 }
    else pure m3

/-- The constructor `MaybeNumber(std::string s, char token)`. -/
def construct (s : List Char) (token : Char) : Except Error MaybeNumber :=
  s.foldlM push_back (_setup token)

/-- `_pop_back_internals`; reading the last character of an empty text is
undefined. -/
def _pop_back_internals (m : MaybeNumber) : Except Error MaybeNumber :=
  match m.original.getLast? with
  | none => .error .undefined_behaviour
  | some letter =>
    let m1 : MaybeNumber := { m with original := m.original.dropLast }
    let m2 : MaybeNumber :=
      if letter.toNat = 37 then { m1 with _multiplier := m1._multiplier * 100 } else m1
    let m3 : MaybeNumber :=
      if letter.toNat = 40 ∨ letter.toNat = 45 then
        { m2 with _multiplier := m2._multiplier * (-1) }
      else m2
    if (letter.toNat ≥ 48 ∧ letter.toNat < 58) ∨ letter.toNat = 46 then
      let ltr : ℚ := (letter.toNat : ℚ) - 48
      if letter = '.' then pure { m3 with _place := m3._place * 10 }
      else do
        let dot ← isdot m3
        if dot ≠ 0 then
          let place := m3._place * 10
          pure { m3 with _place := place, _forcenumber := m3._forcenumber - place * ltr }
        else
          pure { m3 with
            _forcenumber := (m3._forcenumber - ltr) / 10
            _place := m3._place / 10 }
    else pure m3

/-- `MaybeNumber::pop_back()`. -/
def pop_back (m : MaybeNumber) : Except Error MaybeNumber :=
  _pop_back_internals (_adjust_bits_pop m)

/-- `force_to_number`: `_forcenumber * _multiplier`. -/
def force_to_number (m : MaybeNumber) : ℚ := m._forcenumber * m._multiplier

/-- `size()`. -/
def size (m : MaybeNumber) : Nat := m.original.length

/-- `unwrapped()`. -/
def unwrapped (m : MaybeNumber) : List Char := m.original

end MaybeNumber

namespace MaybeNumber

/-- `original[i]` on a `std::string`: the character, the terminating NUL at
`i = size()`, undefined beyond. -/
def char_at (original : List Char) (i : Nat) : Except Error Char :=
  match original[i]? with
  | some c => .ok c
  | none => if i = original.length then .ok NUL else .error .undefined_behaviour

/-- `_get_slice_index(long long int bitmask, size_t length)` on the 64-bit
pattern of `bitmask`. `difference` is the lowest set bit, a power of two, so
`int(log2(difference))` is its exponent; for `difference = 0` the conversion of
`-inf` to `int` is undefined. Signed overflow wraps. -/
def _get_slice_index_len (bitmask : Nat) (length : Nat) : Except Error Nat :=
  let minus_one : Nat := (bitmask + (2 ^ 64 - 1)) % 2 ^ 64
  let difference : Nat := (bitmask + 2 ^ 64 - (bitmask &&& minus_one)) % 2 ^ 64
  if difference = 0 then .error .undefined_behaviour
  else
    let lg : Nat := Nat.log2 difference
    let pos_index : Nat := (length + (2 ^ 64 - 1 - lg)) % 2 ^ 64
    .ok ((pos_index + 1) % 2 ^ 64)

/-- `_get_slice_index(size_t bitmask)`. -/
def _get_slice_index (m : MaybeNumber) (bitmask : Nat) : Except Error Nat :=
  _get_slice_index_len bitmask m.original.length

/-- The array `cannot_be_doubled` of `isnumber`. -/
def cannot_be_doubled : List String :=
  ["ISDOT", "ISDASH", "ISCURRENCY", "ISOPENPAREN", "ISCLOSEDPAREN", "ISPERCENT"]

/-- The `for` loop of `isnumber` over `cannot_be_doubled`; `true` stands for
the loop's `return false` (some history has more than one bit set). -/
def doubled_loop (m : MaybeNumber) : List String → Except Error Bool
  | [] => pure false
  | n :: ns => do
    let btmsk ← _get_bitmask m n
    if btmsk.bitmask = 0 then doubled_loop m ns
    else if btmsk.bitmask > 0 ∧ (btmsk.bitmask &&& (btmsk.bitmask - 1)) ≠ 0 then pure true
    else doubled_loop m ns

/-- The `while (original[o] == ')' || original[o] == ' ') o--;` loop of
`isnumber`, returning the final `o`. Decrementing `o = 0` wraps to
`2 ^ 64 - 1`, and the next read is out of bounds. -/
def percent_scan (original : List Char) : Nat → Except Error Nat
  | 0 => do
    let c ← char_at original 0
    if c = ')' ∨ c = ' ' then .error .undefined_behaviour else pure 0
  | o + 1 => do
    let c ← char_at original (o + 1)
    if c = ')' ∨ c = ' ' then percent_scan original o else pure (o + 1)

/-- The block `if (_multiplier < 0) {...}` of `isnumber`; `false` stands for
the block's `return false`. -/
def negative_check (m : MaybeNumber) : Except Error Bool := do
  if m._multiplier < 0 then
    let is_acceptable_start := (← _get_bitmask m "ISACCEPTABLESTART").bitmask
    let start ← if is_acceptable_start > 0 then _get_slice_index m is_acceptable_start
                else pure 0
    let is_dash := decide ((← _get_bitmask m "ISDASH").bitmask > 0)
    let c ← char_at m.original start
    if is_dash = true ∧ c ≠ '-' then pure false
    else if is_dash = false ∧ c ≠ '(' then pure false
    else pure true
  else pure true

/-- The block `if (is_percent > 0) {...}` of `isnumber`; `false` stands for
the block's `return false`. -/
def percent_check (m : MaybeNumber) : Except Error Bool := do
  let is_percent := (← _get_bitmask m "ISPERCENT").bitmask
  if is_percent > 0 then
    let o ← percent_scan m.original ((m.original.length + (2 ^ 64 - 1)) % 2 ^ 64)
    let c ← char_at m.original o
    if c ≠ '%' then pure false else pure true
  else pure true

/-- `MaybeNumber::isnumber`. -/
def isnumber (m : MaybeNumber) : Except Error Bool := do
  if (← _get_bitmask m "ISNUMBERELEM").bitmask = 0 then pure false
  else if (← _get_bitmask m "ISDIGIT").bitmask = 0 then pure false
  else if (← _get_bitmask m "ISDEFNOTNUMBER").bitmask ≠ 0 then pure false
  else if (← doubled_loop m cannot_be_doubled) = true then pure false
  else if (← _get_bitmask m "ISDASH").bitmask ≠ 0
      ∧ (← _get_bitmask m "ISOPENPAREN").bitmask ≠ 0 then pure false
  else if (← _get_bitmask m "ISDASH").bitmask ≠ 0
      ∧ (← _get_bitmask m "ISCLOSEDPAREN").bitmask ≠ 0 then pure false
  else if (← _get_bitmask m "ISOPENPAREN").bitmask ≠ 0
      ∧ (← _get_bitmask m "ISCLOSEDPAREN").bitmask = 0 then pure false
  else if (← _get_bitmask m "ISCLOSEDPAREN").bitmask ≠ 0
      ∧ (← _get_bitmask m "ISOPENPAREN").bitmask = 0 then pure false
  else if (← negative_check m) = false then pure false
  else if (← percent_check m) = false then pure false
  else pure true

end MaybeNumber

/-! ## Case conversion, type and casts -/

namespace MaybeNumber

/-- `enum TypeValues`. -/
inductive TypeValues where
  | SIGNEDINTTYPE
  | DOUBLETYPE
  | SIZE_TTYPE
  | BOOLTYPE
  | STRINGTYPE
deriving DecidableEq, Repr

/-- The compound assignments `c += 32` (`k = 32`) and `c -= 32` (`k = 224`) on
a `char`, wrapping in eight bits. -/
def char_add (c : Char) (k : Nat) : Char := Char.ofNat ((c.toNat + k) % 256)

/-- The `while (bitmask > 0)` loop of `_convert_upper_or_lower` on the copy
`s`; each round clears the lowest set bit of the `size_t`, so 64 rounds are
enough. Writing at or beyond `s.size()` is undefined. -/
def convert_loop (bitmask_name : String) : Nat → Nat → List Char → Except Error (List Char)
  | 0, bitmask, s => if bitmask > 0 then .error .out_of_fuel else .ok s
  | fuel + 1, bitmask, s =>
    if bitmask > 0 then
      let difference : Nat := bitmask - (bitmask &&& (bitmask - 1))
      let pos_index : Nat := (s.length + (2 ^ 64 - 1 - Nat.log2 difference)) % 2 ^ 64
      match s[pos_index]? with
      | none => .error .undefined_behaviour
      | some c =>
        convert_loop bitmask_name fuel (bitmask &&& (bitmask - 1))
          (s.set pos_index (if bitmask_name = "ISUPPER" then char_add c 32 else char_add c 224))
    else .ok s

/-- `_convert_upper_or_lower`. -/
def _convert_upper_or_lower (m : MaybeNumber) (bitmask_name : String) :
    Except Error (List Char) := do
  let bitmask := (← _get_bitmask m bitmask_name).bitmask
  if m.original.length = 0 ∨ bitmask = 0 then pure m.original
  else convert_loop bitmask_name 64 bitmask m.original

/-- `lower()`. -/
def lower (m : MaybeNumber) : Except Error (List Char) := _convert_upper_or_lower m "ISUPPER"

/-- `upper()`. -/
def upper (m : MaybeNumber) : Except Error (List Char) := _convert_upper_or_lower m "ISLOWER"

/-- `_convert_upper_or_lower_inplace`: the same loop on `original` itself; the
histories are left as they are. -/
def _convert_upper_or_lower_inplace (m : MaybeNumber) (bitmask_name : String) :
    Except Error MaybeNumber := do
  let bitmask := (← _get_bitmask m bitmask_name).bitmask
  if m.original.length = 0 ∨ bitmask = 0 then pure m
  else do
    let s ← convert_loop bitmask_name 64 bitmask m.original
    pure { m with original := s }

/-- `lower_inplace()`. -/
def lower_inplace (m : MaybeNumber) : Except Error MaybeNumber :=
  _convert_upper_or_lower_inplace m "ISUPPER"

/-- `upper_inplace()`. -/
def upper_inplace (m : MaybeNumber) : Except Error MaybeNumber :=
  _convert_upper_or_lower_inplace m "ISLOWER"

/-- `std::trunc` on an exact value: rounding toward zero. -/
def trunc (q : ℚ) : Int := Int.tdiv q.num q.den

/-- `get_type`. -/
def get_type (m : MaybeNumber) : Except Error TypeValues := do
  if (← isnumber m) = true then
    let forced := force_to_number m
    if (trunc forced : ℚ) ≠ forced then pure .DOUBLETYPE
    else if m._multiplier < 0 then pure .SIGNEDINTTYPE
    else pure .SIZE_TTYPE
  else
    let lowercase ← lower m
    if lowercase = "false".toList ∨ lowercase = "true".toList then pure .BOOLTYPE
    else if lowercase = "inf".toList then pure .DOUBLETYPE
    else pure .STRINGTYPE

/-- `operator =`: the line `std::vector<Bitmask> the_bitmasks = that.the_bitmasks;`
declares a local vector, so the member `the_bitmasks` keeps its value. -/
def assign (this that : MaybeNumber) : MaybeNumber :=
  { this with
    original := that.original
    _token := that._token
    _multiplier := that._multiplier
    _place := that._place
    _forcenumber := that._forcenumber
    _len_bitmasks := that._len_bitmasks }

/-- The assignment `*ptr = v` through a `size_t*` that is null (`none`) or
points to a cell. -/
def store (ptr : Option Nat) (v : Nat) : Except Error (Option Nat) :=
  match ptr with
  | none => .error .undefined_behaviour
  | some _ => .ok (some v)

/-- `_convert_bool(size_t* ptr)`: the cell behind `ptr` after the call. -/
def _convert_bool (m : MaybeNumber) (ptr : Option Nat) : Except Error (Option Nat) := do
  let lowercase ← lower m
  if lowercase = "false".toList then store ptr 0
  else if lowercase = "true".toList then store ptr 1
  else if lowercase = "inf".toList then store ptr 3
  else pure ptr

/-- `operator bool`. The pointer is passed by value, so after the call `ptr`
is still the null pointer it was initialised to and the `switch` is skipped. -/
def to_bool (m : MaybeNumber) : Except Error Bool := do
  let ptr : Option Nat := none
  let _ ← _convert_bool m ptr
  match ptr with
  | some 0 => pure false
  | some 1 => pure true
  | some 3 => pure false
  | _ =>
    if (← isnumber m) = true then pure (decide (force_to_number m ≠ 0))
    else pure (decide (m.original.length > 0))

/-- The conversion `int(x)` of a `double`: truncation, undefined when the
result does not fit a 32-bit `int`. -/
def double_to_int (q : ℚ) : Except Error Int :=
  if -(2 ^ 31 : Int) ≤ trunc q ∧ trunc q < 2 ^ 31 then .ok (trunc q)
  else .error .undefined_behaviour

/-- The conversion `size_t(x)` of a `double`: truncation, undefined when the
result does not fit a 64-bit `size_t`. -/
def double_to_size_t (q : ℚ) : Except Error Nat :=
  if 0 ≤ trunc q ∧ trunc q < 2 ^ 64 then .ok (trunc q).toNat
  else .error .undefined_behaviour

/-- `operator int`. -/
def to_int (m : MaybeNumber) : Except Error Int := do
  let ptr : Option Nat := none
  let _ ← _convert_bool m ptr
  match ptr with
  | some 0 => pure 0
  | some 1 => pure 1
  | some 3 => pure (2 ^ 31 - 1)
  | _ => double_to_int (force_to_number m)

/-- `operator size_t`. -/
def to_size_t (m : MaybeNumber) : Except Error Nat := do
  let ptr : Option Nat := none
  let _ ← _convert_bool m ptr
  match ptr with
  | some 0 => pure 0
  | some 1 => pure 1
  | some 3 => pure (2 ^ 64 - 1)
  | _ => double_to_size_t (force_to_number m)

/-- `std::numeric_limits<double>::max()`. -/
def double_max : ℚ := (2 ^ 53 - 1) * 2 ^ 971

/-- `operator double`. -/
def to_double (m : MaybeNumber) : Except Error ℚ := do
  let ptr : Option Nat := none
  let _ ← _convert_bool m ptr
  match ptr with
  | some 0 => pure 0
  | some 1 => pure 1
  | some 3 => pure double_max
  | _ => pure (force_to_number m)

/-- The loop of `clear()`: one `pop_back()` per round while the text is not
empty. -/
def clear_loop : Nat → MaybeNumber → Except Error MaybeNumber
  | 0, m => if m.original.length > 0 then .error .out_of_fuel else pure m
  | fuel + 1, m =>
    if m.original.length > 0 then do
      let m1 ← pop_back m
      clear_loop fuel m1
    else pure m

/-- `clear()`; each round removes one character, so `size()` rounds are
enough. -/
def clear (m : MaybeNumber) : Except Error MaybeNumber := clear_loop m.original.length m

/-- `operator +=(std::string s)`. -/
def append_string (m : MaybeNumber) (s : List Char) : Except Error MaybeNumber :=
  s.foldlM push_back m

end MaybeNumber

/-! ## Slicing and concatenation -/

namespace MaybeNumber

/-- Addition of 64-bit integers, wrapping. -/
def add64 (a b : Nat) : Nat := (a + b) % 2 ^ 64

/-- Subtraction of 64-bit integers, wrapping. -/
def sub64 (a b : Nat) : Nat := (a + (2 ^ 64 - b % 2 ^ 64)) % 2 ^ 64

/-- The operator `~` on a 64-bit pattern. -/
def not64 (a : Nat) : Nat := 2 ^ 64 - 1 - a % 2 ^ 64

/-- The 32-bit pattern of `1 << count` on `int`; as the processor does, only
the low five bits of the count are used. -/
def int_shl1 (count : Nat) : Nat := (1 <<< (count % 32)) % 2 ^ 32

/-- The conversion of an `int`, given by its 32-bit pattern, to `long long`:
sign extension. -/
def sign_extend (x : Nat) : Nat := if x < 2 ^ 31 then x else x + (2 ^ 64 - 2 ^ 32)

/-- The operator `>>` on a `long long` given by its 64-bit pattern: arithmetic
shift, only the low six bits of the count are used. -/
def sar64 (x count : Nat) : Nat :=
  let k := count % 64
  if x < 2 ^ 63 then x >>> k else (x >>> k) ||| (2 ^ 64 - 2 ^ (64 - k))

/-- The loop `for (size_t x = start; x < stop; x++) current.push_back(unwrapped()[x]);`
with `count` rounds left. -/
def copy_loop (original : List Char) : Nat → Nat → MaybeNumber → Except Error MaybeNumber
  | 0, _, current => .ok current
  | count + 1, x, current => do
    let c ← char_at original x
    let current1 ← push_back current c
    copy_loop original count (x + 1) current1

/-- The `while (my_bitmask > 0)` loop of `_slice_by_bitmask`, for at most
`fuel` rounds. The `long long` values are 64-bit patterns: negative means at
least `2 ^ 63`. The state is `my_bitmask`, `prev_index.stop` and the deque. -/
def slice_loop (m : MaybeNumber) (bitval : Nat) :
    Nat → Nat → Nat → List MaybeNumber → Except Error (List MaybeNumber)
  | 0, my_bitmask, _, vec =>
    if 0 < my_bitmask ∧ my_bitmask < 2 ^ 63 then .error .out_of_fuel else .ok vec
  | fuel + 1, my_bitmask, prev_stop, vec =>
    if 0 < my_bitmask ∧ my_bitmask < 2 ^ 63 then do
      let pos_index ← _get_slice_index m my_bitmask
      let neg_index := sub64 m.original.length (sub64 pos_index 1)
      let scooched_bitmask := sar64 my_bitmask (sub64 neg_index 1)
      if scooched_bitmask = bitval then .ok vec
      else do
        let new_length := add64 (sub64 m.original.length neg_index) 1
        let localized_end_of_cluster ← _get_slice_index_len (not64 scooched_bitmask) new_length
        let cluster_length := sub64 new_length localized_end_of_cluster
        let current_stop := sub64 (sub64 pos_index cluster_length) (1 - bitval)
        let blank_these_bits_please :=
          sign_extend
            ((int_shl1 (sub64 (add64 neg_index cluster_length) bitval) + (2 ^ 32 - 1)) % 2 ^ 32)
        let next_bitmask := my_bitmask &&& not64 blank_these_bits_please
        let start := if bitval = 0 then pos_index else current_stop
        let stop := if bitval = 0 then prev_stop else pos_index
        if start ≥ 2 ^ 63 ∧ stop ≥ 2 ^ 63 then .ok vec
        else if start < 2 ^ 63 ∧ stop ≥ 2 ^ 63 then .ok vec
        else do
          let start1 := if start ≥ 2 ^ 63 then 0 else start
          let vec1 ←
            if start1 ≠ stop then do
              let current ← copy_loop m.original (stop - start1) start1 (_setup ' ')
              pure (current :: vec)
            else pure vec
          slice_loop m bitval fuel next_bitmask (sub64 pos_index cluster_length) vec1
    else .ok vec

/-- `_slice_by_bitmask`: the deque after the call, the loop being given `fuel`
rounds. -/
def _slice_by_bitmask (m : MaybeNumber) (vec : List MaybeNumber) (bitmask : Nat)
    (bitval_to_compile : Bool) (fuel : Nat) : Except Error (List MaybeNumber) :=
  if m.original.length > 64 then .error .too_long_string
  else
    let bitval : Nat := bitval_to_compile.toNat
    if m.original.length = 0 ∨ (bitmask = 0 ∧ bitval = 1) then .ok vec
    else if bitmask = 0 ∧ bitval = 0 then do
      let whole ← construct m.original ' '
      .ok (vec ++ [whole])
    else
      let my_bitmask := bitmask ||| sign_extend (int_shl1 (add64 m._len_bitmasks 1))
      slice_loop m bitval fuel my_bitmask m.original.length vec

/-- `sliceby`, the loop being given `fuel` rounds. -/
def sliceby (m : MaybeNumber) (bitmask_name : String) (bitval_to_compile : Bool) (fuel : Nat) :
    Except Error (List MaybeNumber) := do
  let bitmask := (← _get_bitmask m bitmask_name).bitmask
  _slice_by_bitmask m [] bitmask bitval_to_compile fuel

/-- `struct Slice`. -/
structure Slice where
  /-- First index of the slice. -/
  start : Nat
  /-- Index after the last one (`end` in the source). -/
  stop : Nat
deriving DecidableEq, Repr

/-- The `while (bitmask > 0)` loop of `_get_slice_indices_from_bitmask`; the
state is `bitmask`, `prev_index`, `total` and the deque. Each round clears the
lowest set bit of the `size_t`, so 64 rounds are enough. -/
def indices_loop (size : Nat) :
    Nat → Nat → Nat → Nat → List Slice → Except Error (Nat × Nat × List Slice)
  | 0, bitmask, prev_index, total, vec =>
    if bitmask > 0 then .error .out_of_fuel else .ok (prev_index, total, vec)
  | fuel + 1, bitmask, prev_index, total, vec =>
    if bitmask > 0 then
      let lsb_off : Nat := bitmask &&& (bitmask - 1)
      let difference : Nat := bitmask - lsb_off
      let pos_index : Nat := (size + (2 ^ 64 - Nat.log2 difference)) % 2 ^ 64
      let vec1 := if pos_index < prev_index then ⟨pos_index, prev_index⟩ :: vec else vec
      let total1 := if pos_index < prev_index then add64 total (prev_index - pos_index) else total
      indices_loop size fuel lsb_off (sub64 pos_index 1) total1 vec1
    else .ok (prev_index, total, vec)

/-- `_get_slice_indices_from_bitmask`: the returned count and the deque after
the call. -/
def _get_slice_indices_from_bitmask (m : MaybeNumber) (vec : List Slice) (bitmask : Nat) :
    Except Error (Nat × List Slice) :=
  if m.original.length = 0 then .ok (0, vec)
  else if bitmask = 0 then .ok (m.original.length, vec ++ [⟨0, m.original.length⟩])
  else do
    let (prev_index, total, vec1) ← indices_loop m.original.length 64 bitmask m.original.length 0 vec
    if prev_index = 0 then .ok (total, vec1)
    else .ok (add64 total prev_index, ⟨0, prev_index⟩ :: vec1)

/-- The inner loop of `_concat_by_bitmask` for one slice with `count` indices
left: `s[s_index++] = original[j]`. Writing at or beyond `s.size()` is
undefined. -/
def concat_copy (original : List Char) :
    Nat → Nat → List Char × Nat → Except Error (List Char × Nat)
  | 0, _, st => .ok st
  | count + 1, j, (s, s_index) => do
    let c ← char_at original j
    if s_index < s.length then concat_copy original count (j + 1) (s.set s_index c, s_index + 1)
    else .error .undefined_behaviour

/-- `_concat_by_bitmask`. -/
def _concat_by_bitmask (m : MaybeNumber) (bitmask : Nat) : Except Error (List Char) := do
  let (stringsize, slicepoints) ← _get_slice_indices_from_bitmask m [] bitmask
  let s : List Char := List.replicate stringsize NUL
  let (s1, _) ← slicepoints.foldlM
    (fun st sl => concat_copy m.original (sl.stop - sl.start) sl.start st) (s, 0)
  pure s1

end MaybeNumber

/-! ## The accumulator in binary64

The definitions above read `double` as exact rational arithmetic. The ones
below are `push_back`, the constructor and `force_to_number` once more, with
every `double` operation and every `double` literal rounded to binary64; they
show where the two readings part. -/

namespace MaybeNumber

end MaybeNumber

/-! ## Vocabulary of the statements and of the proofs

Nothing below is code of the repository: these are the words the claims are
stated in (histories of a text, repeated calls, reachable tokens) and a
record view of the vector of bitmasks that the proofs work on. -/

namespace MaybeNumber

/-- The fourteen histories as a record, in registration order. -/
structure Histories where
  numberelem : Nat
  dash : Nat
  dot : Nat
  digit : Nat
  token : Nat
  defnotnumber : Nat
  upper : Nat
  lower : Nat
  acceptablestart : Nat
  acceptableend : Nat
  closedparen : Nat
  openparen : Nat
  percent : Nat
  currency : Nat
deriving DecidableEq

/-- The vector of named bitmasks that holds the given histories. -/
def Histories.toList (v : Histories) : List Bitmask :=
  [⟨"ISNUMBERELEM", v.numberelem⟩, ⟨"ISDASH", v.dash⟩, ⟨"ISDOT", v.dot⟩,
   ⟨"ISDIGIT", v.digit⟩, ⟨"ISTOKEN", v.token⟩, ⟨"ISDEFNOTNUMBER", v.defnotnumber⟩,
   ⟨"ISUPPER", v.upper⟩, ⟨"ISLOWER", v.lower⟩, ⟨"ISACCEPTABLESTART", v.acceptablestart⟩,
   ⟨"ISACCEPTABLEEND", v.acceptableend⟩, ⟨"ISCLOSEDPAREN", v.closedparen⟩,
   ⟨"ISOPENPAREN", v.openparen⟩, ⟨"ISPERCENT", v.percent⟩, ⟨"ISCURRENCY", v.currency⟩]

/-- All histories empty. -/
def Histories.zero : Histories := ⟨0, 0, 0, 0, 0, 0, 0, 0, 0, 0, 0, 0, 0, 0⟩

/-- A property of each of the fourteen histories. -/
def Histories.All (P : Nat → Prop) (v : Histories) : Prop :=
  P v.numberelem ∧ P v.dash ∧ P v.dot ∧ P v.digit ∧ P v.token ∧ P v.defnotnumber ∧
  P v.upper ∧ P v.lower ∧ P v.acceptablestart ∧ P v.acceptableend ∧ P v.closedparen ∧
  P v.openparen ∧ P v.percent ∧ P v.currency

/-- The same function applied to each history. -/
def Histories.map (f : Nat → Nat) (v : Histories) : Histories :=
  ⟨f v.numberelem, f v.dash, f v.dot, f v.digit, f v.token, f v.defnotnumber, f v.upper,
   f v.lower, f v.acceptablestart, f v.acceptableend, f v.closedparen, f v.openparen,
   f v.percent, f v.currency⟩

/-- One history gaining a low bit: `(bitmask << 1) | bit` on 64 bits. -/
def shift_in (b : Nat) (bit : Bool) : Nat := ((b <<< 1) % 2 ^ 64) ||| bit.toNat

/-- The `ISACCEPTABLESTART` lambda as a function of its own history. -/
def start_bit (letter : Char) (own : Nat) (length : Nat) : Bool :=
  if letter ≠ ' ' ∧ not_in letter CURRENCIES 3 = true then false
  else if length > 0 then own == start_mask length else true

/-- What `_adjust_bits(c)` does to the fourteen histories. -/
def Histories.push (v : Histories) (tok c : Char) (len : Nat) : Histories :=
  { numberelem := shift_in v.numberelem (is_in c ALL_NUM_ELEMENTS 24)
    dash := shift_in v.dash (c == '-')
    dot := shift_in v.dot (c == '.')
    digit := shift_in v.digit (decide (c.toNat ≥ 48) && decide (c.toNat < 58))
    token := shift_in v.token (c == tok)
    defnotnumber := shift_in v.defnotnumber (not_in c ALL_NUM_ELEMENTS 24)
    upper := shift_in v.upper (decide (c.toNat ≥ 65) && decide (c.toNat < 91))
    lower := shift_in v.lower (decide (c.toNat ≥ 97) && decide (c.toNat < 123))
    acceptablestart := shift_in v.acceptablestart (start_bit c v.acceptablestart len)
    acceptableend := shift_in v.acceptableend (is_in c ACCEPTABLE_ENDS 2)
    closedparen := shift_in v.closedparen (c == ')')
    openparen := shift_in v.openparen (c == '(')
    percent := shift_in v.percent (c == '%')
    currency := shift_in v.currency (is_in c CURRENCIES 2) }

/-- A token whose vector of bitmasks has the registered shape. -/
structure Model where
  text : List Char
  token : Char
  hists : Histories
  multiplier : ℚ
  place : ℚ
  forcenumber : ℚ
  len : Nat

/-- The token a model stands for. -/
def Model.toToken (a : Model) : MaybeNumber :=
  { original := a.text
    _token := a.token
    the_bitmasks := a.hists.toList
    _multiplier := a.multiplier
    _place := a.place
    _forcenumber := a.forcenumber
    _len_bitmasks := a.len }

/-- The model of `_setup`. -/
def Model.init (tok : Char) : Model := ⟨[], tok, Histories.zero, 1, 1, 0, 0⟩

/-- The factor `push_back` applies to `_multiplier`. -/
def mult_factor (c : Char) : ℚ :=
  if c = '(' ∨ c = '-' then -1 else if c = '%' then 1 / 100 else 1

/-- The decimal digits, as `push_back` and `_pop_back_internals` test them. -/
def is_digit (c : Char) : Bool := decide (c.toNat ≥ 48) && decide (c.toNat < 58)

/-- `push_back` on a model. -/
def Model.push (a : Model) (c : Char) : Model :=
  if c = NUL then a
  else
    let h := a.hists.push a.token c a.len
    let b : Model :=
      { a with text := a.text ++ [c], hists := h, len := a.len + 1,
               multiplier := a.multiplier * mult_factor c }
    if c = '.' then { b with place := 1 / 10 }
    else if is_digit c = true then
      if h.dot = 0 then { b with forcenumber := a.forcenumber * 10 + ((c.toNat : ℚ) - 48) }
      else { b with forcenumber := a.forcenumber + ((c.toNat : ℚ) - 48) * a.place,
                    place := a.place / 10 }
    else b

/-- The factor `_pop_back_internals` applies to `_multiplier`. -/
def mult_unfactor (c : Char) : ℚ :=
  if c = '(' ∨ c = '-' then -1 else if c = '%' then 100 else 1

/-- `pop_back` on a model with a non-empty text whose last character is `c`. -/
def Model.pop_char (a : Model) (c : Char) : Model :=
  let h := a.hists.map (fun b => b >>> 1)
  let b : Model :=
    { a with text := a.text.dropLast, hists := h, len := (a.len + (2 ^ 64 - 1)) % 2 ^ 64,
             multiplier := a.multiplier * mult_unfactor c }
  if c = '.' then { b with place := a.place * 10 }
  else if is_digit c = true then
    if h.dot ≠ 0 then
      { b with place := a.place * 10, forcenumber := a.forcenumber - a.place * 10 * ((c.toNat : ℚ) - 48) }
    else { b with forcenumber := (a.forcenumber - ((c.toNat : ℚ) - 48)) / 10, place := a.place / 10 }
  else b

/-- The model of a token built by appends. -/
def model_of (tok : Char) (s : List Char) : Model := s.foldl Model.push (Model.init tok)

/-- The history of a predicate that reads only the character, over a text. -/
def hist (p : Char → Bool) (s : List Char) : Nat :=
  s.foldl (fun b c => shift_in b (p c)) 0

/-- `n` calls of `pop_back()`. -/
def pop_back_n : Nat → MaybeNumber → Except Error MaybeNumber
  | 0, m => pure m
  | n + 1, m => do
    let m1 ← pop_back m
    pop_back_n n m1

/-- The value of a decimal digit character. -/
def digit_value (c : Char) : Nat := c.toNat - 48

/-- The natural number written by the decimal digits of a text, read left to
right; the other characters are skipped. -/
def digits_value (s : List Char) : Nat :=
  (s.filter is_digit).foldl (fun n c => 10 * n + digit_value c) 0

/-- The number of decimal digits of a text. -/
def digit_count (s : List Char) : Nat := (s.filter is_digit).length

/-- The decimal reading of a text: the digits before the first `'.'` are the
integer part, the digits after it the fraction; characters that are neither
contribute nothing. -/
def decimal_reading (s : List Char) : ℚ :=
  let integer_part := s.takeWhile (fun c => c != '.')
  let fraction_part := (s.dropWhile (fun c => c != '.')).drop 1
  (digits_value integer_part : ℚ)
    + (digits_value fraction_part : ℚ) / 10 ^ digit_count fraction_part

/-- The product of the factors `push_back` applies to `_multiplier` over a
text. -/
def mult_of (s : List Char) : ℚ := (s.map mult_factor).prod

/-- A space or a currency symbol: the characters of the leading boundary run. -/
def is_boundary (c : Char) : Bool := c == ' ' || c == '$'

/-- The leading run of spaces and currency symbols of a text. -/
def leading_run (s : List Char) : List Char := s.takeWhile is_boundary

/-- The first character after the leading run of spaces and currency symbols. -/
def first_significant (s : List Char) : Option Char := (s.dropWhile is_boundary).head?

/-- Spaces and closing parentheses: what the percent check skips at the end. -/
def is_trailing (c : Char) : Bool := c == ')' || c == ' '

/-- The last character that is not a trailing space or `')'`. -/
def last_significant (s : List Char) : Option Char :=
  (s.reverse.dropWhile is_trailing).head?

/-- The index `start` that the sign check of `isnumber` reads. -/
def start_index (a : Model) : Except Error Nat :=
  if a.hists.acceptablestart > 0 then _get_slice_index_len a.hists.acceptablestart a.text.length
  else .ok 0

/-- The tokens obtained from the empty token of `_setup` by calls of
`push_back` and `pop_back`, with a text that was never longer than `bound`. -/
inductive Reachable (bound : Nat) (tok : Char) : MaybeNumber → Prop where
  | setup : Reachable bound tok (_setup tok)
  | append (m m1 : MaybeNumber) (c : Char) : Reachable bound tok m →
      push_back m c = .ok m1 → m1.original.length ≤ bound → Reachable bound tok m1
  | remove (m m1 : MaybeNumber) : Reachable bound tok m →
      pop_back m = .ok m1 → Reachable bound tok m1

/-- A model whose histories, multiplier and counter are those of a token built
afresh from its text. -/
def Model.Fresh (tok : Char) (a : Model) : Prop :=
  (∀ c ∈ a.text, c ≠ NUL) ∧ a.token = tok ∧ a.hists = (model_of tok a.text).hists
    ∧ a.multiplier = mult_of a.text ∧ a.len = a.text.length

/-- What `isnumber` asks of the histories before it looks at the text. -/
def Model.Pre (a : Model) : Prop :=
  a.hists.numberelem ≠ 0 ∧ a.hists.digit ≠ 0 ∧ a.hists.defnotnumber = 0
  ∧ (a.hists.dot &&& (a.hists.dot - 1) = 0
      ∧ a.hists.dash &&& (a.hists.dash - 1) = 0
      ∧ a.hists.currency &&& (a.hists.currency - 1) = 0
      ∧ a.hists.openparen &&& (a.hists.openparen - 1) = 0
      ∧ a.hists.closedparen &&& (a.hists.closedparen - 1) = 0
      ∧ a.hists.percent &&& (a.hists.percent - 1) = 0)
  ∧ ¬ (a.hists.dash ≠ 0 ∧ a.hists.openparen ≠ 0)
  ∧ ¬ (a.hists.dash ≠ 0 ∧ a.hists.closedparen ≠ 0)
  ∧ ¬ (a.hists.openparen ≠ 0 ∧ a.hists.closedparen = 0)
  ∧ ¬ (a.hists.closedparen ≠ 0 ∧ a.hists.openparen = 0)

/-- The characters `push_back` takes into the value: the digits, `'.'`, and
the three characters that change the multiplier. -/
def is_counted (c : Char) : Bool :=
  is_digit c || c == '.' || c == '-' || c == '(' || c == '%'

/-- The number whose binary digits, most significant first, are `l`. -/
def of_bits (l : List Bool) : Nat := l.foldl (fun b bit => 2 * b + bit.toNat) 0

/-- The low `n` bits of `b`, listed in the order of the text they describe:
the entry at index `i` is bit `n - 1 - i`. -/
def bits (b n : Nat) : List Bool := (List.range n).map (fun i => b.testBit (n - 1 - i))

/-- The number of bits set in a 64-bit pattern. -/
def set_bits (b : Nat) : Nat := (bits b 64).count true

/-- The names whose lambda looks at the letter (and the token's separator)
only: all but `ISACCEPTABLESTART`. -/
def char_names : List String :=
  ["ISNUMBERELEM", "ISDASH", "ISDOT", "ISDIGIT", "ISTOKEN", "ISDEFNOTNUMBER",
   "ISUPPER", "ISLOWER", "ISACCEPTABLEEND", "ISCLOSEDPAREN",
   "ISOPENPAREN", "ISPERCENT", "ISCURRENCY"]

/-- The predicate on characters registered under `name`: the lambda, handed an
empty vector and the length 0, which it does not read for the names of
`char_names`. -/
def char_pred (tok : Char) (name : String) (c : Char) : Bool := alt_func tok name c [] 0

/-- The tokens reached from a constructor by `push_back`, `pop_back`,
`operator +=` and `clear()`, the text never longer than `bound`. -/
inductive Built (bound : Nat) (tok : Char) : MaybeNumber → Prop where
  | constructed (s : List Char) (m : MaybeNumber) : s.length ≤ bound →
      construct s tok = .ok m → Built bound tok m
  | pushed (m m1 : MaybeNumber) (c : Char) : Built bound tok m →
      push_back m c = .ok m1 → m1.original.length ≤ bound → Built bound tok m1
  | popped (m m1 : MaybeNumber) : Built bound tok m →
      pop_back m = .ok m1 → Built bound tok m1
  | appended (m m1 : MaybeNumber) (s : List Char) : Built bound tok m →
      append_string m s = .ok m1 → m1.original.length ≤ bound → Built bound tok m1
  | cleared (m m1 : MaybeNumber) : Built bound tok m →
      clear m = .ok m1 → Built bound tok m1

/-- The characters of a text whose flag in the mask is clear, in order. -/
def kept (s : List Char) (l : List Bool) : List Char :=
  ((s.zip l).filter (fun x => !x.2)).map Prod.fst

/-- The part of a text a slice stands for. -/
def text_range (s : List Char) (sl : Slice) : List Char :=
  (s.drop sl.start).take (sl.stop - sl.start)

/-- The slices of the unmatched characters of a mask that is given last flag
first and is followed by `r` more unmatched characters. -/
def slices_rev : List Bool → Nat → List Slice
  | [], r => if r = 0 then [] else [⟨0, r⟩]
  | false :: rest, r => slices_rev rest (r + 1)
  | true :: rest, r =>
    slices_rev rest 0 ++ (if r = 0 then [] else [⟨rest.length + 1, rest.length + 1 + r⟩])

end MaybeNumber

/-! ## Theorems -/

namespace MaybeNumber

/-! ### The record view of the vector of bitmasks -/

theorem adjust_loop_toList (v : Histories) (tok c : Char) (len : Nat) :
    adjust_loop tok c len (List.range v.toList.length) v.toList = (v.push tok c len).toList := by
  simp [adjust_loop, Histories.toList, Histories.push, Bitmask.push_back, alt_func,
    acceptable_start_scan, shift_in, start_bit, List.range, List.range.loop]


theorem map_pop_toList (v : Histories) :
    v.toList.map Bitmask.pop_back = (v.map (fun b => b >>> 1)).toList := rfl

theorem get_numberelem (v : Histories) :
    get_bitmask_in "ISNUMBERELEM" v.toList = .ok ⟨"ISNUMBERELEM", v.numberelem⟩ := rfl

theorem get_dash (v : Histories) :
    get_bitmask_in "ISDASH" v.toList = .ok ⟨"ISDASH", v.dash⟩ := rfl

theorem get_dot (v : Histories) :
    get_bitmask_in "ISDOT" v.toList = .ok ⟨"ISDOT", v.dot⟩ := rfl

theorem get_digit (v : Histories) :
    get_bitmask_in "ISDIGIT" v.toList = .ok ⟨"ISDIGIT", v.digit⟩ := rfl

theorem get_defnotnumber (v : Histories) :
    get_bitmask_in "ISDEFNOTNUMBER" v.toList = .ok ⟨"ISDEFNOTNUMBER", v.defnotnumber⟩ := rfl

theorem get_acceptablestart (v : Histories) :
    get_bitmask_in "ISACCEPTABLESTART" v.toList
      = .ok ⟨"ISACCEPTABLESTART", v.acceptablestart⟩ := rfl

theorem get_closedparen (v : Histories) :
    get_bitmask_in "ISCLOSEDPAREN" v.toList = .ok ⟨"ISCLOSEDPAREN", v.closedparen⟩ := rfl

theorem get_openparen (v : Histories) :
    get_bitmask_in "ISOPENPAREN" v.toList = .ok ⟨"ISOPENPAREN", v.openparen⟩ := rfl

theorem get_percent (v : Histories) :
    get_bitmask_in "ISPERCENT" v.toList = .ok ⟨"ISPERCENT", v.percent⟩ := rfl

theorem get_currency (v : Histories) :
    get_bitmask_in "ISCURRENCY" v.toList = .ok ⟨"ISCURRENCY", v.currency⟩ := rfl

/-! ### Characters -/

theorem char_eq_of_toNat {c d : Char} (h : c.toNat = d.toNat) : c = d := by
  rw [← Char.ofNat_toNat c, ← Char.ofNat_toNat d, h]

theorem toNat_eq_iff (c d : Char) : c.toNat = d.toNat ↔ c = d :=
  ⟨char_eq_of_toNat, fun h => by rw [h]⟩

theorem toNat_46 (c : Char) : c.toNat = 46 ↔ c = '.' := toNat_eq_iff c '.'
theorem toNat_37 (c : Char) : c.toNat = 37 ↔ c = '%' := toNat_eq_iff c '%'
theorem toNat_40 (c : Char) : c.toNat = 40 ↔ c = '(' := toNat_eq_iff c '('
theorem toNat_45 (c : Char) : c.toNat = 45 ↔ c = '-' := toNat_eq_iff c '-'

theorem is_digit_iff (c : Char) :
    is_digit c = true ↔ c = '0' ∨ c = '1' ∨ c = '2' ∨ c = '3' ∨ c = '4' ∨ c = '5' ∨ c = '6'
      ∨ c = '7' ∨ c = '8' ∨ c = '9' := by
  constructor
  · intro h
    simp only [is_digit, Bool.and_eq_true, decide_eq_true_eq] at h
    obtain ⟨h1, h2⟩ := h
    have hc : c = Char.ofNat c.toNat := (Char.ofNat_toNat c).symm
    generalize c.toNat = n at *
    interval_cases n <;> simp [hc]
  · rintro (h | h | h | h | h | h | h | h | h | h) <;> subst h <;> decide

theorem digit_test (c : Char) (h0 : c ≠ NUL) (hdot : c ≠ '.') :
    (is_in c ALL_NUM_ELEMENTS 24 && not_in c IGNORE 13) = is_digit c := by
  by_cases hd : is_digit c = true
  · rw [hd]
    rcases (is_digit_iff c).1 hd with (h | h | h | h | h | h | h | h | h | h) <;> subst h <;> decide
  · have hd' : is_digit c = false := by simpa using hd
    rw [hd']
    have hn := (not_congr (is_digit_iff c)).1 hd
    simp only [not_or] at hn
    simp [is_in, not_in, ALL_NUM_ELEMENTS, IGNORE, CURR1, CURR2, List.take]
    intro h
    have h0' : ¬ (Char.ofNat 0 = c) := fun e => h0 (by rw [← e]; rfl)
    simp [eq_comm] at h
    tauto

/-! ### `push_back` and `pop_back` on the record view -/

theorem isdot_toToken (a : Model) : isdot a.toToken = .ok a.hists.dot := rfl

theorem adjust_push_toToken (a : Model) (c : Char) :
    _adjust_bits_push a.toToken c
      = ({ a with hists := a.hists.push a.token c a.len, len := a.len + 1 } : Model).toToken := by
  simp only [_adjust_bits_push, Model.toToken, adjust_loop_toList]

theorem mult_step_toToken (a : Model) (c : Char) :
    (if c = '(' ∨ c = '-' then { a.toToken with _multiplier := a.toToken._multiplier * (-1) }
      else if c = '%' then { a.toToken with _multiplier := a.toToken._multiplier * (1 / 100) }
      else a.toToken)
      = ({ a with multiplier := a.multiplier * mult_factor c } : Model).toToken := by
  unfold mult_factor
  split_ifs <;> simp [Model.toToken]

theorem push_back_toToken (a : Model) (c : Char) :
    push_back a.toToken c = .ok (a.push c).toToken := by
  unfold push_back Model.push
  by_cases h0 : c = NUL
  · simp [h0]; rfl
  · simp only [h0, if_false, mult_step_toToken, adjust_push_toToken]
    by_cases hdot : c = '.'
    · subst hdot
      simp [Model.toToken]
      rfl
    · have h46 : ¬ c.toNat = 46 := fun h => hdot ((toNat_46 c).1 h)
      rw [digit_test c h0 hdot]
      simp only [h46, hdot, if_false]
      by_cases hd : is_digit c = true
      · simp only [hd, if_true]
        simp only [isdot, _get_bitmask, Model.toToken, get_dot, bind, Except.bind, pure, Except.pure]
        split_ifs <;> rfl
      · simp only [hd]
        simp [Model.toToken]
        rfl

theorem is_digit_range (c : Char) : (c.toNat ≥ 48 ∧ c.toNat < 58) ↔ is_digit c = true := by
  simp [is_digit]

theorem is_digit_not_marker (c : Char) (hd : is_digit c = true) :
    c ≠ '.' ∧ c ≠ '%' ∧ c ≠ '(' ∧ c ≠ '-' ∧ c ≠ NUL := by
  rcases (is_digit_iff c).1 hd with (h | h | h | h | h | h | h | h | h | h) <;> subst h <;> decide

theorem pop_back_toToken (a : Model) (c : Char) (h : a.text.getLast? = some c) :
    pop_back a.toToken = .ok (a.pop_char c).toToken := by
  unfold pop_back _pop_back_internals
  have e1 : (_adjust_bits_pop a.toToken).original = a.text := rfl
  simp only [e1, h, toNat_37, toNat_40, toNat_45, toNat_46, is_digit_range]
  unfold Model.pop_char mult_unfactor
  by_cases hdot : c = '.'
  · subst hdot
    simp [Model.toToken, _adjust_bits_pop, map_pop_toList]
    rfl
  · by_cases hd : is_digit c = true
    · obtain ⟨-, h2, h3, h4, -⟩ := is_digit_not_marker c hd
      simp only [hdot, hd, h2, h3, h4, if_true, if_false, or_self, or_false, true_or]
      simp only [isdot, _get_bitmask, Model.toToken, _adjust_bits_pop, map_pop_toList, get_dot,
        bind, Except.bind, pure, Except.pure, mul_one]
      split_ifs <;> rfl
    · simp only [hdot, hd, if_false, or_self]
      by_cases h1 : c = '%'
      · subst h1
        simp [Model.toToken, _adjust_bits_pop, map_pop_toList]
        rfl
      · by_cases h2 : c = '(' ∨ c = '-'
        · simp [h1, h2, Model.toToken, _adjust_bits_pop, map_pop_toList]
          rfl
        · simp [h1, h2, Model.toToken, _adjust_bits_pop, map_pop_toList]
          rfl

theorem pop_back_empty (a : Model) (h : a.text = []) :
    pop_back a.toToken = .error .undefined_behaviour := by
  unfold pop_back _pop_back_internals
  have e1 : (_adjust_bits_pop a.toToken).original = a.text := rfl
  simp [e1, h]

theorem setup_toToken (tok : Char) : _setup tok = (Model.init tok).toToken := rfl

theorem foldlM_push_toToken (s : List Char) (a : Model) :
    s.foldlM push_back a.toToken = .ok (s.foldl Model.push a).toToken := by
  induction s generalizing a with
  | nil => rfl
  | cons c s ih =>
    simp only [List.foldlM_cons, List.foldl_cons, push_back_toToken]
    exact ih (a.push c)

theorem construct_eq (s : List Char) (tok : Char) :
    construct s tok = .ok (model_of tok s).toToken := by
  unfold construct model_of
  rw [setup_toToken]
  exact foldlM_push_toToken s _

/-! ### Appending and removing -/

theorem shift_in_eq (b : Nat) (bit : Bool) :
    shift_in b bit = 2 * (b % 2 ^ 63) + bit.toNat := by
  unfold shift_in
  have h1 : (b <<< 1) % 2 ^ 64 = 2 ^ 1 * (b % 2 ^ 63) := by
    rw [Nat.shiftLeft_eq]; omega
  rw [h1]
  have hb : bit.toNat < 2 ^ 1 := by cases bit <;> simp
  rw [← Nat.mul_add_lt_is_or hb]

theorem shift_in_lt (b : Nat) (bit : Bool) : shift_in b bit < 2 ^ 64 := by
  rw [shift_in_eq]
  have : bit.toNat ≤ 1 := by cases bit <;> simp
  omega

theorem shift_in_lt_pow (b n : Nat) (bit : Bool) (h : b < 2 ^ n) : shift_in b bit < 2 ^ (n + 1) := by
  rw [shift_in_eq]
  have : bit.toNat ≤ 1 := by cases bit <;> simp
  have h2 : b % 2 ^ 63 ≤ b := Nat.mod_le _ _
  rw [pow_succ]
  omega

theorem model_of_snoc (tok : Char) (s : List Char) (c : Char) :
    model_of tok (s ++ [c]) = (model_of tok s).push c := by
  simp [model_of, List.foldl_append]

theorem push_hists_lt (a : Model) (c : Char) (h : a.hists.All (fun b => b < 2 ^ a.text.length)) :
    (a.push c).hists.All (fun b => b < 2 ^ (a.push c).text.length) := by
  unfold Model.push
  by_cases h0 : c = NUL
  · simpa [h0] using h
  · have ht : ∀ b : Model, b.hists = a.hists.push a.token c a.len → b.text = a.text ++ [c] →
        b.hists.All (fun x => x < 2 ^ b.text.length) := by
      intro b hb htx
      rw [hb, htx]
      simp only [List.length_append, List.length_singleton]
      obtain ⟨h1, h2, h3, h4, h5, h6, h7, h8, h9, h10, h11, h12, h13, h14⟩ := h
      exact ⟨shift_in_lt_pow _ _ _ h1, shift_in_lt_pow _ _ _ h2, shift_in_lt_pow _ _ _ h3,
        shift_in_lt_pow _ _ _ h4, shift_in_lt_pow _ _ _ h5, shift_in_lt_pow _ _ _ h6,
        shift_in_lt_pow _ _ _ h7, shift_in_lt_pow _ _ _ h8, shift_in_lt_pow _ _ _ h9,
        shift_in_lt_pow _ _ _ h10, shift_in_lt_pow _ _ _ h11, shift_in_lt_pow _ _ _ h12,
        shift_in_lt_pow _ _ _ h13, shift_in_lt_pow _ _ _ h14⟩
    simp only [h0, if_false]
    split_ifs <;> exact ht _ rfl rfl

theorem model_of_hists_lt (tok : Char) (s : List Char) :
    (model_of tok s).hists.All (fun b => b < 2 ^ (model_of tok s).text.length) := by
  induction s using List.reverseRecOn with
  | nil => simp [model_of, Model.init, Histories.All, Histories.zero]
  | append_singleton s c ih =>
    rw [model_of_snoc]
    exact push_hists_lt _ c ih

theorem push_text (a : Model) (c : Char) (h0 : c ≠ NUL) : (a.push c).text = a.text ++ [c] := by
  unfold Model.push
  simp only [h0, if_false]
  split_ifs <;> rfl

theorem model_of_text (tok : Char) (s : List Char) (hs : ∀ c ∈ s, c ≠ NUL) :
    (model_of tok s).text = s := by
  induction s using List.reverseRecOn with
  | nil => rfl
  | append_singleton s c ih =>
    rw [model_of_snoc, push_text _ _ (hs c (by simp)), ih (fun x hx => hs x (by simp [hx]))]

theorem pop_char_text (a : Model) (c : Char) : (a.pop_char c).text = a.text.dropLast := by
  unfold Model.pop_char
  simp only
  split_ifs <;> rfl

theorem pop_char_hists (a : Model) (c : Char) :
    (a.pop_char c).hists = a.hists.map (fun b => b >>> 1) := by
  unfold Model.pop_char
  simp only
  split_ifs <;> rfl

theorem pop_back_n_toToken (n : Nat) : ∀ a : Model, n ≤ a.text.length →
    ∃ b : Model, pop_back_n n a.toToken = .ok b.toToken
      ∧ b.text = a.text.take (a.text.length - n)
      ∧ b.hists = a.hists.map (fun x => x >>> n) := by
  induction n with
  | zero =>
    intro a _
    exact ⟨a, rfl, by simp, by cases a; simp [Histories.map]⟩
  | succ n ih =>
    intro a hn
    have hne : a.text ≠ [] := by
      intro h; rw [h] at hn; simp at hn
    obtain ⟨c, hc⟩ : ∃ c, a.text.getLast? = some c := by
      cases h : a.text.getLast? with
      | none => exact absurd (List.getLast?_eq_none_iff.1 h) hne
      | some c => exact ⟨c, rfl⟩
    have hlen : n ≤ (a.pop_char c).text.length := by
      rw [pop_char_text, List.length_dropLast]; omega
    obtain ⟨b, hb1, hb2, hb3⟩ := ih (a.pop_char c) hlen
    refine ⟨b, ?_, ?_, ?_⟩
    · simp only [pop_back_n, pop_back_toToken a c hc, bind, Except.bind]
      exact hb1
    · rw [hb2, pop_char_text, List.length_dropLast, List.dropLast_eq_take, List.take_take]
      congr 1
      omega
    · rw [hb3, pop_char_hists]
      simp only [Histories.map, ← Nat.shiftRight_add]
      simp [Nat.add_comm]

theorem toList_names (v : Histories) : v.toList.map Bitmask.name = bitmask_names := rfl

theorem toList_all_zero (v : Histories) (h : v.All (fun b => b = 0)) :
    ∀ b ∈ v.toList, b.bitmask = 0 := by
  obtain ⟨h1, h2, h3, h4, h5, h6, h7, h8, h9, h10, h11, h12, h13, h14⟩ := h
  intro b hb
  simp only [Histories.toList, List.mem_cons, List.mem_singleton, List.not_mem_nil,
    or_false] at hb
  rcases hb with (e | e | e | e | e | e | e | e | e | e | e | e | e | e) <;> subst e <;>
    assumption

theorem shiftRight_eq_zero_of_lt (x n : Nat) (h : x < 2 ^ n) : x >>> n = 0 := by
  rw [Nat.shiftRight_eq_div_pow]
  exact Nat.div_eq_of_lt h

/-- C1: appending any `n` non-NUL characters to an empty token and then calling
`pop_back` `n` times succeeds and leaves the token empty (`size() = 0`,
`unwrapped() = ""`) with each of the fourteen histories equal to 0, for
every `n` (also beyond 64). -/
theorem C1_append_then_remove_all (s : List Char) (tok : Char) (hs : ∀ c ∈ s, c ≠ NUL) :
    ∃ m m1, construct s tok = .ok m ∧ pop_back_n s.length m = .ok m1
      ∧ size m1 = 0 ∧ unwrapped m1 = []
      ∧ m1.the_bitmasks.map Bitmask.name = bitmask_names
      ∧ ∀ b ∈ m1.the_bitmasks, b.bitmask = 0 := by
  have htext := model_of_text tok s hs
  have hlt := model_of_hists_lt tok s
  obtain ⟨b, hb1, hb2, hb3⟩ := pop_back_n_toToken s.length (model_of tok s) (by rw [htext])
  rw [htext] at hb2 hlt
  simp only [Nat.sub_self, List.take_zero] at hb2
  refine ⟨_, _, construct_eq s tok, hb1, ?_, ?_, ?_, ?_⟩
  · simp [size, Model.toToken, hb2]
  · simp [unwrapped, Model.toToken, hb2]
  · exact toList_names _
  · apply toList_all_zero
    rw [hb3]
    obtain ⟨h1, h2, h3, h4, h5, h6, h7, h8, h9, h10, h11, h12, h13, h14⟩ := hlt
    exact ⟨shiftRight_eq_zero_of_lt _ _ h1, shiftRight_eq_zero_of_lt _ _ h2,
      shiftRight_eq_zero_of_lt _ _ h3, shiftRight_eq_zero_of_lt _ _ h4,
      shiftRight_eq_zero_of_lt _ _ h5, shiftRight_eq_zero_of_lt _ _ h6,
      shiftRight_eq_zero_of_lt _ _ h7, shiftRight_eq_zero_of_lt _ _ h8,
      shiftRight_eq_zero_of_lt _ _ h9, shiftRight_eq_zero_of_lt _ _ h10,
      shiftRight_eq_zero_of_lt _ _ h11, shiftRight_eq_zero_of_lt _ _ h12,
      shiftRight_eq_zero_of_lt _ _ h13, shiftRight_eq_zero_of_lt _ _ h14⟩

/-- C1 at the text `"$1,2a"`. -/
theorem C1_append_then_remove_all_witness :
    (∀ c ∈ "$1,2a".toList, c ≠ NUL) ∧
    ∃ m m1, construct "$1,2a".toList ' ' = .ok m ∧ pop_back_n "$1,2a".toList.length m = .ok m1
      ∧ size m1 = 0 ∧ unwrapped m1 = []
      ∧ m1.the_bitmasks.map Bitmask.name = bitmask_names
      ∧ ∀ b ∈ m1.the_bitmasks, b.bitmask = 0 :=
  ⟨by decide, C1_append_then_remove_all "$1,2a".toList ' ' (by decide)⟩

theorem mult_factor_unfactor (c : Char) : mult_factor c * mult_unfactor c = 1 := by
  unfold mult_factor mult_unfactor
  split_ifs <;> norm_num

theorem push_getLast (a : Model) (c : Char) (h0 : c ≠ NUL) :
    (a.push c).text.getLast? = some c := by
  rw [push_text a c h0]; simp

theorem push_multiplier (a : Model) (c : Char) (h0 : c ≠ NUL) :
    (a.push c).multiplier = a.multiplier * mult_factor c := by
  unfold Model.push
  simp only [h0, if_false]
  split_ifs <;> rfl

theorem pop_char_multiplier (a : Model) (c : Char) :
    (a.pop_char c).multiplier = a.multiplier * mult_unfactor c := by
  unfold Model.pop_char
  simp only
  split_ifs <;> rfl

theorem push_hists (a : Model) (c : Char) (h0 : c ≠ NUL) :
    (a.push c).hists = a.hists.push a.token c a.len := by
  unfold Model.push
  simp only [h0, if_false]
  split_ifs <;> rfl

theorem shift_in_shiftRight (b : Nat) (bit : Bool) : shift_in b bit >>> 1 = b % 2 ^ 63 := by
  rw [shift_in_eq, Nat.shiftRight_eq_div_pow]
  have : bit.toNat ≤ 1 := by cases bit <;> simp
  omega

theorem push_pop_forcenumber (a : Model) (c : Char) (h0 : c ≠ NUL) :
    ((a.push c).pop_char c).forcenumber = a.forcenumber := by
  have hdotbit : ((a.push c).hists.map (fun b => b >>> 1)).dot = a.hists.dot % 2 ^ 63 := by
    rw [push_hists a c h0]
    simp [Histories.map, Histories.push, shift_in_shiftRight]
  unfold Model.pop_char
  simp only [hdotbit]
  by_cases hdot : c = '.'
  · subst hdot
    simp [Model.push, h0]
  · by_cases hd : is_digit c = true
    · have hpd : (a.hists.push a.token c a.len).dot = 2 * (a.hists.dot % 2 ^ 63) := by
        simp [Histories.push, shift_in_eq, hdot]
      simp only [hdot, hd, if_true, if_false]
      by_cases hz : a.hists.dot % 2 ^ 63 = 0
      · have hz2 : (a.hists.push a.token c a.len).dot = 0 := by rw [hpd, hz]
        have hz3 : a.hists.dot % 9223372036854775808 = 0 := hz
        simp [Model.push, h0, hdot, hd, hz3, hz2]
      · have hz2 : (a.hists.push a.token c a.len).dot ≠ 0 := by rw [hpd]; omega
        have hz3 : ¬ a.hists.dot % 9223372036854775808 = 0 := hz
        simp [Model.push, h0, hdot, hd, hz3, hz2]
        ring
    · simp [Model.push, h0, hdot, hd]

/-- C3: on a token built by appends, `push_back(c)` for a non-NUL `c` followed
at once by `pop_back()` succeeds and leaves `force_to_number()`
(`_forcenumber * _multiplier`, in exact arithmetic) as it was. -/
theorem C3_push_then_pop_keeps_value (s : List Char) (tok c : Char) (hc : c ≠ NUL) :
    ∃ m m1 m2, construct s tok = .ok m ∧ push_back m c = .ok m1 ∧ pop_back m1 = .ok m2
      ∧ force_to_number m2 = force_to_number m := by
  refine ⟨_, _, _, construct_eq s tok, push_back_toToken _ c,
    pop_back_toToken _ c (push_getLast _ c hc), ?_⟩
  simp only [force_to_number, Model.toToken, push_pop_forcenumber _ c hc, pop_char_multiplier,
    push_multiplier _ c hc, mul_assoc, mult_factor_unfactor, mul_one]

/-- C3 at the token `"1.5"` and the character `'7'`. -/
theorem C3_push_then_pop_keeps_value_witness :
    '7' ≠ NUL ∧
    ∃ m m1 m2, construct "1.5".toList ' ' = .ok m ∧ push_back m '7' = .ok m1
      ∧ pop_back m1 = .ok m2 ∧ force_to_number m2 = force_to_number m :=
  ⟨by decide, C3_push_then_pop_keeps_value "1.5".toList ' ' '7' (by decide)⟩

/-- C2 (the code at the claim's own example): after building `"1.2"`, appending
`'.'`, removing it and appending `'3'` the text is `"1.23"` and the value is
`21/5`, while a token constructed from `"1.23"` has the value `123/100`; and
removing all five characters of `"1.2.3"` leaves the value `-99/50`, not 0. -/
theorem C2_value_depends_on_the_history :
    (do let m ← construct "1.2".toList ' '
        let m ← push_back m '.'
        let m ← pop_back m
        let m ← push_back m '3'
        pure (unwrapped m, force_to_number m))
      = (Except.ok ("1.23".toList, (21 / 5 : ℚ)) : Except Error (List Char × ℚ))
    ∧ (construct "1.23".toList ' ').map force_to_number = .ok (123 / 100)
    ∧ (do let m ← construct "1.2.3".toList ' '
          let m ← pop_back_n 5 m
          pure (unwrapped m, force_to_number m))
      = (Except.ok ([], (-99 / 50 : ℚ)) : Except Error (List Char × ℚ)) := by
  decide!

/-! ### Histories of a text -/

theorem hist_snoc (p : Char → Bool) (s : List Char) (c : Char) :
    hist p (s ++ [c]) = shift_in (hist p s) (p c) := by
  simp [hist, List.foldl_append]

theorem hist_lt (p : Char → Bool) (s : List Char) : hist p s < 2 ^ s.length := by
  induction s using List.reverseRecOn with
  | nil => simp [hist]
  | append_singleton s c ih =>
    rw [hist_snoc, List.length_append, List.length_singleton]
    exact shift_in_lt_pow _ _ _ ih

theorem hist_snoc_of_lt (p : Char → Bool) (s : List Char) (c : Char) (h : s.length < 64) :
    hist p (s ++ [c]) = 2 * hist p s + (p c).toNat := by
  rw [hist_snoc, shift_in_eq]
  have h1 := hist_lt p s
  have h2 : (2 : Nat) ^ s.length ≤ 2 ^ 63 := Nat.pow_le_pow_right (by norm_num) (by omega)
  rw [Nat.mod_eq_of_lt (by omega)]

theorem hist_eq_zero_iff (p : Char → Bool) (s : List Char) (h : s.length ≤ 64) :
    hist p s = 0 ↔ ∀ c ∈ s, p c = false := by
  induction s using List.reverseRecOn with
  | nil => simp [hist]
  | append_singleton s c ih =>
    rw [List.length_append, List.length_singleton] at h
    rw [hist_snoc_of_lt p s c (by omega)]
    have ih2 := ih (by omega)
    constructor
    · intro h0
      have hs : hist p s = 0 := by omega
      have hc : (p c).toNat = 0 := by omega
      intro x hx
      rcases List.mem_append.1 hx with hx | hx
      · exact ih2.1 hs x hx
      · have hxc : x = c := by simpa using hx
        rw [hxc]
        cases hpc : p c
        · rfl
        · rw [hpc] at hc; simp at hc
    · intro hall
      have hs : hist p s = 0 := ih2.2 (fun x hx => hall x (by simp [hx]))
      have hc : p c = false := hall c (by simp)
      rw [hs, hc]; rfl

theorem hist_ne_zero_of_mem (p : Char → Bool) (s : List Char) (h : s.length ≤ 64) (c : Char)
    (hc : c ∈ s) (hp : p c = true) : hist p s ≠ 0 := by
  intro h0
  have := (hist_eq_zero_iff p s h).1 h0 c hc
  rw [hp] at this
  exact Bool.noConfusion this

theorem mem_of_hist_ne_zero (p : Char → Bool) (s : List Char) (h : hist p s ≠ 0) :
    ∃ c ∈ s, p c = true := by
  induction s using List.reverseRecOn with
  | nil => simp [hist] at h
  | append_singleton s c ih =>
    by_cases hc : p c = true
    · exact ⟨c, by simp, hc⟩
    · have hc2 : p c = false := by simpa using hc
      rw [hist_snoc, shift_in_eq, hc2] at h
      have hs : hist p s ≠ 0 := by
        intro h0; rw [h0] at h; simp at h
      obtain ⟨x, hx, hpx⟩ := ih hs
      exact ⟨x, by simp [hx], hpx⟩

theorem two_pow_and_pred (k : Nat) : 2 ^ k &&& (2 ^ k - 1) = 0 := by
  rw [Nat.and_pow_two_sub_one_eq_mod]
  exact Nat.mod_self _

theorem hist_zero_or_pow (p : Char → Bool) (s : List Char) (h : s.length ≤ 64)
    (hcount : s.countP p ≤ 1) :
    (s.countP p = 0 ∧ hist p s = 0) ∨ (s.countP p = 1 ∧ ∃ k, hist p s = 2 ^ k) := by
  induction s using List.reverseRecOn with
  | nil => left; simp [hist]
  | append_singleton s c ih =>
    rw [List.length_append, List.length_singleton] at h
    rw [hist_snoc_of_lt p s c (by omega)]
    rw [List.countP_append, List.countP_singleton] at hcount ⊢
    cases hpc : p c
    · simp only [hpc, Bool.false_eq_true, if_false, Nat.add_zero, Bool.toNat_false] at hcount ⊢
      rcases ih (by omega) hcount with ⟨h1, h2⟩ | ⟨h1, k, h2⟩
      · left; exact ⟨h1, by rw [h2]⟩
      · right; exact ⟨h1, k + 1, by rw [h2, pow_succ]; ring⟩
    · simp only [hpc, if_true, Bool.toNat_true] at hcount ⊢
      have hc0 : s.countP p = 0 := by omega
      rcases ih (by omega) (by omega) with ⟨h1, h2⟩ | ⟨h1, k, h2⟩
      · right; exact ⟨by omega, 0, by rw [h2]; rfl⟩
      · omega

theorem hist_single (p : Char → Bool) (s : List Char) (h : s.length ≤ 64)
    (hcount : s.countP p ≤ 1) : hist p s &&& (hist p s - 1) = 0 := by
  rcases hist_zero_or_pow p s h hcount with ⟨-, h2⟩ | ⟨-, k, h2⟩
  · rw [h2]; rfl
  · rw [h2]; exact two_pow_and_pred k

/-! ### The model of a text -/

theorem push_token (a : Model) (c : Char) : (a.push c).token = a.token := by
  unfold Model.push
  simp only
  split_ifs <;> rfl

theorem model_of_token (tok : Char) (s : List Char) : (model_of tok s).token = tok := by
  induction s using List.reverseRecOn with
  | nil => rfl
  | append_singleton s c ih => rw [model_of_snoc, push_token, ih]

theorem push_len (a : Model) (c : Char) (h0 : c ≠ NUL) : (a.push c).len = a.len + 1 := by
  unfold Model.push
  simp only [h0, if_false]
  split_ifs <;> rfl

theorem model_of_len (tok : Char) (s : List Char) (hs : ∀ c ∈ s, c ≠ NUL) :
    (model_of tok s).len = s.length := by
  induction s using List.reverseRecOn with
  | nil => rfl
  | append_singleton s c ih =>
    rw [model_of_snoc, push_len _ _ (hs c (by simp)), ih (fun x hx => hs x (by simp [hx]))]
    simp

theorem model_of_field (f : Histories → Nat) (p : Char → Bool) (tok : Char)
    (hz : f Histories.zero = 0)
    (hf : ∀ v c len, f (v.push tok c len) = shift_in (f v) (p c))
    (s : List Char) (hs : ∀ c ∈ s, c ≠ NUL) :
    f (model_of tok s).hists = hist p s := by
  induction s using List.reverseRecOn with
  | nil => simpa [model_of, Model.init, hist] using hz
  | append_singleton s c ih =>
    rw [model_of_snoc, push_hists _ _ (hs c (by simp)), model_of_token, hf, hist_snoc,
      ih (fun x hx => hs x (by simp [hx]))]

theorem model_of_dot (tok : Char) (s : List Char) (hs : ∀ c ∈ s, c ≠ NUL) :
    (model_of tok s).hists.dot = hist (fun c => c == '.') s :=
  model_of_field (fun v => v.dot) _ tok rfl (fun _ _ _ => rfl) s hs

theorem model_of_dash (tok : Char) (s : List Char) (hs : ∀ c ∈ s, c ≠ NUL) :
    (model_of tok s).hists.dash = hist (fun c => c == '-') s :=
  model_of_field (fun v => v.dash) _ tok rfl (fun _ _ _ => rfl) s hs

theorem model_of_openparen (tok : Char) (s : List Char) (hs : ∀ c ∈ s, c ≠ NUL) :
    (model_of tok s).hists.openparen = hist (fun c => c == '(') s :=
  model_of_field (fun v => v.openparen) _ tok rfl (fun _ _ _ => rfl) s hs

theorem model_of_closedparen (tok : Char) (s : List Char) (hs : ∀ c ∈ s, c ≠ NUL) :
    (model_of tok s).hists.closedparen = hist (fun c => c == ')') s :=
  model_of_field (fun v => v.closedparen) _ tok rfl (fun _ _ _ => rfl) s hs

theorem model_of_percent (tok : Char) (s : List Char) (hs : ∀ c ∈ s, c ≠ NUL) :
    (model_of tok s).hists.percent = hist (fun c => c == '%') s :=
  model_of_field (fun v => v.percent) _ tok rfl (fun _ _ _ => rfl) s hs

theorem model_of_currency (tok : Char) (s : List Char) (hs : ∀ c ∈ s, c ≠ NUL) :
    (model_of tok s).hists.currency = hist (fun c => is_in c CURRENCIES 2) s :=
  model_of_field (fun v => v.currency) _ tok rfl (fun _ _ _ => rfl) s hs

theorem model_of_digit (tok : Char) (s : List Char) (hs : ∀ c ∈ s, c ≠ NUL) :
    (model_of tok s).hists.digit = hist is_digit s :=
  model_of_field (fun v => v.digit) _ tok rfl (fun _ _ _ => rfl) s hs

theorem model_of_numberelem (tok : Char) (s : List Char) (hs : ∀ c ∈ s, c ≠ NUL) :
    (model_of tok s).hists.numberelem = hist (fun c => is_in c ALL_NUM_ELEMENTS 24) s :=
  model_of_field (fun v => v.numberelem) _ tok rfl (fun _ _ _ => rfl) s hs

theorem model_of_defnotnumber (tok : Char) (s : List Char) (hs : ∀ c ∈ s, c ≠ NUL) :
    (model_of tok s).hists.defnotnumber = hist (fun c => not_in c ALL_NUM_ELEMENTS 24) s :=
  model_of_field (fun v => v.defnotnumber) _ tok rfl (fun _ _ _ => rfl) s hs

/-! ### The record view of `isnumber` -/

theorem doubled_step (x : Nat) (k : Except Error Bool) :
    (if x = 0 then k else if x > 0 ∧ x &&& (x - 1) ≠ 0 then pure true else k)
      = if x &&& (x - 1) = 0 then k else .ok true := by
  by_cases h : x = 0
  · subst h; simp
  · have hp : x > 0 := Nat.pos_of_ne_zero h
    by_cases h2 : x &&& (x - 1) = 0
    · simp [h, h2]
    · simp [h, h2, hp]; rfl

theorem doubled_loop_toToken (a : Model) :
    doubled_loop a.toToken cannot_be_doubled
      = .ok (decide (¬ (a.hists.dot &&& (a.hists.dot - 1) = 0
          ∧ a.hists.dash &&& (a.hists.dash - 1) = 0
          ∧ a.hists.currency &&& (a.hists.currency - 1) = 0
          ∧ a.hists.openparen &&& (a.hists.openparen - 1) = 0
          ∧ a.hists.closedparen &&& (a.hists.closedparen - 1) = 0
          ∧ a.hists.percent &&& (a.hists.percent - 1) = 0))) := by
  simp only [cannot_be_doubled, doubled_loop, _get_bitmask, Model.toToken, get_dot, get_dash,
    get_currency, get_openparen, get_closedparen, get_percent, bind, Except.bind, doubled_step]
  split_ifs <;> simp_all
  rfl

theorem isnumber_toToken (a : Model) :
    isnumber a.toToken =
      if a.hists.numberelem = 0 then .ok false
      else if a.hists.digit = 0 then .ok false
      else if a.hists.defnotnumber ≠ 0 then .ok false
      else if ¬ (a.hists.dot &&& (a.hists.dot - 1) = 0
          ∧ a.hists.dash &&& (a.hists.dash - 1) = 0
          ∧ a.hists.currency &&& (a.hists.currency - 1) = 0
          ∧ a.hists.openparen &&& (a.hists.openparen - 1) = 0
          ∧ a.hists.closedparen &&& (a.hists.closedparen - 1) = 0
          ∧ a.hists.percent &&& (a.hists.percent - 1) = 0) then .ok false
      else if a.hists.dash ≠ 0 ∧ a.hists.openparen ≠ 0 then .ok false
      else if a.hists.dash ≠ 0 ∧ a.hists.closedparen ≠ 0 then .ok false
      else if a.hists.openparen ≠ 0 ∧ a.hists.closedparen = 0 then .ok false
      else if a.hists.closedparen ≠ 0 ∧ a.hists.openparen = 0 then .ok false
      else (negative_check a.toToken).bind (fun r =>
        if r = false then .ok false
        else (percent_check a.toToken).bind (fun q =>
          if q = false then .ok false else .ok true)) := by
  unfold isnumber
  rw [doubled_loop_toToken]
  simp only [_get_bitmask, Model.toToken, get_numberelem, get_digit, get_defnotnumber, get_dash,
    get_openparen, get_closedparen, bind, Except.bind, pure, Except.pure]
  by_cases h1 : a.hists.numberelem = 0
  · simp only [h1, if_true]
  simp only [h1, if_false]
  by_cases h2 : a.hists.digit = 0
  · simp only [h2, if_true]
  simp only [h2, if_false]
  by_cases h3 : a.hists.defnotnumber = 0
  swap
  · simp only [h3, ne_eq, not_false_eq_true, if_true]
  simp only [h3, ne_eq, not_true_eq_false, if_false]
  simp only [decide_eq_true_eq]

theorem negative_check_of_nonneg (a : Model) (h : ¬ a.multiplier < 0) :
    negative_check a.toToken = .ok true := by
  unfold negative_check
  have : ¬ a.toToken._multiplier < 0 := h
  simp only [this, if_false]
  rfl

theorem percent_check_of_zero (a : Model) (h : a.hists.percent = 0) :
    percent_check a.toToken = .ok true := by
  unfold percent_check
  have e : _get_bitmask a.toToken "ISPERCENT" = .ok ⟨"ISPERCENT", a.hists.percent⟩ :=
    get_percent _
  rw [e]
  show (if a.hists.percent > 0 then _ else pure true) = _
  rw [if_neg (by rw [h]; exact Nat.lt_irrefl 0)]
  rfl

/-! ### The numeric accumulator of a text -/

theorem takeWhile_dropWhile_of_not_mem (s : List Char) (h : '.' ∉ s) :
    s.takeWhile (fun c => c != '.') = s ∧ s.dropWhile (fun c => c != '.') = [] := by
  induction s with
  | nil => simp
  | cons x s ih =>
    have hx : x ≠ '.' := fun e => h (by simp [e])
    have hx2 : (x != '.') = true := by simpa using hx
    have hs : '.' ∉ s := fun e => h (by simp [e])
    simp [List.takeWhile, List.dropWhile, hx2, ih hs]

theorem takeWhile_dropWhile_append_of_mem (s t : List Char) (h : '.' ∈ s) :
    (s ++ t).takeWhile (fun c => c != '.') = s.takeWhile (fun c => c != '.')
    ∧ (s ++ t).dropWhile (fun c => c != '.') = s.dropWhile (fun c => c != '.') ++ t := by
  induction s with
  | nil => simp at h
  | cons x s ih =>
    by_cases hx : x = '.'
    · subst hx; simp [List.takeWhile, List.dropWhile]
    · have hs : '.' ∈ s := by
        rcases List.mem_cons.1 h with e | e
        · exact absurd e.symm hx
        · exact e
      have hx2 : (x != '.') = true := by simpa using hx
      simp [List.takeWhile, List.dropWhile, hx2, ih hs]

theorem takeWhile_dropWhile_snoc_dot (s : List Char) (h : '.' ∉ s) :
    (s ++ ['.']).takeWhile (fun c => c != '.') = s
    ∧ (s ++ ['.']).dropWhile (fun c => c != '.') = ['.'] := by
  induction s with
  | nil => simp [List.takeWhile, List.dropWhile]
  | cons x s ih =>
    have hx : x ≠ '.' := fun e => h (by simp [e])
    have hx2 : (x != '.') = true := by simpa using hx
    have hs : '.' ∉ s := fun e => h (by simp [e])
    simp [List.takeWhile, List.dropWhile, hx2, ih hs]

theorem digits_value_snoc (t : List Char) (c : Char) :
    digits_value (t ++ [c])
      = if is_digit c = true then 10 * digits_value t + digit_value c else digits_value t := by
  unfold digits_value
  by_cases h : is_digit c = true
  · simp [List.filter_append, List.filter, h, List.foldl_append]
  · simp [List.filter_append, List.filter, h]

theorem digit_count_snoc (t : List Char) (c : Char) :
    digit_count (t ++ [c]) = if is_digit c = true then digit_count t + 1 else digit_count t := by
  unfold digit_count
  by_cases h : is_digit c = true
  · simp [List.filter_append, List.filter, h]
  · simp [List.filter_append, List.filter, h]

theorem cast_digit (c : Char) (h : is_digit c = true) :
    ((c.toNat : ℚ) - 48) = (digit_value c : ℚ) := by
  have h2 : 48 ≤ c.toNat := ((is_digit_range c).2 h).1
  unfold digit_value
  rw [Nat.cast_sub h2]
  norm_num

theorem decimal_reading_of_not_mem (s : List Char) (h : '.' ∉ s) :
    decimal_reading s = digits_value s := by
  unfold decimal_reading
  obtain ⟨h1, h2⟩ := takeWhile_dropWhile_of_not_mem s h
  simp [h1, h2, digits_value, digit_count]

theorem decimal_reading_snoc_dot (s : List Char) (h : '.' ∉ s) :
    decimal_reading (s ++ ['.']) = digits_value s := by
  unfold decimal_reading
  obtain ⟨h1, h2⟩ := takeWhile_dropWhile_snoc_dot s h
  simp [h1, h2, digits_value, digit_count]

/-- The digits after the `'.'` of a text. -/
theorem fraction_snoc (s : List Char) (c : Char) (h : '.' ∈ s) :
    ((s ++ [c]).dropWhile (fun c => c != '.')).drop 1
      = (s.dropWhile (fun c => c != '.')).drop 1 ++ [c] := by
  rw [(takeWhile_dropWhile_append_of_mem s [c] h).2]
  have hne : s.dropWhile (fun c => c != '.') ≠ [] := by
    intro e
    have := List.dropWhile_eq_nil_iff.1 e '.' h
    simp at this
  cases hd : s.dropWhile (fun c => c != '.') with
  | nil => exact absurd hd hne
  | cons x r => simp

theorem push_dot_accumulator (a : Model) :
    (a.push '.').forcenumber = a.forcenumber ∧ (a.push '.').place = 1 / 10 := by
  have h0 : ('.' : Char) ≠ NUL := by decide
  simp [Model.push, h0]

theorem push_digit_accumulator (a : Model) (c : Char) (hd : is_digit c = true) :
    (shift_in a.hists.dot false = 0 →
      (a.push c).forcenumber = a.forcenumber * 10 + digit_value c ∧ (a.push c).place = a.place)
    ∧ (shift_in a.hists.dot false ≠ 0 →
      (a.push c).forcenumber = a.forcenumber + digit_value c * a.place
      ∧ (a.push c).place = a.place / 10) := by
  obtain ⟨h1, -, -, -, h0⟩ := is_digit_not_marker c hd
  have hb : (c == '.') = false := by simpa using h1
  have hpd : (a.hists.push a.token c a.len).dot = shift_in a.hists.dot false := by
    simp [Histories.push, hb]
  constructor
  · intro hz
    simp [Model.push, h0, h1, hd, hpd, hz, cast_digit c hd]
  · intro hz
    simp [Model.push, h0, h1, hd, hpd, hz, cast_digit c hd]

theorem push_other_accumulator (a : Model) (c : Char) (h1 : c ≠ '.')
    (hd : is_digit c = false) :
    (a.push c).forcenumber = a.forcenumber ∧ (a.push c).place = a.place := by
  by_cases h0 : c = NUL
  · simp [Model.push, h0]
  · simp [Model.push, h0, h1, hd]

theorem model_of_value (tok : Char) (s : List Char) (hs : ∀ c ∈ s, c ≠ NUL)
    (hlen : s.length ≤ 64) (hdot : s.count '.' ≤ 1) :
    (model_of tok s).forcenumber = decimal_reading s
    ∧ ('.' ∈ s → (model_of tok s).place
        = 1 / 10 ^ (digit_count ((s.dropWhile (fun c => c != '.')).drop 1) + 1)) := by
  induction s using List.reverseRecOn with
  | nil => simp [model_of, Model.init, decimal_reading, digits_value, digit_count]
  | append_singleton s c ih =>
    have hs2 : ∀ x ∈ s, x ≠ NUL := fun x hx => hs x (by simp [hx])
    rw [List.length_append, List.length_singleton] at hlen
    rw [List.count_append] at hdot
    obtain ⟨ihf, ihp⟩ := ih hs2 (by omega) (by omega)
    have hdh : shift_in (model_of tok s).hists.dot false = 0 ↔ '.' ∉ s := by
      have e : shift_in (model_of tok s).hists.dot false
          = hist (fun c => c == '.') (s ++ [','] ) := by
        rw [hist_snoc, model_of_dot tok s hs2]; rfl
      rw [e, hist_eq_zero_iff _ _ (by simp; omega)]
      constructor
      · intro h hm
        have := h '.' (by simp [hm])
        simp at this
      · intro h x hx
        rcases List.mem_append.1 hx with hx | hx
        · have : x ≠ '.' := fun e => h (e ▸ hx)
          simpa using this
        · have : x = ',' := by simpa using hx
          subst this; decide
    rw [model_of_snoc]
    by_cases hc : c = '.'
    · subst hc
      have hcount : s.count '.' = 0 := by
        simp at hdot; omega
      have hnm : '.' ∉ s := List.count_eq_zero.1 hcount
      obtain ⟨e1, e2⟩ := push_dot_accumulator (model_of tok s)
      refine ⟨?_, fun _ => ?_⟩
      · rw [e1, ihf, decimal_reading_snoc_dot s hnm, decimal_reading_of_not_mem s hnm]
      · rw [e2, (takeWhile_dropWhile_snoc_dot s hnm).2]
        simp [digit_count]
    · by_cases hd : is_digit c = true
      · obtain ⟨hz, hnz⟩ := push_digit_accumulator (model_of tok s) c hd
        by_cases hm : '.' ∈ s
        · obtain ⟨e1, e2⟩ := hnz (fun h => (hdh.1 h) hm)
          have hp := ihp hm
          refine ⟨?_, fun _ => ?_⟩
          · rw [e1, ihf, hp]
            unfold decimal_reading
            simp only [fraction_snoc s c hm, (takeWhile_dropWhile_append_of_mem s [c] hm).1,
              digits_value_snoc, digit_count_snoc, hd, if_true]
            push_cast
            field_simp
            ring
          · rw [e2, hp, fraction_snoc s c hm, digit_count_snoc]
            simp only [hd, if_true]
            field_simp
            ring
        · obtain ⟨e1, e2⟩ := hz (hdh.2 hm)
          have hm2 : '.' ∉ s ++ [c] := by
            simp [hm]; exact fun e => hc e.symm
          refine ⟨?_, fun h => absurd h hm2⟩
          rw [e1, ihf, decimal_reading_of_not_mem _ hm2, decimal_reading_of_not_mem _ hm,
            digits_value_snoc]
          simp only [hd, if_true]
          push_cast
          ring
      · have hd2 : is_digit c = false := by simpa using hd
        obtain ⟨e1, e2⟩ := push_other_accumulator (model_of tok s) c hc hd2
        by_cases hm : '.' ∈ s
        · refine ⟨?_, fun _ => ?_⟩
          · rw [e1, ihf]
            unfold decimal_reading
            simp only [fraction_snoc s c hm, (takeWhile_dropWhile_append_of_mem s [c] hm).1,
              digits_value_snoc, digit_count_snoc, hd2]
            simp
          · rw [e2, ihp hm, fraction_snoc s c hm, digit_count_snoc]
            simp [hd2]
        · have hm2 : '.' ∉ s ++ [c] := by
            simp [hm]; exact fun e => hc e.symm
          refine ⟨?_, fun h => absurd h hm2⟩
          rw [e1, ihf, decimal_reading_of_not_mem _ hm2, decimal_reading_of_not_mem _ hm,
            digits_value_snoc]
          simp [hd2]

theorem model_of_multiplier (tok : Char) (s : List Char) (hs : ∀ c ∈ s, c ≠ NUL) :
    (model_of tok s).multiplier = mult_of s := by
  induction s using List.reverseRecOn with
  | nil => simp [model_of, Model.init, mult_of]
  | append_singleton s c ih =>
    rw [model_of_snoc, push_multiplier _ _ (hs c (by simp)), ih (fun x hx => hs x (by simp [hx]))]
    simp [mult_of]

/-! ### Numeric tokens -/

theorem hist_eq_zero_of (p : Char → Bool) (s : List Char) (h : ∀ c ∈ s, p c = false) :
    hist p s = 0 := by
  induction s using List.reverseRecOn with
  | nil => rfl
  | append_singleton s c ih =>
    rw [hist_snoc, ih (fun x hx => h x (by simp [hx])), h c (by simp)]
    rfl

theorem mult_of_eq_one (s : List Char) (h : ∀ c ∈ s, c ≠ '(' ∧ c ≠ '-' ∧ c ≠ '%') :
    mult_of s = 1 := by
  unfold mult_of
  apply List.prod_eq_one
  intro x hx
  obtain ⟨c, hc, rfl⟩ := List.mem_map.1 hx
  obtain ⟨h1, h2, h3⟩ := h c hc
  simp [mult_factor, h1, h2, h3]

theorem digit_class (c : Char) (hd : is_digit c = true) :
    is_in c ALL_NUM_ELEMENTS 24 = true ∧ not_in c ALL_NUM_ELEMENTS 24 = false
    ∧ (c == '-') = false ∧ (c == '(') = false ∧ (c == ')') = false ∧ (c == '%') = false
    ∧ is_in c CURRENCIES 2 = false ∧ (c == '.') = false ∧ c ≠ ' ' ∧ c ≠ '$' := by
  rcases (is_digit_iff c).1 hd with (h | h | h | h | h | h | h | h | h | h) <;> subst h <;> decide

theorem isnumber_of_conditions (a : Model)
    (h1 : a.hists.numberelem ≠ 0) (h2 : a.hists.digit ≠ 0) (h3 : a.hists.defnotnumber = 0)
    (hdot : a.hists.dot &&& (a.hists.dot - 1) = 0)
    (hdash : a.hists.dash &&& (a.hists.dash - 1) = 0)
    (hcur : a.hists.currency &&& (a.hists.currency - 1) = 0)
    (hopen : a.hists.openparen &&& (a.hists.openparen - 1) = 0)
    (hclosed : a.hists.closedparen &&& (a.hists.closedparen - 1) = 0)
    (hpct : a.hists.percent &&& (a.hists.percent - 1) = 0)
    (hdo : ¬ (a.hists.dash ≠ 0 ∧ a.hists.openparen ≠ 0))
    (hdc : ¬ (a.hists.dash ≠ 0 ∧ a.hists.closedparen ≠ 0))
    (hoc : ¬ (a.hists.openparen ≠ 0 ∧ a.hists.closedparen = 0))
    (hco : ¬ (a.hists.closedparen ≠ 0 ∧ a.hists.openparen = 0))
    (hneg : negative_check a.toToken = .ok true)
    (hper : percent_check a.toToken = .ok true) :
    isnumber a.toToken = .ok true := by
  rw [isnumber_toToken, if_neg h1, if_neg h2, if_neg (not_not.2 h3),
    if_neg (not_not.2 ⟨hdot, hdash, hcur, hopen, hclosed, hpct⟩), if_neg hdo, if_neg hdc,
    if_neg hoc, if_neg hco, hneg, hper]
  rfl

theorem count_eq_countP_beq (s : List Char) (x : Char) :
    s.countP (fun c => c == x) = s.count x := rfl

theorem countP_currency (s : List Char) :
    s.countP (fun c => is_in c CURRENCIES 2) = s.count '$' := by
  rw [← count_eq_countP_beq]
  apply List.countP_congr
  intro c _
  by_cases h : c = '$'
  · subst h; decide
  · have h2 : ¬ ('$' = c) := fun e => h e.symm
    simp [is_in, CURRENCIES, CURR1, List.take, h, h2]

/-- C4: a token of at most 64 characters built by appends from decimal digits,
commas, at most one `'$'` and at most one `'.'`, with at least one digit, is
numeric, and `force_to_number()` is the decimal reading of its digits with the
`'.'` as decimal point, in exact arithmetic. -/
theorem C4_plain_decimal_is_numeric (s : List Char) (tok : Char)
    (hchars : ∀ c ∈ s, is_digit c = true ∨ c = ',' ∨ c = '$' ∨ c = '.')
    (hlen : s.length ≤ 64) (hcur : s.count '$' ≤ 1) (hdot : s.count '.' ≤ 1)
    (hdig : ∃ c ∈ s, is_digit c = true) :
    ∃ m, construct s tok = .ok m ∧ unwrapped m = s ∧ isnumber m = .ok true
      ∧ force_to_number m = decimal_reading s := by
  have hs : ∀ c ∈ s, c ≠ NUL := by
    intro c hc
    rcases hchars c hc with h | h | h | h
    · exact (is_digit_not_marker c h).2.2.2.2
    · subst h; decide
    · subst h; decide
    · subst h; decide
  have hzero : ∀ p : Char → Bool, (∀ c, is_digit c = true → p c = false) → p ',' = false →
      p '$' = false → p '.' = false → hist p s = 0 := by
    intro p h1 h2 h3 h4
    apply hist_eq_zero_of
    intro c hc
    rcases hchars c hc with h | h | h | h
    · exact h1 c h
    · subst h; exact h2
    · subst h; exact h3
    · subst h; exact h4
  have hmult : (model_of tok s).multiplier = 1 := by
    rw [model_of_multiplier tok s hs]
    apply mult_of_eq_one
    intro c hc
    rcases hchars c hc with h | h | h | h
    · obtain ⟨-, h2, h3, h4, -⟩ := is_digit_not_marker c h
      exact ⟨h3, h4, h2⟩
    · subst h; decide
    · subst h; decide
    · subst h; decide
  obtain ⟨d, hd, hdd⟩ := hdig
  have hdash : (model_of tok s).hists.dash = 0 := by
    rw [model_of_dash tok s hs]
    exact hzero _ (fun c h => (digit_class c h).2.2.1) (by decide) (by decide) (by decide)
  have hopen : (model_of tok s).hists.openparen = 0 := by
    rw [model_of_openparen tok s hs]
    exact hzero _ (fun c h => (digit_class c h).2.2.2.1) (by decide) (by decide) (by decide)
  have hclosed : (model_of tok s).hists.closedparen = 0 := by
    rw [model_of_closedparen tok s hs]
    exact hzero _ (fun c h => (digit_class c h).2.2.2.2.1) (by decide) (by decide) (by decide)
  have hpct : (model_of tok s).hists.percent = 0 := by
    rw [model_of_percent tok s hs]
    exact hzero _ (fun c h => (digit_class c h).2.2.2.2.2.1) (by decide) (by decide) (by decide)
  refine ⟨_, construct_eq s tok, model_of_text tok s hs, ?_, ?_⟩
  · apply isnumber_of_conditions
    · rw [model_of_numberelem tok s hs]
      exact hist_ne_zero_of_mem _ s hlen d hd (digit_class d hdd).1
    · rw [model_of_digit tok s hs]
      exact hist_ne_zero_of_mem _ s hlen d hd hdd
    · rw [model_of_defnotnumber tok s hs]
      exact hzero _ (fun c h => (digit_class c h).2.1) (by decide) (by decide) (by decide)
    · rw [model_of_dot tok s hs]
      exact hist_single _ s hlen (by rw [count_eq_countP_beq]; exact hdot)
    · rw [hdash]; rfl
    · rw [model_of_currency tok s hs]
      exact hist_single _ s hlen (by rw [countP_currency]; exact hcur)
    · rw [hopen]; rfl
    · rw [hclosed]; rfl
    · rw [hpct]; rfl
    · simp [hdash]
    · simp [hdash]
    · simp [hopen]
    · simp [hclosed]
    · apply negative_check_of_nonneg
      rw [hmult]; norm_num
    · exact percent_check_of_zero _ hpct
  · show (model_of tok s).forcenumber * (model_of tok s).multiplier = _
    rw [hmult, (model_of_value tok s hs hlen hdot).1, mul_one]

/-- C4 at `"$1,234.56"`: numeric, with value 1234.56. -/
theorem C4_plain_decimal_is_numeric_witness :
    ((∀ c ∈ "$1,234.56".toList, is_digit c = true ∨ c = ',' ∨ c = '$' ∨ c = '.')
      ∧ "$1,234.56".toList.length ≤ 64 ∧ "$1,234.56".toList.count '$' ≤ 1
      ∧ "$1,234.56".toList.count '.' ≤ 1 ∧ ∃ c ∈ "$1,234.56".toList, is_digit c = true)
    ∧ ∃ m, construct "$1,234.56".toList ' ' = .ok m ∧ unwrapped m = "$1,234.56".toList
      ∧ isnumber m = .ok true ∧ force_to_number m = 123456 / 100 := by
  refine ⟨by decide, ?_⟩
  obtain ⟨m, h1, h2, h3, h4⟩ := C4_plain_decimal_is_numeric "$1,234.56".toList ' '
    (by decide) (by decide) (by decide) (by decide) (by decide)
  refine ⟨m, h1, h2, h3, ?_⟩
  rw [h4]
  decide!

/-! ### The `ISACCEPTABLESTART` history -/

theorem start_mask_of_lt (n : Nat) (h : n < 32) : start_mask n = 2 ^ n - 1 := by
  interval_cases n <;> rfl

theorem start_bit_of_not_boundary (c : Char) (own len : Nat) (h : is_boundary c = false) :
    start_bit c own len = false := by
  have h1 : c ≠ ' ' := by
    intro e; subst e; simp [is_boundary] at h
  have h2 : c ≠ '$' := by
    intro e; subst e; simp [is_boundary] at h
  have h3 : not_in c CURRENCIES 3 = true := by
    have h2' : ¬ ('$' = c) := fun e => h2 e.symm
    simp [not_in, is_in, CURRENCIES, CURR1, CURR2, List.take, h2']
  simp [start_bit, h1, h3]

theorem start_bit_of_boundary (c : Char) (own len : Nat) (h : is_boundary c = true) :
    start_bit c own len = if len > 0 then own == start_mask len else true := by
  have h3 : ¬ (c ≠ ' ' ∧ not_in c CURRENCIES 3 = true) := by
    rintro ⟨h1, h2⟩
    have : c = '$' := by simpa [is_boundary, h1] using h
    subst this
    simp [not_in, is_in, CURRENCIES, CURR1, CURR2, List.take] at h2
  simp only [start_bit, h3, if_false]

theorem leading_run_snoc_of_all (s : List Char) (c : Char) (h : ∀ x ∈ s, is_boundary x = true) :
    leading_run (s ++ [c]) = if is_boundary c = true then s ++ [c] else s := by
  unfold leading_run
  induction s with
  | nil => by_cases hc : is_boundary c = true <;> simp [List.takeWhile, hc]
  | cons x s ih =>
    have hx := h x (by simp)
    have ih2 := ih (fun y hy => h y (by simp [hy]))
    simp only [List.cons_append, List.takeWhile_cons, hx, if_true, ih2]
    split_ifs <;> rfl

theorem leading_run_eq_self_iff (s : List Char) :
    leading_run s = s ↔ ∀ x ∈ s, is_boundary x = true := by
  unfold leading_run
  exact List.takeWhile_eq_self_iff

theorem leading_run_snoc_of_not_all (s : List Char) (c : Char)
    (h : ¬ ∀ x ∈ s, is_boundary x = true) : leading_run (s ++ [c]) = leading_run s := by
  unfold leading_run
  induction s with
  | nil => simp at h
  | cons x s ih =>
    by_cases hx : is_boundary x = true
    · have h2 : ¬ ∀ y ∈ s, is_boundary y = true := by
        intro hall
        apply h
        intro y hy
        rcases List.mem_cons.1 hy with e | e
        · rw [e]; exact hx
        · exact hall y e
      simp only [List.cons_append, List.takeWhile_cons, hx, if_true, ih h2]
    · simp [List.takeWhile_cons, hx]

theorem leading_run_length_le (s : List Char) : (leading_run s).length ≤ s.length := by
  unfold leading_run
  exact (List.takeWhile_prefix _).length_le

theorem leading_run_length_eq_iff (s : List Char) :
    (leading_run s).length = s.length ↔ ∀ x ∈ s, is_boundary x = true := by
  rw [← leading_run_eq_self_iff]
  constructor
  · intro h
    have hp : (leading_run s) <+: s := List.takeWhile_prefix _
    exact hp.eq_of_length h
  · intro h; rw [h]

theorem push_acceptablestart (a : Model) (c : Char) (h0 : c ≠ NUL) :
    (a.push c).hists.acceptablestart
      = shift_in a.hists.acceptablestart (start_bit c a.hists.acceptablestart a.len) := by
  rw [push_hists a c h0]
  rfl

theorem model_of_acceptablestart (tok : Char) (s : List Char) (hs : ∀ c ∈ s, c ≠ NUL)
    (hlen : s.length ≤ 64) (hlate : ∀ x ∈ s.drop 32, is_boundary x = false) :
    (model_of tok s).hists.acceptablestart
      = (2 ^ (leading_run s).length - 1) * 2 ^ (s.length - (leading_run s).length) := by
  induction s using List.reverseRecOn with
  | nil => simp [model_of, Model.init, Histories.zero, leading_run]
  | append_singleton s c ih =>
    have hs2 : ∀ x ∈ s, x ≠ NUL := fun x hx => hs x (by simp [hx])
    rw [List.length_append, List.length_singleton] at hlen
    have hlate2 : ∀ x ∈ s.drop 32, is_boundary x = false := by
      intro x hx
      apply hlate x
      rw [List.drop_append_eq_append_drop]
      exact List.mem_append_left _ hx
    have ih2 := ih hs2 (by omega) hlate2
    have hk := leading_run_length_le s
    have hpow : (2 : Nat) ^ (leading_run s).length ≤ 2 ^ s.length :=
      Nat.pow_le_pow_right (by norm_num) hk
    have hpos : 0 < (2 : Nat) ^ (leading_run s).length := Nat.two_pow_pos _
    have hold_lt : (model_of tok s).hists.acceptablestart < 2 ^ 63 := by
      have h1 := (model_of_hists_lt tok s).2.2.2.2.2.2.2.2.1
      rw [model_of_text tok s hs2] at h1
      have h2 : (2 : Nat) ^ s.length ≤ 2 ^ 63 := Nat.pow_le_pow_right (by norm_num) (by omega)
      omega
    rw [model_of_snoc, push_acceptablestart _ _ (hs c (by simp)), model_of_len tok s hs2,
      shift_in_eq, Nat.mod_eq_of_lt hold_lt, ih2, List.length_append, List.length_singleton]
    by_cases hall : ∀ x ∈ s, is_boundary x = true
    · have hkn : (leading_run s).length = s.length := (leading_run_length_eq_iff s).2 hall
      rw [leading_run_snoc_of_all s c hall, hkn]
      by_cases hc : is_boundary c = true
      · have hn32 : s.length < 32 := by
          by_contra hge
          have hmem : c ∈ (s ++ [c]).drop 32 := by
            rw [List.drop_append_eq_append_drop]
            have : 32 - s.length = 0 := by omega
            simp [this]
          have := hlate c hmem
          rw [hc] at this
          exact Bool.noConfusion this
        have hbit : start_bit c ((2 ^ s.length - 1) * 2 ^ (s.length - s.length)) s.length
            = true := by
          rw [start_bit_of_boundary c _ _ hc, start_mask_of_lt _ hn32]
          simp
        rw [hbit]
        simp only [hc, if_true, List.length_append, List.length_singleton, Nat.sub_self,
          pow_zero, mul_one, Bool.toNat_true]
        have : (2 : Nat) ^ (s.length + 1) = 2 * 2 ^ s.length := by rw [pow_succ]; ring
        have hp2 : 0 < (2 : Nat) ^ s.length := Nat.two_pow_pos _
        omega
      · have hc2 : is_boundary c = false := by simpa using hc
        rw [start_bit_of_not_boundary c _ _ hc2]
        simp only [hc2, Bool.false_eq_true, if_false, Nat.sub_self, pow_zero, mul_one,
          Bool.toNat_false, Nat.add_zero]
        have : s.length + 1 - s.length = 1 := by omega
        rw [this]
        ring
    · have hkn : (leading_run s).length < s.length := by
        rcases Nat.lt_or_ge (leading_run s).length s.length with h | h
        · exact h
        · exact absurd ((leading_run_length_eq_iff s).1 (by omega)) hall
      rw [leading_run_snoc_of_not_all s c hall]
      have hbit : start_bit c ((2 ^ (leading_run s).length - 1)
          * 2 ^ (s.length - (leading_run s).length)) s.length = false := by
        by_cases hc : is_boundary c = true
        · have hn32 : s.length < 32 := by
            by_contra hge
            have hmem : c ∈ (s ++ [c]).drop 32 := by
              rw [List.drop_append_eq_append_drop]
              have : 32 - s.length = 0 := by omega
              simp [this]
            have := hlate c hmem
            rw [hc] at this
            exact Bool.noConfusion this
          rw [start_bit_of_boundary c _ _ hc, start_mask_of_lt _ hn32]
          have hnpos : s.length > 0 := by omega
          simp only [hnpos, if_true, beq_eq_false_iff_ne, ne_eq]
          intro heq
          obtain ⟨j, hj⟩ : ∃ j, s.length - (leading_run s).length = j + 1 :=
            ⟨s.length - (leading_run s).length - 1, by omega⟩
          obtain ⟨i, hi⟩ : ∃ i, s.length = i + 1 := ⟨s.length - 1, by omega⟩
          rw [hj, hi, pow_succ, pow_succ, ← mul_assoc] at heq
          generalize (2 ^ (leading_run s).length - 1) * 2 ^ j = X at heq
          have hp2 : 0 < (2 : Nat) ^ i := Nat.two_pow_pos _
          omega
        · have hc2 : is_boundary c = false := by simpa using hc
          exact start_bit_of_not_boundary c _ _ hc2
      rw [hbit]
      have : s.length + 1 - (leading_run s).length
          = (s.length - (leading_run s).length) + 1 := by omega
      rw [this, pow_succ]
      simp
      ring

/-! ### The start index of the sign check -/

theorem and_pred_odd_mul_pow (m j : Nat) (hm : m % 2 = 1) :
    (m * 2 ^ j) &&& (m * 2 ^ j - 1) = (m - 1) * 2 ^ j := by
  induction j with
  | zero =>
    simp only [pow_zero, mul_one]
    obtain ⟨q, hq⟩ : ∃ q, m = 2 * q + 1 := ⟨m / 2, by omega⟩
    subst hq
    have e1 : 2 * q + 1 = Nat.bit true q := by simp [Nat.bit_val]
    have e2 : 2 * q + 1 - 1 = Nat.bit false q := by simp [Nat.bit_val]
    rw [e2, e1, Nat.land_bit, Nat.and_self]
    simp
  | succ j ih =>
    have hx : 0 < m * 2 ^ j := Nat.mul_pos (by omega) (Nat.two_pow_pos _)
    have hX : m * 2 ^ (j + 1) = 2 * (m * 2 ^ j) := by rw [pow_succ]; ring
    have e1 : m * 2 ^ (j + 1) = Nat.bit false (m * 2 ^ j) := by
      rw [hX]; simp [Nat.bit_val]
    have e2 : m * 2 ^ (j + 1) - 1 = Nat.bit true (m * 2 ^ j - 1) := by
      rw [hX, Nat.bit_val]
      generalize m * 2 ^ j = X at hx
      simp only [Bool.toNat_true]
      omega
    rw [e2, e1, Nat.land_bit, ih]
    simp [Nat.bit_val, pow_succ]
    ring

theorem get_slice_index_len_eq (b n : Nat) :
    _get_slice_index_len b n
      = if (b + 2 ^ 64 - (b &&& ((b + (2 ^ 64 - 1)) % 2 ^ 64))) % 2 ^ 64 = 0 then
          .error .undefined_behaviour
        else
          .ok (((n + (2 ^ 64 - 1
            - Nat.log2 ((b + 2 ^ 64 - (b &&& ((b + (2 ^ 64 - 1)) % 2 ^ 64))) % 2 ^ 64)))
              % 2 ^ 64 + 1) % 2 ^ 64) := rfl

theorem get_slice_index_of_run (k n : Nat) (hk : 1 ≤ k) (hkn : k ≤ n) (hn : n ≤ 64) :
    _get_slice_index_len ((2 ^ k - 1) * 2 ^ (n - k)) n = .ok k := by
  obtain ⟨i, hi⟩ : ∃ i, k = i + 1 := ⟨k - 1, by omega⟩
  have hA : (2 : Nat) ^ k = 2 * 2 ^ i := by rw [hi, pow_succ]; ring
  have hi1 : 0 < (2 : Nat) ^ i := Nat.two_pow_pos _
  have hodd : (2 ^ k - 1) % 2 = 1 := by omega
  have hP : 0 < (2 : Nat) ^ (n - k) := Nat.two_pow_pos _
  have hP64 : (2 : Nat) ^ (n - k) < 2 ^ 64 := Nat.pow_lt_pow_right (by norm_num) (by omega)
  have hand := and_pred_odd_mul_pow (2 ^ k - 1) (n - k) hodd
  have hsplit : (2 ^ k - 1) * 2 ^ (n - k) = (2 ^ k - 1 - 1) * 2 ^ (n - k) + 2 ^ (n - k) := by
    have : 2 ^ k - 1 = (2 ^ k - 1 - 1) + 1 := by omega
    conv_lhs => rw [this, Nat.add_mul, Nat.one_mul]
  have hb64 : (2 ^ k - 1) * 2 ^ (n - k) < 2 ^ 64 := by
    calc (2 ^ k - 1) * 2 ^ (n - k) < 2 ^ k * 2 ^ (n - k) :=
          Nat.mul_lt_mul_of_pos_right (by omega) hP
      _ = 2 ^ n := by rw [← pow_add]; congr 1; omega
      _ ≤ 2 ^ 64 := Nat.pow_le_pow_right (by norm_num) hn
  have hbpos : 0 < (2 ^ k - 1) * 2 ^ (n - k) := Nat.mul_pos (by omega) hP
  rw [get_slice_index_len_eq]
  have hm1 : ((2 ^ k - 1) * 2 ^ (n - k) + (2 ^ 64 - 1)) % 2 ^ 64
      = (2 ^ k - 1) * 2 ^ (n - k) - 1 := by omega
  have hdiff : ((2 ^ k - 1) * 2 ^ (n - k) + 2 ^ 64
      - ((2 ^ k - 1) * 2 ^ (n - k) &&& ((2 ^ k - 1) * 2 ^ (n - k) - 1))) % 2 ^ 64
      = 2 ^ (n - k) := by
    rw [hand]
    generalize (2 ^ k - 1 - 1) * 2 ^ (n - k) = Y at hsplit
    omega
  have hres : ((n + (2 ^ 64 - 1 - (n - k))) % 2 ^ 64 + 1) % 2 ^ 64 = k := by omega
  rw [hm1, hdiff, Nat.log2_two_pow, if_neg (by omega), hres]

theorem negative_check_toToken (a : Model) :
    negative_check a.toToken =
      if a.multiplier < 0 then
        (start_index a).bind (fun start =>
          (char_at a.text start).bind (fun c =>
            .ok (decide (if a.hists.dash > 0 then c = '-' else c = '('))))
      else .ok true := by
  unfold negative_check start_index
  by_cases hm : a.multiplier < 0
  · have hm2 : a.toToken._multiplier < 0 := hm
    simp only [hm, hm2, if_true, _get_bitmask, Model.toToken, get_acceptablestart, get_dash,
      _get_slice_index, bind, Except.bind, pure, Except.pure]
    by_cases hs : a.hists.acceptablestart > 0
    · simp only [hs, if_true]
      cases _get_slice_index_len a.hists.acceptablestart a.text.length with
      | error e => rfl
      | ok start =>
        simp only []
        cases char_at a.text start with
        | error e => rfl
        | ok c =>
          by_cases hd : a.hists.dash > 0 <;> by_cases h1 : c = '-' <;> by_cases h2 : c = '(' <;>
            simp [hd, h1, h2]
    · simp only [hs, if_false]
      cases char_at a.text 0 with
      | error e => rfl
      | ok c =>
        by_cases hd : a.hists.dash > 0 <;> by_cases h1 : c = '-' <;> by_cases h2 : c = '(' <;>
          simp [hd, h1, h2]
  · have hm2 : ¬ a.toToken._multiplier < 0 := hm
    simp only [hm, hm2, if_false]
    rfl

theorem start_index_model_of (tok : Char) (s : List Char) (hs : ∀ c ∈ s, c ≠ NUL)
    (hlen : s.length ≤ 64) (hlate : ∀ x ∈ s.drop 32, is_boundary x = false) :
    start_index (model_of tok s) = .ok (leading_run s).length := by
  unfold start_index
  rw [model_of_acceptablestart tok s hs hlen hlate, model_of_text tok s hs]
  have hk := leading_run_length_le s
  by_cases h0 : (leading_run s).length = 0
  · rw [h0]; simp
  · have hpos : (2 ^ (leading_run s).length - 1) * 2 ^ (s.length - (leading_run s).length) > 0 := by
      have h1 : (2 : Nat) ^ (leading_run s).length ≥ 2 ^ 1 :=
        Nat.pow_le_pow_right (by norm_num) (by omega)
      exact Nat.mul_pos (by omega) (Nat.two_pow_pos _)
    rw [if_pos hpos]
    exact get_slice_index_of_run _ _ (by omega) hk hlen

/-! ### The percent check -/

theorem percent_check_toToken (a : Model) :
    percent_check a.toToken =
      if a.hists.percent > 0 then
        (percent_scan a.text ((a.text.length + (2 ^ 64 - 1)) % 2 ^ 64)).bind (fun o =>
          (char_at a.text o).bind (fun c => .ok (decide (c = '%'))))
      else .ok true := by
  unfold percent_check
  have e : _get_bitmask a.toToken "ISPERCENT" = .ok ⟨"ISPERCENT", a.hists.percent⟩ :=
    get_percent _
  rw [e]
  show (if a.hists.percent > 0 then _ else pure true) = _
  by_cases hp : a.hists.percent > 0
  · rw [if_pos hp, if_pos hp]
    show (percent_scan a.text ((a.text.length + (2 ^ 64 - 1)) % 2 ^ 64)).bind _ = _
    cases percent_scan a.text ((a.text.length + (2 ^ 64 - 1)) % 2 ^ 64) with
    | error e => rfl
    | ok o =>
      show (char_at a.text o).bind _ = (char_at a.text o).bind _
      cases char_at a.text o with
      | error e => rfl
      | ok c => by_cases hc : c = '%' <;> simp [Except.bind, hc] <;> rfl
  · rw [if_neg hp, if_neg hp]
    rfl

theorem char_at_append_cons (pre suf : List Char) (x : Char) :
    char_at (pre ++ x :: suf) pre.length = .ok x := by
  unfold char_at
  rw [List.getElem?_append_right (Nat.le_refl _)]
  simp

theorem char_at_suffix (pre suf : List Char) (x y : Char) (j : Nat)
    (h : suf[j]? = some y) : char_at (pre ++ x :: suf) (pre.length + (j + 1)) = .ok y := by
  unfold char_at
  have : (pre ++ x :: suf)[pre.length + (j + 1)]? = some y := by
    rw [List.getElem?_append_right (by omega)]
    have : pre.length + (j + 1) - pre.length = j + 1 := by omega
    rw [this, List.getElem?_cons_succ, h]
  rw [this]

theorem percent_scan_suffix (pre suf : List Char) (x : Char) (hx : is_trailing x = false)
    (hsuf : ∀ y ∈ suf, is_trailing y = true) (j : Nat) (hj : j ≤ suf.length) :
    percent_scan (pre ++ x :: suf) (pre.length + j) = .ok pre.length := by
  have hx2 : ¬ (x = ')' ∨ x = ' ') := by
    simpa [is_trailing] using hx
  induction j with
  | zero =>
    cases hp : pre.length with
    | zero =>
      have := char_at_append_cons pre suf x
      rw [hp] at this
      simp only [Nat.add_zero, percent_scan, this, bind, Except.bind, hx2, if_false]
      rfl
    | succ n =>
      have := char_at_append_cons pre suf x
      rw [hp] at this
      simp only [Nat.add_zero, percent_scan, this, bind, Except.bind, hx2, if_false]
      rfl
  | succ j ih =>
    obtain ⟨y, hy⟩ : ∃ y, suf[j]? = some y := by
      cases h : suf[j]? with
      | none => rw [List.getElem?_eq_none_iff] at h; omega
      | some y => exact ⟨y, rfl⟩
    have hy2 : y = ')' ∨ y = ' ' := by
      have := hsuf y (List.getElem?_mem hy)
      simpa [is_trailing] using this
    have hc := char_at_suffix pre suf x y j hy
    have e : pre.length + (j + 1) = (pre.length + j) + 1 := by omega
    rw [e] at hc ⊢
    simp only [percent_scan, hc, bind, Except.bind, hy2, if_true]
    exact ih (by omega)

theorem split_last_significant (s : List Char) (h : ∃ c ∈ s, is_trailing c = false) :
    ∃ pre x suf, s = pre ++ x :: suf ∧ is_trailing x = false
      ∧ (∀ y ∈ suf, is_trailing y = true) ∧ last_significant s = some x := by
  have hsplit := List.takeWhile_append_dropWhile is_trailing s.reverse
  have hne : s.reverse.dropWhile is_trailing ≠ [] := by
    intro e
    obtain ⟨c, hc, hcf⟩ := h
    have := List.dropWhile_eq_nil_iff.1 e c (List.mem_reverse.2 hc)
    rw [hcf] at this
    exact Bool.noConfusion this
  cases hd : s.reverse.dropWhile is_trailing with
  | nil => exact absurd hd hne
  | cons x d =>
    have hx : is_trailing x = false := by
      have := List.head_dropWhile_not is_trailing s.reverse hne
      simpa [hd] using this
    refine ⟨d.reverse, x, (s.reverse.takeWhile is_trailing).reverse, ?_, hx, ?_, ?_⟩
    · rw [hd] at hsplit
      have := congrArg List.reverse hsplit
      simpa using this.symm
    · intro y hy
      exact List.mem_takeWhile_imp (List.mem_reverse.1 hy)
    · show (s.reverse.dropWhile is_trailing).head? = some x
      rw [hd]; rfl

/-! ### The checks of `isnumber` on the text -/

theorem hist_pos_iff (p : Char → Bool) (s : List Char) (h : s.length ≤ 64) :
    hist p s > 0 ↔ ∃ c ∈ s, p c = true := by
  constructor
  · intro hp
    exact mem_of_hist_ne_zero p s (by omega)
  · rintro ⟨c, hc, hpc⟩
    exact Nat.pos_of_ne_zero (hist_ne_zero_of_mem p s h c hc hpc)

theorem hist_beq_pos_iff (x : Char) (s : List Char) (h : s.length ≤ 64) :
    hist (fun c => c == x) s > 0 ↔ x ∈ s := by
  rw [hist_pos_iff _ s h]
  constructor
  · rintro ⟨c, hc, hpc⟩
    have : c = x := by simpa using hpc
    rw [← this]; exact hc
  · intro hx
    exact ⟨x, hx, by simp⟩

theorem hist_beq_ne_zero_iff (x : Char) (s : List Char) (h : s.length ≤ 64) :
    hist (fun c => c == x) s ≠ 0 ↔ x ∈ s := by
  rw [← hist_beq_pos_iff x s h]
  omega

theorem hist_beq_eq_zero_iff (x : Char) (s : List Char) (h : s.length ≤ 64) :
    hist (fun c => c == x) s = 0 ↔ x ∉ s := by
  rw [← hist_beq_ne_zero_iff x s h]
  omega

theorem char_at_length (s : List Char) : char_at s s.length = .ok NUL := by
  unfold char_at
  rw [List.getElem?_eq_none (Nat.le_refl _)]
  simp

theorem negative_check_model_of (tok : Char) (s : List Char) (hs : ∀ c ∈ s, c ≠ NUL)
    (hlen : s.length ≤ 64) (hlate : ∀ x ∈ s.drop 32, is_boundary x = false)
    (hneg : mult_of s < 0) :
    negative_check (model_of tok s).toToken
      = .ok (decide (first_significant s = some (if '-' ∈ s then '-' else '('))) := by
  rw [negative_check_toToken, model_of_multiplier tok s hs, if_pos hneg,
    start_index_model_of tok s hs hlen hlate, model_of_text tok s hs, model_of_dash tok s hs]
  have hsplit : leading_run s ++ s.dropWhile is_boundary = s :=
    List.takeWhile_append_dropWhile is_boundary s
  have hdash : hist (fun c => c == '-') s > 0 ↔ '-' ∈ s := hist_beq_pos_iff '-' s hlen
  cases hrest : s.dropWhile is_boundary with
  | nil =>
    have hk : (leading_run s).length = s.length := by
      rw [hrest, List.append_nil] at hsplit
      rw [hsplit]
    have hfs : first_significant s = none := by
      unfold first_significant; rw [hrest]; rfl
    rw [hk, hfs]
    simp only [Except.bind, char_at_length]
    by_cases hd : '-' ∈ s
    · have : hist (fun c => c == '-') s > 0 := hdash.2 hd
      simp [this, hd, NUL]
    · have : ¬ hist (fun c => c == '-') s > 0 := fun h => hd (hdash.1 h)
      simp [this, hd, NUL]
  | cons x r =>
    have hc : char_at s (leading_run s).length = .ok x := by
      have := char_at_append_cons (leading_run s) r x
      rw [← hrest, hsplit] at this
      exact this
    have hfs : first_significant s = some x := by
      unfold first_significant; rw [hrest]; rfl
    rw [hfs]
    simp only [Except.bind, hc]
    by_cases hd : '-' ∈ s
    · have : hist (fun c => c == '-') s > 0 := hdash.2 hd
      simp [this, hd]
    · have : ¬ hist (fun c => c == '-') s > 0 := fun h => hd (hdash.1 h)
      simp only [this, hd, if_false]
      simp

theorem percent_check_model_of (tok : Char) (s : List Char) (hs : ∀ c ∈ s, c ≠ NUL)
    (hlen : s.length ≤ 64) :
    percent_check (model_of tok s).toToken
      = .ok (decide ('%' ∈ s → last_significant s = some '%')) := by
  rw [percent_check_toToken, model_of_percent tok s hs, model_of_text tok s hs]
  have hpct : hist (fun c => c == '%') s > 0 ↔ '%' ∈ s := hist_beq_pos_iff '%' s hlen
  by_cases hm : '%' ∈ s
  · rw [if_pos (hpct.2 hm)]
    obtain ⟨pre, x, suf, hsplit, hx, hsuf, hlast⟩ :=
      split_last_significant s ⟨'%', hm, by decide⟩
    have hn : (s.length + (2 ^ 64 - 1)) % 2 ^ 64 = pre.length + suf.length := by
      have : s.length = pre.length + (suf.length + 1) := by
        rw [hsplit]; simp
      omega
    rw [hn, hlast]
    conv_lhs => rw [hsplit]
    rw [percent_scan_suffix pre suf x hx hsuf suf.length (Nat.le_refl _)]
    simp only [Except.bind, char_at_append_cons]
    simp [hm]
  · rw [if_neg (fun h => hm (hpct.1 h))]
    simp [hm]

theorem isnumber_of_text (tok : Char) (s : List Char) (hs : ∀ c ∈ s, c ≠ NUL)
    (hlen : s.length ≤ 64)
    (hall : ∀ c ∈ s, not_in c ALL_NUM_ELEMENTS 24 = false)
    (hdig : ∃ c ∈ s, is_digit c = true)
    (hdot : s.count '.' ≤ 1) (hdash : s.count '-' ≤ 1) (hcur : s.count '$' ≤ 1)
    (hopen : s.count '(' ≤ 1) (hclosed : s.count ')' ≤ 1) (hpct : s.count '%' ≤ 1)
    (hdo : ¬ ('-' ∈ s ∧ '(' ∈ s)) (hdc : ¬ ('-' ∈ s ∧ ')' ∈ s))
    (hoc : '(' ∈ s ↔ ')' ∈ s)
    (hneg : negative_check (model_of tok s).toToken = .ok true)
    (hper : percent_check (model_of tok s).toToken = .ok true) :
    isnumber (model_of tok s).toToken = .ok true := by
  obtain ⟨d, hd, hdd⟩ := hdig
  apply isnumber_of_conditions
  · rw [model_of_numberelem tok s hs]
    exact hist_ne_zero_of_mem _ s hlen d hd (digit_class d hdd).1
  · rw [model_of_digit tok s hs]
    exact hist_ne_zero_of_mem _ s hlen d hd hdd
  · rw [model_of_defnotnumber tok s hs]
    exact hist_eq_zero_of _ s hall
  · rw [model_of_dot tok s hs]
    exact hist_single _ s hlen hdot
  · rw [model_of_dash tok s hs]
    exact hist_single _ s hlen hdash
  · rw [model_of_currency tok s hs]
    exact hist_single _ s hlen (by rw [countP_currency]; exact hcur)
  · rw [model_of_openparen tok s hs]
    exact hist_single _ s hlen hopen
  · rw [model_of_closedparen tok s hs]
    exact hist_single _ s hlen hclosed
  · rw [model_of_percent tok s hs]
    exact hist_single _ s hlen hpct
  · rw [model_of_dash tok s hs, model_of_openparen tok s hs, hist_beq_ne_zero_iff _ s hlen,
      hist_beq_ne_zero_iff _ s hlen]
    exact hdo
  · rw [model_of_dash tok s hs, model_of_closedparen tok s hs, hist_beq_ne_zero_iff _ s hlen,
      hist_beq_ne_zero_iff _ s hlen]
    exact hdc
  · rw [model_of_openparen tok s hs, model_of_closedparen tok s hs,
      hist_beq_ne_zero_iff _ s hlen, hist_beq_eq_zero_iff _ s hlen]
    exact fun h => h.2 (hoc.1 h.1)
  · rw [model_of_openparen tok s hs, model_of_closedparen tok s hs,
      hist_beq_ne_zero_iff _ s hlen, hist_beq_eq_zero_iff _ s hlen]
    exact fun h => h.2 (hoc.2 h.1)
  · exact hneg
  · exact hper

theorem count_eq_zero_of_digits (d : List Char) (x : Char) (hx : is_digit x = false)
    (hd : ∀ c ∈ d, is_digit c = true) : d.count x = 0 := by
  apply List.count_eq_zero.2
  intro hm
  have := hd x hm
  rw [hx] at this
  exact Bool.noConfusion this

theorem not_mem_of_digits (d : List Char) (x : Char) (hx : is_digit x = false)
    (hd : ∀ c ∈ d, is_digit c = true) : x ∉ d := by
  intro hm
  have := hd x hm
  rw [hx] at this
  exact Bool.noConfusion this

theorem mult_of_cons (c : Char) (s : List Char) : mult_of (c :: s) = mult_factor c * mult_of s := by
  simp [mult_of]

theorem mult_of_append (s t : List Char) : mult_of (s ++ t) = mult_of s * mult_of t := by
  simp [mult_of]

theorem mult_of_digits (d : List Char) (hd : ∀ c ∈ d, is_digit c = true) : mult_of d = 1 := by
  apply mult_of_eq_one
  intro c hc
  obtain ⟨-, h2, h3, h4, -⟩ := is_digit_not_marker c (hd c hc)
  exact ⟨h3, h4, h2⟩

theorem digits_value_append_of_not_digit (s : List Char) (c : Char) (h : is_digit c = false) :
    digits_value (s ++ [c]) = digits_value s := by
  rw [digits_value_snoc]; simp [h]

theorem count_snoc_le_one (x c : Char) (d : List Char) (h : d.count x = 0) :
    (d ++ [c]).count x ≤ 1 := by
  rw [List.count_append, h, List.count_cons]
  simp
  split_ifs <;> omega

/-- C6: for every non-empty string `d` of at most 63 decimal digits the token
`d + "%"` is numeric and `force_to_number()` is the integer value of `d`
divided by 100, in exact arithmetic. -/
theorem C6_percent_divides_by_100 (d : List Char) (tok : Char) (hne : d ≠ [])
    (hlen : d.length ≤ 63) (hd : ∀ c ∈ d, is_digit c = true) :
    ∃ m, construct (d ++ ['%']) tok = .ok m ∧ isnumber m = .ok true
      ∧ force_to_number m = (digits_value d : ℚ) / 100 := by
  have hmem : ∀ c, c ∈ d ++ ['%'] ↔ c ∈ d ∨ c = '%' := by
    intro c; simp
  have hs : ∀ c ∈ d ++ ['%'], c ≠ NUL := by
    intro c hc
    rcases (hmem c).1 hc with e | e
    · exact (is_digit_not_marker c (hd c e)).2.2.2.2
    · subst e; decide
  have hl : (d ++ ['%']).length ≤ 64 := by simp; omega
  have hz : ∀ x, is_digit x = false → d.count x = 0 :=
    fun x hx => count_eq_zero_of_digits d x hx hd
  have hnm : ∀ x, is_digit x = false → x ∉ d := fun x hx => not_mem_of_digits d x hx hd
  obtain ⟨x0, hx0⟩ : ∃ x, x ∈ d := List.exists_mem_of_ne_nil d hne
  have hmult : mult_of (d ++ ['%']) = 1 / 100 := by
    rw [mult_of_append, mult_of_digits d hd]; simp [mult_factor, mult_of]
  have hnot : ∀ x, is_digit x = false → x ≠ '%' → x ∉ d ++ ['%'] := by
    intro x hx h1 hm
    rcases (hmem x).1 hm with e | e
    · exact hnm x hx e
    · exact h1 e
  refine ⟨_, construct_eq _ tok, ?_, ?_⟩
  · apply isnumber_of_text tok _ hs hl
    · intro c hc
      rcases (hmem c).1 hc with e | e
      · exact (digit_class c (hd c e)).2.1
      · subst e; decide
    · exact ⟨x0, (hmem x0).2 (Or.inl hx0), hd x0 hx0⟩
    · exact count_snoc_le_one _ _ _ (hz '.' (by decide))
    · exact count_snoc_le_one _ _ _ (hz '-' (by decide))
    · exact count_snoc_le_one _ _ _ (hz '$' (by decide))
    · exact count_snoc_le_one _ _ _ (hz '(' (by decide))
    · exact count_snoc_le_one _ _ _ (hz ')' (by decide))
    · exact count_snoc_le_one _ _ _ (hz '%' (by decide))
    · exact fun h => hnot '-' (by decide) (by decide) h.1
    · exact fun h => hnot '-' (by decide) (by decide) h.1
    · exact ⟨fun h => absurd h (hnot '(' (by decide) (by decide)),
        fun h => absurd h (hnot ')' (by decide) (by decide))⟩
    · apply negative_check_of_nonneg
      rw [model_of_multiplier tok _ hs, hmult]; norm_num
    · rw [percent_check_model_of tok _ hs hl]
      have : last_significant (d ++ ['%']) = some '%' := by
        simp [last_significant, List.dropWhile, is_trailing]
      simp [this]
  · show (model_of tok (d ++ ['%'])).forcenumber * (model_of tok (d ++ ['%'])).multiplier = _
    have hdotnm : '.' ∉ d ++ ['%'] := hnot '.' (by decide) (by decide)
    rw [model_of_multiplier tok _ hs, hmult,
      (model_of_value tok _ hs hl (count_snoc_le_one _ _ _ (hz '.' (by decide)))).1,
      decimal_reading_of_not_mem _ hdotnm, digits_value_append_of_not_digit _ _ (by decide)]
    ring

/-- C6 at `d = "200"`: `"200%"` is numeric with value 2. -/
theorem C6_percent_divides_by_100_witness :
    ("200".toList ≠ [] ∧ "200".toList.length ≤ 63 ∧ ∀ c ∈ "200".toList, is_digit c = true)
    ∧ ∃ m, construct "200%".toList ' ' = .ok m ∧ isnumber m = .ok true
        ∧ force_to_number m = 2 := by
  have hv : (digits_value "200".toList : ℚ) / 100 = 2 := by decide!
  have h := C6_percent_divides_by_100 "200".toList ' ' (by decide) (by decide) (by decide)
  rw [hv] at h
  exact ⟨by decide, h⟩

/-! ### Tokens reached by appends and removals -/

theorem histories_all_mono (P Q : Nat → Prop) (v : Histories) (h : ∀ x, P x → Q x)
    (hv : v.All P) : v.All Q := by
  obtain ⟨h1, h2, h3, h4, h5, h6, h7, h8, h9, h10, h11, h12, h13, h14⟩ := hv
  exact ⟨h _ h1, h _ h2, h _ h3, h _ h4, h _ h5, h _ h6, h _ h7, h _ h8, h _ h9, h _ h10,
    h _ h11, h _ h12, h _ h13, h _ h14⟩

theorem map_shiftRight_push (v : Histories) (tok c : Char) (len : Nat)
    (hv : v.All (fun x => x < 2 ^ 63)) :
    (v.push tok c len).map (fun b => b >>> 1) = v := by
  obtain ⟨h1, h2, h3, h4, h5, h6, h7, h8, h9, h10, h11, h12, h13, h14⟩ := hv
  cases v
  simp only [Histories.push, Histories.map, shift_in_shiftRight]
  simp only [Histories.mk.injEq]
  exact ⟨Nat.mod_eq_of_lt h1, Nat.mod_eq_of_lt h2, Nat.mod_eq_of_lt h3, Nat.mod_eq_of_lt h4,
    Nat.mod_eq_of_lt h5, Nat.mod_eq_of_lt h6, Nat.mod_eq_of_lt h7, Nat.mod_eq_of_lt h8,
    Nat.mod_eq_of_lt h9, Nat.mod_eq_of_lt h10, Nat.mod_eq_of_lt h11, Nat.mod_eq_of_lt h12,
    Nat.mod_eq_of_lt h13, Nat.mod_eq_of_lt h14⟩

theorem pop_char_token (a : Model) (c : Char) : (a.pop_char c).token = a.token := by
  unfold Model.pop_char
  simp only
  split_ifs <;> rfl

theorem pop_char_len (a : Model) (c : Char) :
    (a.pop_char c).len = (a.len + (2 ^ 64 - 1)) % 2 ^ 64 := by
  unfold Model.pop_char
  simp only
  split_ifs <;> rfl

theorem fresh_init (tok : Char) : (Model.init tok).Fresh tok := by
  refine ⟨?_, rfl, rfl, ?_, rfl⟩
  · intro c hc; simp [Model.init] at hc
  · simp [Model.init, mult_of]

theorem fresh_push (tok : Char) (a : Model) (c : Char) (h : a.Fresh tok) :
    (a.push c).Fresh tok := by
  obtain ⟨h1, h2, h3, h4, h5⟩ := h
  by_cases h0 : c = NUL
  · have : a.push c = a := by simp [Model.push, h0]
    rw [this]; exact ⟨h1, h2, h3, h4, h5⟩
  · have ht := push_text a c h0
    refine ⟨?_, ?_, ?_, ?_, ?_⟩
    · intro x hx
      rw [ht] at hx
      rcases List.mem_append.1 hx with e | e
      · exact h1 x e
      · have : x = c := by simpa using e
        rw [this]; exact h0
    · rw [push_token, h2]
    · rw [ht, model_of_snoc, push_hists _ _ h0, push_hists _ _ h0, model_of_token,
        model_of_len tok a.text h1, h2, h3, h5]
    · rw [ht, push_multiplier _ _ h0, h4]
      simp [mult_of]
    · rw [ht, push_len _ _ h0, h5]
      simp

theorem fresh_pop (tok : Char) (a : Model) (t : List Char) (c : Char) (h : a.Fresh tok)
    (ht : a.text = t ++ [c]) (hlen : a.text.length ≤ 64) : (a.pop_char c).Fresh tok := by
  obtain ⟨h1, h2, h3, h4, h5⟩ := h
  have htext : (a.pop_char c).text = t := by
    rw [pop_char_text, ht, List.dropLast_concat]
  have hc0 : c ≠ NUL := h1 c (by rw [ht]; simp)
  have ht1 : ∀ x ∈ t, x ≠ NUL := fun x hx => h1 x (by rw [ht]; simp [hx])
  have hl : t.length ≤ 63 := by
    rw [ht] at hlen; simp at hlen; omega
  refine ⟨?_, ?_, ?_, ?_, ?_⟩
  · rw [htext]; exact ht1
  · rw [pop_char_token, h2]
  · rw [htext, pop_char_hists, h3, ht, model_of_snoc, push_hists _ _ hc0]
    apply map_shiftRight_push
    have hlt := model_of_hists_lt tok t
    rw [model_of_text tok t ht1] at hlt
    apply histories_all_mono _ _ _ _ hlt
    intro x hx
    have : (2 : Nat) ^ t.length ≤ 2 ^ 63 := Nat.pow_le_pow_right (by norm_num) hl
    omega
  · rw [htext, pop_char_multiplier, h4, ht, mult_of_append, mul_assoc]
    have : mult_of [c] * mult_unfactor c = 1 := by
      simp [mult_of, mult_factor_unfactor]
    rw [this, mul_one]
  · rw [htext, pop_char_len, h5, ht]
    simp
    omega

theorem reachable_model (bound : Nat) (hb : bound ≤ 64) (tok : Char) (m : MaybeNumber)
    (h : Reachable bound tok m) :
    ∃ a : Model, m = a.toToken ∧ a.Fresh tok ∧ a.text.length ≤ bound := by
  induction h with
  | setup => exact ⟨Model.init tok, rfl, fresh_init tok, by simp [Model.init]⟩
  | append m m1 c _ hpush hlen ih =>
    obtain ⟨a, ha, hf, _⟩ := ih
    subst ha
    rw [push_back_toToken] at hpush
    have e : m1 = (a.push c).toToken := by injection hpush with e; exact e.symm
    subst e
    exact ⟨a.push c, rfl, fresh_push tok a c hf, hlen⟩
  | remove m m1 _ hpop ih =>
    obtain ⟨a, ha, hf, hl⟩ := ih
    subst ha
    rcases List.eq_nil_or_concat a.text with hnil | ⟨t, c, ht⟩
    · rw [pop_back_empty a hnil] at hpop
      exact absurd hpop (by simp)
    · rw [List.concat_eq_append] at ht
      have hlast : a.text.getLast? = some c := by rw [ht]; simp
      rw [pop_back_toToken a c hlast] at hpop
      have e : m1 = (a.pop_char c).toToken := by injection hpop with e; exact e.symm
      subst e
      refine ⟨a.pop_char c, rfl, fresh_pop tok a t c hf ht (by omega), ?_⟩
      rw [pop_char_text, List.length_dropLast]
      omega

theorem isnumber_congr (a b : Model) (h1 : a.text = b.text) (h2 : a.hists = b.hists)
    (h3 : a.multiplier = b.multiplier) : isnumber a.toToken = isnumber b.toToken := by
  rw [isnumber_toToken, isnumber_toToken, negative_check_toToken, negative_check_toToken,
    percent_check_toToken, percent_check_toToken]
  unfold start_index
  rw [h1, h2, h3]

theorem reachable_isnumber (bound : Nat) (hb : bound ≤ 64) (tok : Char) (m : MaybeNumber)
    (h : Reachable bound tok m) :
    (∀ c ∈ m.original, c ≠ NUL) ∧ m.original.length ≤ bound
    ∧ m._multiplier = mult_of m.original
    ∧ isnumber m = isnumber (model_of tok m.original).toToken := by
  obtain ⟨a, ha, ⟨h1, h2, h3, h4, h5⟩, hl⟩ := reachable_model bound hb tok m h
  subst ha
  refine ⟨h1, hl, h4, ?_⟩
  apply isnumber_congr
  · exact (model_of_text tok a.text h1).symm
  · exact h3
  · show a.multiplier = (model_of tok a.text).multiplier
    rw [model_of_multiplier tok a.text h1, h4]

theorem model_of_text_length_le (tok : Char) (s : List Char) :
    (model_of tok s).text.length ≤ s.length := by
  induction s using List.reverseRecOn with
  | nil => simp [model_of, Model.init]
  | append_singleton s c ih =>
    rw [model_of_snoc, List.length_append, List.length_singleton]
    by_cases h0 : c = NUL
    · have : (model_of tok s).push c = model_of tok s := by simp [Model.push, h0]
      rw [this]; omega
    · rw [push_text _ _ h0, List.length_append, List.length_singleton]; omega

theorem reachable_model_of (bound : Nat) (tok : Char) (s : List Char) (h : s.length ≤ bound) :
    Reachable bound tok (model_of tok s).toToken := by
  induction s using List.reverseRecOn with
  | nil => exact Reachable.setup
  | append_singleton s c ih =>
    rw [List.length_append, List.length_singleton] at h
    refine Reachable.append _ _ c (ih (by omega)) ?_ ?_
    · rw [push_back_toToken, model_of_snoc]
    · show (model_of tok (s ++ [c])).text.length ≤ bound
      have := model_of_text_length_le tok (s ++ [c])
      rw [List.length_append, List.length_singleton] at this
      omega

theorem reachable_construct (bound : Nat) (tok : Char) (s : List Char) (h : s.length ≤ bound)
    (m : MaybeNumber) (hm : construct s tok = .ok m) : Reachable bound tok m := by
  rw [construct_eq] at hm
  have e : m = (model_of tok s).toToken := by injection hm with e; exact e.symm
  rw [e]
  exact reachable_model_of bound tok s h

/-! ### Tokens that are not numeric -/

theorem isnumber_of_not_pre (a : Model) (h : ¬ a.Pre) : isnumber a.toToken = .ok false := by
  rw [isnumber_toToken]
  by_cases h1 : a.hists.numberelem = 0
  · rw [if_pos h1]
  rw [if_neg h1]
  by_cases h2 : a.hists.digit = 0
  · rw [if_pos h2]
  rw [if_neg h2]
  by_cases h3 : a.hists.defnotnumber ≠ 0
  · rw [if_pos h3]
  rw [if_neg h3]
  by_cases h4 : ¬ (a.hists.dot &&& (a.hists.dot - 1) = 0
      ∧ a.hists.dash &&& (a.hists.dash - 1) = 0
      ∧ a.hists.currency &&& (a.hists.currency - 1) = 0
      ∧ a.hists.openparen &&& (a.hists.openparen - 1) = 0
      ∧ a.hists.closedparen &&& (a.hists.closedparen - 1) = 0
      ∧ a.hists.percent &&& (a.hists.percent - 1) = 0)
  · rw [if_pos h4]
  rw [if_neg h4]
  by_cases h5 : a.hists.dash ≠ 0 ∧ a.hists.openparen ≠ 0
  · rw [if_pos h5]
  rw [if_neg h5]
  by_cases h6 : a.hists.dash ≠ 0 ∧ a.hists.closedparen ≠ 0
  · rw [if_pos h6]
  rw [if_neg h6]
  by_cases h7 : a.hists.openparen ≠ 0 ∧ a.hists.closedparen = 0
  · rw [if_pos h7]
  rw [if_neg h7]
  by_cases h8 : a.hists.closedparen ≠ 0 ∧ a.hists.openparen = 0
  · rw [if_pos h8]
  exact absurd ⟨h1, h2, not_not.1 h3, not_not.1 h4, h5, h6, h7, h8⟩ h

theorem isnumber_of_pre (a : Model) (h : a.Pre) :
    isnumber a.toToken = (negative_check a.toToken).bind (fun r =>
        if r = false then .ok false
        else (percent_check a.toToken).bind (fun q =>
          if q = false then .ok false else .ok true)) := by
  obtain ⟨h1, h2, h3, h4, h5, h6, h7, h8⟩ := h
  rw [isnumber_toToken, if_neg h1, if_neg h2, if_neg (not_not.2 h3), if_neg (not_not.2 h4),
    if_neg h5, if_neg h6, if_neg h7, if_neg h8]

theorem checks_of_isnumber (a : Model) (h : isnumber a.toToken = .ok true) :
    a.Pre ∧ negative_check a.toToken = .ok true ∧ percent_check a.toToken = .ok true := by
  by_cases hp : a.Pre
  · rw [isnumber_of_pre a hp] at h
    refine ⟨hp, ?_⟩
    cases hn : negative_check a.toToken with
    | error e => rw [hn] at h; exact absurd h (by simp [Except.bind])
    | ok r =>
      rw [hn] at h
      cases r with
      | false => exact absurd h (by simp [Except.bind])
      | true =>
        cases hq : percent_check a.toToken with
        | error e => rw [hq] at h; exact absurd h (by simp [Except.bind])
        | ok q =>
          rw [hq] at h
          cases q with
          | false => exact absurd h (by simp [Except.bind])
          | true => exact ⟨rfl, rfl⟩
  · rw [isnumber_of_not_pre a hp] at h
    exact absurd h (by simp)

/-! ### The claims on numeric validity -/

/-- C7 as stated fails: the 65-character token `"("` followed by 64 zeros has
an open parenthesis and no closing one, and `isnumber()` is true. -/
theorem C7_counterexample :
    ∃ m, construct "(0000000000000000000000000000000000000000000000000000000000000000".toList ' ' = .ok m
      ∧ ('(' ∈ unwrapped m ∧ ')' ∉ unwrapped m) ∧ isnumber m = .ok true :=
  ⟨_, construct_eq _ _, by decide!, by decide!⟩

/-- C7, amended: for every token reached by appends and removals whose text was
never longer than 64 characters, if the text contains a `'('` but no `')'`, or a
`')'` but no `'('`, then `isnumber()` returns false. -/
theorem C7_unbalanced_paren_not_numeric (tok : Char) (m : MaybeNumber)
    (hr : Reachable 64 tok m)
    (h : ('(' ∈ unwrapped m ∧ ')' ∉ unwrapped m) ∨ (')' ∈ unwrapped m ∧ '(' ∉ unwrapped m)) :
    isnumber m = .ok false := by
  obtain ⟨hs, hl, -, he⟩ := reachable_isnumber 64 (Nat.le_refl _) tok m hr
  rw [he]
  apply isnumber_of_not_pre
  rintro ⟨-, -, -, -, -, -, h7, h8⟩
  rw [model_of_openparen tok _ hs, model_of_closedparen tok _ hs,
    hist_beq_ne_zero_iff _ _ hl, hist_beq_eq_zero_iff _ _ hl] at h7
  rw [model_of_openparen tok _ hs, model_of_closedparen tok _ hs,
    hist_beq_ne_zero_iff _ _ hl, hist_beq_eq_zero_iff _ _ hl] at h8
  rcases h with h | h
  · exact h7 h
  · exact h8 h

/-- C7, amended, at the token `"(5"`. -/
theorem C7_unbalanced_paren_not_numeric_witness :
    ∃ m, construct "(5".toList ' ' = .ok m ∧ Reachable 64 ' ' m
      ∧ (('(' ∈ unwrapped m ∧ ')' ∉ unwrapped m) ∨ (')' ∈ unwrapped m ∧ '(' ∉ unwrapped m))
      ∧ isnumber m = .ok false :=
  ⟨_, construct_eq _ _, reachable_model_of 64 ' ' "(5".toList (by decide), by decide!,
    C7_unbalanced_paren_not_numeric ' ' _ (reachable_model_of 64 ' ' "(5".toList (by decide))
      (by decide!)⟩

/-- C8 as stated fails: the 65-character token `"(-"` followed by 63 zeros
contains a dash and an open parenthesis, and `isnumber()` is true. -/
theorem C8_counterexample :
    ∃ m, construct "(-000000000000000000000000000000000000000000000000000000000000000".toList ' ' = .ok m
      ∧ ('-' ∈ unwrapped m ∧ ('(' ∈ unwrapped m ∨ ')' ∈ unwrapped m))
      ∧ isnumber m = .ok true :=
  ⟨_, construct_eq _ _, by decide!, by decide!⟩

/-- C8, amended: for every token reached by appends and removals whose text was
never longer than 64 characters, if the text contains a `'-'` together with a
`'('` or a `')'`, then `isnumber()` returns false. -/
theorem C8_dash_with_paren_not_numeric (tok : Char) (m : MaybeNumber)
    (hr : Reachable 64 tok m)
    (h : '-' ∈ unwrapped m ∧ ('(' ∈ unwrapped m ∨ ')' ∈ unwrapped m)) :
    isnumber m = .ok false := by
  obtain ⟨hs, hl, -, he⟩ := reachable_isnumber 64 (Nat.le_refl _) tok m hr
  rw [he]
  apply isnumber_of_not_pre
  rintro ⟨-, -, -, -, h5, h6, -, -⟩
  rw [model_of_dash tok _ hs, model_of_openparen tok _ hs,
    hist_beq_ne_zero_iff _ _ hl, hist_beq_ne_zero_iff _ _ hl] at h5
  rw [model_of_dash tok _ hs, model_of_closedparen tok _ hs,
    hist_beq_ne_zero_iff _ _ hl, hist_beq_ne_zero_iff _ _ hl] at h6
  obtain ⟨hd, ho | hc⟩ := h
  · exact h5 ⟨hd, ho⟩
  · exact h6 ⟨hd, hc⟩

/-- C8, amended, at the token `"(-200)"`, which is not numeric. -/
theorem C8_dash_with_paren_not_numeric_witness :
    ∃ m, construct "(-200)".toList ' ' = .ok m ∧ Reachable 64 ' ' m
      ∧ ('-' ∈ unwrapped m ∧ ('(' ∈ unwrapped m ∨ ')' ∈ unwrapped m))
      ∧ isnumber m = .ok false :=
  ⟨_, construct_eq _ _, reachable_model_of 64 ' ' "(-200)".toList (by decide), by decide!,
    C8_dash_with_paren_not_numeric ' ' _
      (reachable_model_of 64 ' ' "(-200)".toList (by decide)) (by decide!)⟩

/-- C9 as stated fails: the 67-character token `"(--"` followed by 64 zeros is
numeric with a negative multiplier and contains a dash, yet the first character
after its (empty) leading run is `'('`, not `'-'`. -/
theorem C9_counterexample :
    ∃ m, construct "(--0000000000000000000000000000000000000000000000000000000000000000".toList ' ' = .ok m
      ∧ isnumber m = .ok true ∧ m._multiplier < 0
      ∧ first_significant (unwrapped m) ≠ some (if '-' ∈ unwrapped m then '-' else '(') :=
  ⟨_, construct_eq _ _, by decide!, by decide!, by decide!⟩

/-- The 32-bit shift of the `ISACCEPTABLESTART` lambda at work: in the
36-character token of 32 zeros followed by `" (5)"` the space at index 32 is
recorded as an acceptable start (`(1 << 32) - 1` is compared with the empty
history), so the token is numeric with a negative multiplier although its
first character is `'0'`. -/
theorem late_space_taken_for_start :
    ∃ m, construct "00000000000000000000000000000000 (5)".toList ' ' = .ok m
      ∧ isnumber m = .ok true ∧ m._multiplier < 0
      ∧ first_significant (unwrapped m) = some '0' :=
  ⟨_, construct_eq _ _, by decide!, by decide!, by decide!⟩

/-- C9, amended: for every token reached by appends and removals whose text was
never longer than 64 characters and has no space or currency symbol at index
32 or later, if `isnumber()` is true and the multiplier is negative then the
first character after the leading run of spaces and currency symbols is the
sign marker: `'-'` if the text contains a dash, otherwise `'('`. -/
theorem C9_sign_marker_leads (tok : Char) (m : MaybeNumber) (hr : Reachable 64 tok m)
    (hlate : ∀ x ∈ (unwrapped m).drop 32, is_boundary x = false)
    (hnum : isnumber m = .ok true) (hneg : m._multiplier < 0) :
    first_significant (unwrapped m)
      = some (if '-' ∈ unwrapped m then '-' else '(') := by
  obtain ⟨hs, hl, hmult, he⟩ := reachable_isnumber 64 (Nat.le_refl _) tok m hr
  rw [he] at hnum
  rw [hmult] at hneg
  obtain ⟨-, hn, -⟩ := checks_of_isnumber _ hnum
  rw [negative_check_model_of tok _ hs hl hlate hneg] at hn
  injection hn with hn
  exact of_decide_eq_true hn

/-- C9, amended, at the token `" -200"`, which is numeric; `"2-00"` and
`"20(0)"` are not numeric. -/
theorem C9_sign_marker_leads_witness :
    (∃ m, construct " -200".toList ' ' = .ok m ∧ Reachable 64 ' ' m
      ∧ (∀ x ∈ (unwrapped m).drop 32, is_boundary x = false)
      ∧ isnumber m = .ok true ∧ m._multiplier < 0
      ∧ first_significant (unwrapped m) = some (if '-' ∈ unwrapped m then '-' else '('))
    ∧ (construct "2-00".toList ' ').bind isnumber = .ok false
    ∧ (construct "20(0)".toList ' ').bind isnumber = .ok false :=
  ⟨⟨_, construct_eq _ _, reachable_model_of 64 ' ' " -200".toList (by decide), by decide!,
      by decide!, by decide!,
      C9_sign_marker_leads ' ' _ (reachable_model_of 64 ' ' " -200".toList (by decide))
        (by decide!) (by decide!) (by decide!)⟩,
    by decide!, by decide!⟩

/-- C10 as stated fails: the 65-character token `"%"` followed by 64 zeros
contains a `'%'` and `isnumber()` is true, yet its last character is `'0'`. -/
theorem C10_counterexample :
    ∃ m, construct "%0000000000000000000000000000000000000000000000000000000000000000".toList ' ' = .ok m
      ∧ '%' ∈ unwrapped m ∧ isnumber m = .ok true
      ∧ last_significant (unwrapped m) ≠ some '%' :=
  ⟨_, construct_eq _ _, by decide!, by decide!, by decide!⟩

/-- C10, amended: for every token reached by appends and removals whose text
was never longer than 64 characters, if the text contains a `'%'` and
`isnumber()` is true then the last character that is not a trailing space or
`')'` is `'%'`. -/
theorem C10_percent_trails (tok : Char) (m : MaybeNumber) (hr : Reachable 64 tok m)
    (hpct : '%' ∈ unwrapped m) (hnum : isnumber m = .ok true) :
    last_significant (unwrapped m) = some '%' := by
  obtain ⟨hs, hl, -, he⟩ := reachable_isnumber 64 (Nat.le_refl _) tok m hr
  rw [he] at hnum
  obtain ⟨-, -, hp⟩ := checks_of_isnumber _ hnum
  rw [percent_check_model_of tok _ hs hl] at hp
  injection hp with hp
  exact of_decide_eq_true hp hpct

/-- C10, amended, at the token `"(200%)"`, which is numeric, as is `"200% "`;
`"%200"` and `"20%0"` are not numeric. -/
theorem C10_percent_trails_witness :
    (∃ m, construct "(200%)".toList ' ' = .ok m ∧ Reachable 64 ' ' m
      ∧ '%' ∈ unwrapped m ∧ isnumber m = .ok true
      ∧ last_significant (unwrapped m) = some '%')
    ∧ (construct "200% ".toList ' ').bind isnumber = .ok true
    ∧ (construct "%200".toList ' ').bind isnumber = .ok false
    ∧ (construct "20%0".toList ' ').bind isnumber = .ok false :=
  ⟨⟨_, construct_eq _ _, reachable_model_of 64 ' ' "(200%)".toList (by decide), by decide!,
      by decide!,
      C10_percent_trails ' ' _ (reachable_model_of 64 ' ' "(200%)".toList (by decide))
        (by decide!) (by decide!)⟩,
    by decide!, by decide!, by decide!⟩

/-! ### Closed evaluations of the casts, the assignment and the in-place conversion -/

/-- C14, the code at `"false"`: `_convert_bool` is handed the null pointer and
writes through it, so every conversion of a literal token is undefined. -/
theorem C14_literal_conversion_writes_through_null :
    ∃ m, construct "false".toList ' ' = .ok m
      ∧ lower m = .ok "false".toList
      ∧ _convert_bool m none = .error .undefined_behaviour
      ∧ to_bool m = .error .undefined_behaviour
      ∧ to_int m = .error .undefined_behaviour
      ∧ to_size_t m = .error .undefined_behaviour
      ∧ to_double m = .error .undefined_behaviour :=
  ⟨_, construct_eq _ _, by decide!, by decide!, by decide!, by decide!, by decide!, by decide!⟩

/-- C24, the code at `a` built from `"abc"` and `b` built from `"123"`: after
`a = b` the token `a` has the text of `b` but still the histories of `"abc"`,
and is not numeric although `b` is. -/
theorem C24_assignment_keeps_old_histories :
    ∃ a b, construct "abc".toList ' ' = .ok a ∧ construct "123".toList ' ' = .ok b
      ∧ (assign a b).original = "123".toList
      ∧ (assign a b).the_bitmasks = a.the_bitmasks
      ∧ (assign a b).the_bitmasks ≠ b.the_bitmasks
      ∧ isnumber b = .ok true
      ∧ isnumber (assign a b) = .ok false :=
  ⟨_, _, construct_eq _ _, construct_eq _ _, by decide!, by decide!, by decide!, by decide!,
    by decide!⟩

/-- C25, the code at `"TRUE"`: the first `lower_inplace()` gives `"true"`, the
second one adds 32 to the same four characters again, and after the first call
`lower()` and `get_type()` no longer agree with a token built from `"true"`. -/
theorem C25_lower_inplace_twice :
    ∃ m fresh, construct "TRUE".toList ' ' = .ok m
      ∧ construct "true".toList ' ' = .ok fresh
      ∧ lower m = .ok "true".toList
      ∧ (lower_inplace m).map MaybeNumber.original = .ok "true".toList
      ∧ (lower_inplace m >>= lower_inplace).map MaybeNumber.original
          = .ok [Char.ofNat 148, Char.ofNat 146, Char.ofNat 149, Char.ofNat 133]
      ∧ (lower_inplace m >>= lower)
          = .ok [Char.ofNat 148, Char.ofNat 146, Char.ofNat 149, Char.ofNat 133]
      ∧ lower fresh = .ok "true".toList
      ∧ (lower_inplace m >>= get_type) = .ok .STRINGTYPE
      ∧ get_type fresh = .ok .BOOLTYPE :=
  ⟨_, _, construct_eq _ _, construct_eq _ _, by decide!, by decide!, by decide!, by decide!,
    by decide!, by decide!, by decide!⟩

/-! ### The slicer -/

theorem slice_loop_of_neg (m : MaybeNumber) (bitval fuel my_bitmask prev_stop : Nat)
    (vec : List MaybeNumber) (h : ¬ (0 < my_bitmask ∧ my_bitmask < 2 ^ 63)) :
    slice_loop m bitval fuel my_bitmask prev_stop vec = .ok vec := by
  cases fuel with
  | zero => rw [slice_loop, if_neg h]
  | succ k => rw [slice_loop, if_neg h]

theorem sliceby_eq_loop (m : MaybeNumber) (name : String) (flag : Bool) (fuel : Nat) (b : Bitmask)
    (hb : _get_bitmask m name = .ok b) (h0 : m.original.length ≠ 0)
    (h64 : m.original.length ≤ 64) (hne : b.bitmask ≠ 0) :
    sliceby m name flag fuel
      = slice_loop m flag.toNat fuel
          (b.bitmask ||| sign_extend (int_shl1 (add64 m._len_bitmasks 1)))
          m.original.length [] := by
  unfold sliceby _slice_by_bitmask
  rw [hb]
  show (if m.original.length > 64 then _ else _) = _
  rw [if_neg (by omega), if_neg (by simp [h0, hne]), if_neg (by simp [hne])]

/-- C16, the code at the 30 characters `"1-2-3"` followed by 25 zeros: the
artificial bit `1 << 31` is the negative `int`, the mask becomes negative as a
`long long`, the loop is never entered and nothing is returned. -/
theorem C16_thirty_characters_give_nothing (fuel : Nat) :
    ∃ m, construct "1-2-30000000000000000000000000".toList ' ' = .ok m
      ∧ m.original.length = 30
      ∧ sliceby m "ISDASH" false fuel = .ok [] := by
  refine ⟨_, construct_eq _ _, by decide!, ?_⟩
  have h := sliceby_eq_loop (model_of ' ' "1-2-30000000000000000000000000".toList).toToken
    "ISDASH" false fuel ⟨"ISDASH", 335544320⟩ (by decide!) (by decide!) (by decide!) (by decide!)
  rw [h]
  exact slice_loop_of_neg _ _ _ _ _ _ (by decide!)

/-- C26, the code at the 30 characters `"1-2-3"` followed by 25 zeros with the
keep flag: nothing is returned. -/
theorem C26_thirty_characters_give_nothing (fuel : Nat) :
    ∃ m, construct "1-2-30000000000000000000000000".toList ' ' = .ok m
      ∧ m.original.length = 30
      ∧ sliceby m "ISDASH" true fuel = .ok [] := by
  refine ⟨_, construct_eq _ _, by decide!, ?_⟩
  have h := sliceby_eq_loop (model_of ' ' "1-2-30000000000000000000000000".toList).toToken
    "ISDASH" true fuel ⟨"ISDASH", 335544320⟩ (by decide!) (by decide!) (by decide!) (by decide!)
  rw [h]
  exact slice_loop_of_neg _ _ _ _ _ _ (by decide!)

/-! ### The acceptable-start history beyond 32 characters -/

/-- C22 fails for a token longer than the 64-bit window: after a space and 64
zeros the bit of the leading space has been shifted out, and the history is 0
instead of one set bit followed by 64 clear bits. -/
theorem C22_counterexample :
    ∃ m, construct (' ' :: List.replicate 64 '0') ' ' = .ok m
      ∧ m.original.length = 65
      ∧ (leading_run m.original).length = 1
      ∧ (_get_bitmask m "ISACCEPTABLESTART").map Bitmask.bitmask = .ok 0 :=
  ⟨_, construct_eq _ _, by decide!, by decide!, by decide!⟩

/-- The `int` shift of the ISACCEPTABLESTART lambda at 33 spaces: the mask it
compares with is `(1 << 32) - 1`, the 33rd space is not recorded, and the
history is 32 set bits followed by one clear bit. -/
theorem late_space_not_recorded :
    ∃ m, construct (List.replicate 33 ' ') ' ' = .ok m
      ∧ leading_run m.original = m.original
      ∧ (_get_bitmask m "ISACCEPTABLESTART").map Bitmask.bitmask = .ok ((2 ^ 32 - 1) * 2) :=
  ⟨_, construct_eq _ _, by decide!, by decide!⟩

/-- C23, the code at `"-"`, 31 zeros and a space: when the space is appended
the lambda compares the empty history with `(1 << 32) - 1`, records the space
as acceptable start, and the index read for the sign check is 33, the length of
the text. -/
theorem C23_sign_check_index_is_the_length :
    ∃ m, construct ('-' :: (List.replicate 31 '0' ++ [' '])) ' ' = .ok m
      ∧ m.original.length = 33
      ∧ m._multiplier < 0
      ∧ (_get_bitmask m "ISACCEPTABLESTART").map Bitmask.bitmask = .ok 1
      ∧ _get_slice_index m 1 = .ok 33
      ∧ isnumber m = .ok false :=
  ⟨_, construct_eq _ _, by decide!, by decide!, by decide!, by decide!, by decide!⟩



/-! ### The type and the casts -/

theorem get_type_of_numeric (m : MaybeNumber) (h : isnumber m = .ok true) :
    get_type m = .ok
      (if (trunc (force_to_number m) : ℚ) ≠ force_to_number m then TypeValues.DOUBLETYPE
       else if m._multiplier < 0 then TypeValues.SIGNEDINTTYPE
       else TypeValues.SIZE_TTYPE) := by
  unfold get_type
  rw [h]
  simp only [bind, Except.bind, pure, Except.pure, if_true]
  split_ifs <;> rfl

theorem get_type_of_not_numeric (m : MaybeNumber) (l : List Char) (h : isnumber m = .ok false)
    (hl : lower m = .ok l) :
    get_type m = .ok
      (if l = "false".toList ∨ l = "true".toList then TypeValues.BOOLTYPE
       else if l = "inf".toList then TypeValues.DOUBLETYPE
       else TypeValues.STRINGTYPE) := by
  unfold get_type
  rw [h, hl]
  simp only [bind, Except.bind, pure, Except.pure]
  split_ifs <;> first | rfl | simp_all

theorem convert_bool_of_non_literal (m : MaybeNumber) (l : List Char) (hl : lower m = .ok l)
    (h1 : l ≠ "true".toList) (h2 : l ≠ "false".toList) (h3 : l ≠ "inf".toList)
    (ptr : Option Nat) : _convert_bool m ptr = .ok ptr := by
  unfold _convert_bool
  rw [hl]
  simp only [bind, Except.bind, pure, Except.pure, if_neg h1, if_neg h2, if_neg h3]

/-- C12: for a token on which `isnumber()` returns true, `get_type()` returns
DOUBLETYPE when the forced value differs from its truncation, otherwise
SIGNEDINTTYPE when the multiplier is negative, otherwise SIZE_TTYPE. -/
theorem C12_type_of_a_numeric_token (m : MaybeNumber) (h : isnumber m = .ok true) :
    get_type m = .ok
      (if (trunc (force_to_number m) : ℚ) ≠ force_to_number m then TypeValues.DOUBLETYPE
       else if m._multiplier < 0 then TypeValues.SIGNEDINTTYPE
       else TypeValues.SIZE_TTYPE) :=
  get_type_of_numeric m h

/-- C12 at the six texts of the claim. -/
theorem C12_type_of_a_numeric_token_witness :
    (∃ m, construct "1234.56".toList ' ' = .ok m ∧ isnumber m = .ok true
      ∧ get_type m = .ok .DOUBLETYPE)
    ∧ (∃ m, construct "50%".toList ' ' = .ok m ∧ isnumber m = .ok true
      ∧ get_type m = .ok .DOUBLETYPE)
    ∧ (∃ m, construct "-200".toList ' ' = .ok m ∧ isnumber m = .ok true
      ∧ get_type m = .ok .SIGNEDINTTYPE)
    ∧ (∃ m, construct "200".toList ' ' = .ok m ∧ isnumber m = .ok true
      ∧ get_type m = .ok .SIZE_TTYPE)
    ∧ (∃ m, construct "1.0".toList ' ' = .ok m ∧ isnumber m = .ok true
      ∧ get_type m = .ok .SIZE_TTYPE)
    ∧ (∃ m, construct "200%".toList ' ' = .ok m ∧ isnumber m = .ok true
      ∧ get_type m = .ok .SIZE_TTYPE) :=
  ⟨⟨_, construct_eq _ _, by decide!,
      (C12_type_of_a_numeric_token _ (by decide!)).trans (by decide!)⟩,
   ⟨_, construct_eq _ _, by decide!,
      (C12_type_of_a_numeric_token _ (by decide!)).trans (by decide!)⟩,
   ⟨_, construct_eq _ _, by decide!,
      (C12_type_of_a_numeric_token _ (by decide!)).trans (by decide!)⟩,
   ⟨_, construct_eq _ _, by decide!,
      (C12_type_of_a_numeric_token _ (by decide!)).trans (by decide!)⟩,
   ⟨_, construct_eq _ _, by decide!,
      (C12_type_of_a_numeric_token _ (by decide!)).trans (by decide!)⟩,
   ⟨_, construct_eq _ _, by decide!,
      (C12_type_of_a_numeric_token _ (by decide!)).trans (by decide!)⟩⟩

/-- C15: when `lower()` returns none of the three literals, the conversion to
`bool` returns `force_to_number() != 0` if `isnumber()` returns true, and
`size() > 0` if it returns false. -/
theorem C15_bool_of_a_non_literal (m : MaybeNumber) (l : List Char) (b : Bool)
    (hl : lower m = .ok l)
    (h1 : l ≠ "true".toList) (h2 : l ≠ "false".toList) (h3 : l ≠ "inf".toList)
    (hn : isnumber m = .ok b) :
    to_bool m = .ok (if b = true then decide (force_to_number m ≠ 0)
                     else decide (m.original.length > 0)) := by
  have hc := convert_bool_of_non_literal m l hl h1 h2 h3 none
  unfold to_bool
  simp only [hc, hn, bind, Except.bind, pure, Except.pure]
  cases b <;> rfl

/-- C15 at `"0"`, `"abc"` and the empty token. -/
theorem C15_bool_of_a_non_literal_witness :
    (∃ m, construct "0".toList ' ' = .ok m ∧ isnumber m = .ok true ∧ to_bool m = .ok false)
    ∧ (∃ m, construct "abc".toList ' ' = .ok m ∧ isnumber m = .ok false ∧ to_bool m = .ok true)
    ∧ (∃ m, construct [] ' ' = .ok m ∧ isnumber m = .ok false ∧ to_bool m = .ok false) :=
  ⟨⟨_, construct_eq _ _, by decide!,
      (C15_bool_of_a_non_literal _ "0".toList true (by decide!) (by decide) (by decide)
        (by decide) (by decide!)).trans (by decide!)⟩,
   ⟨_, construct_eq _ _, by decide!,
      (C15_bool_of_a_non_literal _ "abc".toList false (by decide!) (by decide) (by decide)
        (by decide) (by decide!)).trans (by decide!)⟩,
   ⟨_, construct_eq _ _, by decide!,
      (C15_bool_of_a_non_literal _ [] false (by decide!) (by decide) (by decide)
        (by decide) (by decide!)).trans (by decide!)⟩⟩

/-! ### Characters that do not count -/

theorem is_counted_ne_nul (c : Char) (h : is_counted c = true) : c ≠ NUL := by
  intro h0; subst h0; revert h; decide

theorem mult_factor_of_not_counted (c : Char) (h : is_counted c = false) : mult_factor c = 1 := by
  simp only [is_counted, Bool.or_eq_false_iff, beq_eq_false_iff_ne] at h
  obtain ⟨⟨⟨⟨-, -⟩, h3⟩, h4⟩, h5⟩ := h
  simp [mult_factor, h3, h4, h5]

theorem mult_of_filter (s : List Char) : mult_of (s.filter is_counted) = mult_of s := by
  induction s with
  | nil => rfl
  | cons c t ih =>
    rw [List.filter_cons, mult_of_cons]
    cases hc : is_counted c
    · simp only [Bool.false_eq_true, if_false]
      rw [ih, mult_factor_of_not_counted c hc, one_mul]
    · simp only [if_true]
      rw [mult_of_cons, ih]

theorem dot_zero_filter (tok : Char) (s : List Char) (hs : ∀ c ∈ s, c ≠ NUL)
    (hlen : s.length ≤ 64) :
    (model_of tok s).hists.dot = 0 ↔ (model_of tok (s.filter is_counted)).hists.dot = 0 := by
  have hs2 : ∀ c ∈ s.filter is_counted, c ≠ NUL := fun c hc => hs c (List.mem_of_mem_filter hc)
  have hl2 : (s.filter is_counted).length ≤ 64 := (List.length_filter_le _ _).trans hlen
  rw [model_of_dot tok s hs, model_of_dot tok _ hs2, hist_eq_zero_iff _ _ hlen,
    hist_eq_zero_iff _ _ hl2]
  constructor
  · intro h c hc; exact h c (List.mem_of_mem_filter hc)
  · intro h c hc
    by_cases hd : c = '.'
    · subst hd
      exact h '.' (List.mem_filter.2 ⟨hc, by decide⟩)
    · simpa using hd

theorem value_filter (tok : Char) (s : List Char) (hs : ∀ c ∈ s, c ≠ NUL)
    (hlen : s.length ≤ 64) :
    (model_of tok (s.filter is_counted)).forcenumber = (model_of tok s).forcenumber
    ∧ (model_of tok (s.filter is_counted)).place = (model_of tok s).place := by
  induction s using List.reverseRecOn with
  | nil => exact ⟨rfl, rfl⟩
  | append_singleton s c ih =>
    have hs1 : ∀ x ∈ s, x ≠ NUL := fun x hx => hs x (by simp [hx])
    have hc0 : c ≠ NUL := hs c (by simp)
    have hl1 : s.length ≤ 64 := by
      rw [List.length_append, List.length_singleton] at hlen; omega
    obtain ⟨ih1, ih2⟩ := ih hs1 hl1
    have hdz := dot_zero_filter tok (s ++ [c]) hs hlen
    rw [List.filter_append] at hdz ⊢
    cases hc : is_counted c
    · have hf : List.filter is_counted [c] = [] := by simp [hc]
      rw [hf, List.append_nil, model_of_snoc]
      have hne : c ≠ '.' := by intro h; subst h; revert hc; decide
      have hd : is_digit c = false := by
        simp only [is_counted, Bool.or_eq_false_iff] at hc
        exact hc.1.1.1.1
      obtain ⟨e1, e2⟩ := push_other_accumulator (model_of tok s) c hne hd
      exact ⟨by rw [e1, ih1], by rw [e2, ih2]⟩
    · have hf : List.filter is_counted [c] = [c] := by simp [hc]
      rw [hf] at hdz
      rw [hf, model_of_snoc, model_of_snoc]
      by_cases hdot : c = '.'
      · subst hdot
        obtain ⟨e1, e2⟩ := push_dot_accumulator (model_of tok s)
        obtain ⟨e3, e4⟩ := push_dot_accumulator (model_of tok (s.filter is_counted))
        exact ⟨by rw [e1, e3, ih1], by rw [e2, e4]⟩
      · cases hd : is_digit c
        · obtain ⟨e1, e2⟩ := push_other_accumulator (model_of tok s) c hdot hd
          obtain ⟨e3, e4⟩ := push_other_accumulator (model_of tok (s.filter is_counted)) c hdot hd
          exact ⟨by rw [e1, e3, ih1], by rw [e2, e4, ih2]⟩
        · have hb : (c == '.') = false := by simpa using hdot
          have k1 : (model_of tok (s ++ [c])).hists.dot
              = shift_in (model_of tok s).hists.dot false := by
            rw [model_of_snoc, push_hists _ _ hc0]; simp [Histories.push, hb]
          have k2 : (model_of tok (s.filter is_counted ++ [c])).hists.dot
              = shift_in (model_of tok (s.filter is_counted)).hists.dot false := by
            rw [model_of_snoc, push_hists _ _ hc0]; simp [Histories.push, hb]
          rw [k1, k2] at hdz
          obtain ⟨p1, p2⟩ := push_digit_accumulator (model_of tok s) c hd
          obtain ⟨q1, q2⟩ := push_digit_accumulator (model_of tok (s.filter is_counted)) c hd
          by_cases hz : shift_in (model_of tok s).hists.dot false = 0
          · obtain ⟨e1, e2⟩ := p1 hz
            obtain ⟨e3, e4⟩ := q1 (hdz.1 hz)
            exact ⟨by rw [e1, e3, ih1], by rw [e2, e4, ih2]⟩
          · obtain ⟨e1, e2⟩ := p2 hz
            obtain ⟨e3, e4⟩ := q2 (fun h => hz (hdz.2 h))
            exact ⟨by rw [e1, e3, ih1, ih2], by rw [e2, e4, ih2]⟩

theorem force_filter (tok : Char) (s : List Char) (hs : ∀ c ∈ s, c ≠ NUL)
    (hlen : s.length ≤ 64) :
    force_to_number (model_of tok (s.filter is_counted)).toToken
      = force_to_number (model_of tok s).toToken := by
  have hs2 : ∀ c ∈ s.filter is_counted, c ≠ NUL := fun c hc => hs c (List.mem_of_mem_filter hc)
  show (model_of tok (s.filter is_counted)).forcenumber
      * (model_of tok (s.filter is_counted)).multiplier
    = (model_of tok s).forcenumber * (model_of tok s).multiplier
  rw [(value_filter tok s hs hlen).1, model_of_multiplier tok s hs,
    model_of_multiplier tok _ hs2, mult_of_filter]

theorem casts_of_non_literal (m : MaybeNumber) (l : List Char) (hl : lower m = .ok l)
    (h1 : l ≠ "true".toList) (h2 : l ≠ "false".toList) (h3 : l ≠ "inf".toList) :
    to_double m = .ok (force_to_number m)
    ∧ to_int m = double_to_int (force_to_number m)
    ∧ to_size_t m = double_to_size_t (force_to_number m) := by
  have hc := convert_bool_of_non_literal m l hl h1 h2 h3 none
  refine ⟨?_, ?_, ?_⟩
  · unfold to_double
    simp only [hc, bind, Except.bind, pure, Except.pure]
  · unfold to_int
    simp only [hc, bind, Except.bind, pure, Except.pure]
  · unfold to_size_t
    simp only [hc, bind, Except.bind, pure, Except.pure]

/-- C27 fails at `"-1"`: the forced value is -1, which no `size_t` holds, and
the conversion `size_t(force_to_number())` is undefined. -/
theorem C27_counterexample :
    ∃ m, construct "-1".toList ' ' = .ok m ∧ lower m = .ok "-1".toList
      ∧ force_to_number m = -1 ∧ to_size_t m = .error .undefined_behaviour :=
  ⟨_, construct_eq _ _, by decide!, by decide!, by decide!⟩

/-- C27, amended: for a token built from at most 64 characters whose
`lower()` is none of the three literals, the conversion to `double` returns
`force_to_number()`, the conversions to `int` and `size_t` return its
truncation whenever the target type holds it, and the characters other than
the digits, `'.'`, `'-'`, `'('` and `'%'` can be left out of the text without
changing `force_to_number()`. -/
theorem C27_casts_of_a_non_literal (tok : Char) (s : List Char) (m : MaybeNumber)
    (l : List Char) (hs : ∀ c ∈ s, c ≠ NUL) (hlen : s.length ≤ 64)
    (hm : construct s tok = .ok m) (hl : lower m = .ok l)
    (h1 : l ≠ "true".toList) (h2 : l ≠ "false".toList) (h3 : l ≠ "inf".toList) :
    to_double m = .ok (force_to_number m)
    ∧ (-(2 ^ 31 : Int) ≤ trunc (force_to_number m) ∧ trunc (force_to_number m) < 2 ^ 31 →
        to_int m = .ok (trunc (force_to_number m)))
    ∧ (0 ≤ trunc (force_to_number m) ∧ trunc (force_to_number m) < 2 ^ 64 →
        to_size_t m = .ok (trunc (force_to_number m)).toNat)
    ∧ (construct (s.filter is_counted) tok).map force_to_number = .ok (force_to_number m) := by
  obtain ⟨c1, c2, c3⟩ := casts_of_non_literal m l hl h1 h2 h3
  refine ⟨c1, ?_, ?_, ?_⟩
  · intro hfit
    rw [c2, double_to_int, if_pos hfit]
  · intro hfit
    rw [c3, double_to_size_t, if_pos hfit]
  · rw [construct_eq] at hm
    have e : m = (model_of tok s).toToken := by injection hm with e; exact e.symm
    rw [construct_eq, e]
    show Except.ok _ = _
    rw [force_filter tok s hs hlen]

/-- C27 at `"a1b2"` and `"abc"`: neither is numeric, and they convert to 12
and to 0. -/
theorem C27_casts_of_a_non_literal_witness :
    (∃ m, construct "a1b2".toList ' ' = .ok m ∧ isnumber m = .ok false
      ∧ to_double m = .ok 12 ∧ to_int m = .ok 12 ∧ to_size_t m = .ok 12)
    ∧ (∃ m, construct "abc".toList ' ' = .ok m ∧ isnumber m = .ok false
      ∧ to_double m = .ok 0 ∧ to_int m = .ok 0 ∧ to_size_t m = .ok 0) :=
  have w1 := C27_casts_of_a_non_literal ' ' "a1b2".toList _ "a1b2".toList (by decide) (by decide)
    (construct_eq _ _) (by decide!) (by decide) (by decide) (by decide)
  have w2 := C27_casts_of_a_non_literal ' ' "abc".toList _ "abc".toList (by decide) (by decide)
    (construct_eq _ _) (by decide!) (by decide) (by decide) (by decide)
  ⟨⟨_, construct_eq _ _, by decide!, w1.1.trans (by decide!),
      (w1.2.1 (by decide!)).trans (by decide!), (w1.2.2.1 (by decide!)).trans (by decide!)⟩,
   ⟨_, construct_eq _ _, by decide!, w2.1.trans (by decide!),
      (w2.2.1 (by decide!)).trans (by decide!), (w2.2.2.1 (by decide!)).trans (by decide!)⟩⟩



/-! ### Histories as lists of bits -/

theorem of_bits_snoc (l : List Bool) (x : Bool) : of_bits (l ++ [x]) = 2 * of_bits l + x.toNat := by
  simp [of_bits, List.foldl_append]

theorem hist_eq_of_bits (p : Char → Bool) (s : List Char) (h : s.length ≤ 64) :
    hist p s = of_bits (s.map p) := by
  induction s using List.reverseRecOn with
  | nil => rfl
  | append_singleton s c ih =>
    rw [List.length_append, List.length_singleton] at h
    rw [hist_snoc_of_lt p s c (by omega), List.map_append, List.map_singleton, of_bits_snoc,
      ih (by omega)]

theorem length_bits (b n : Nat) : (bits b n).length = n := by simp [bits]

theorem bits_succ (b n : Nat) : bits b (n + 1) = bits (b / 2) n ++ [b.testBit 0] := by
  unfold bits
  rw [List.range_succ, List.map_append, List.map_singleton]
  congr 1
  · apply List.map_congr_left
    intro i hi
    have hi2 : i < n := List.mem_range.1 hi
    have e : n + 1 - 1 - i = (n - 1 - i) + 1 := by omega
    rw [e, Nat.testBit_succ]
  · simp

theorem of_bits_bits (n : Nat) : ∀ b, b < 2 ^ n → of_bits (bits b n) = b := by
  induction n with
  | zero => intro b hb; simp at hb; subst hb; rfl
  | succ n ih =>
    intro b hb
    rw [bits_succ, of_bits_snoc, ih (b / 2) (by rw [pow_succ] at hb; omega), Nat.testBit_zero]
    by_cases h : b % 2 = 1
    · simp [h]; omega
    · simp [h]; omega

theorem bits_of_bits (l : List Bool) : bits (of_bits l) l.length = l := by
  induction l using List.reverseRecOn with
  | nil => rfl
  | append_singleton l x ih =>
    rw [List.length_append, List.length_singleton, bits_succ, of_bits_snoc]
    have h1 : (2 * of_bits l + x.toNat) / 2 = of_bits l := by
      have : x.toNat ≤ 1 := by cases x <;> simp
      omega
    have h2 : (2 * of_bits l + x.toNat).testBit 0 = x := by
      rw [Nat.testBit_zero]
      cases x
      · simp
      · simp; omega
    rw [h1, h2, ih]

theorem bits_hist (p : Char → Bool) (s : List Char) (h : s.length ≤ 64) :
    bits (hist p s) s.length = s.map p := by
  rw [hist_eq_of_bits p s h]
  have := bits_of_bits (s.map p)
  rwa [List.length_map] at this

theorem bits_getElem? (b n i : Nat) (hi : i < n) : (bits b n)[i]? = some (b.testBit (n - 1 - i)) := by
  unfold bits
  rw [List.getElem?_map, List.getElem?_range hi]
  rfl

theorem testBit_of_bits_eq (b n : Nat) (l : List Bool) (h : bits b n = l) (i : Nat) (x : Bool)
    (hx : l[i]? = some x) : b.testBit (n - 1 - i) = x := by
  have hl : l.length = n := by rw [← h, length_bits]
  have hi : i < n := by
    rw [← hl]
    exact (List.getElem?_eq_some_iff.1 hx).1
  rw [← h, bits_getElem? b n i hi] at hx
  injection hx

theorem testBit_eq_false_of_lt (b n i : Nat) (hb : b < 2 ^ n) (hi : n ≤ i) :
    b.testBit i = false :=
  Nat.testBit_lt_two_pow (lt_of_lt_of_le hb (Nat.pow_le_pow_right (by norm_num) hi))

/-! ### Markers that occur once -/

theorem land_pred_double (h : Nat) (h0 : 0 < h) :
    (2 * h) &&& (2 * h - 1) = 2 * (h &&& (h - 1)) := by
  have e1 : 2 * h = Nat.bit false h := by simp [Nat.bit_val]
  have e2 : 2 * h - 1 = Nat.bit true (h - 1) := by
    rw [Nat.bit_val]; simp only [Bool.toNat_true]; omega
  rw [e2, e1, Nat.land_bit]
  simp [Nat.bit_val]

theorem land_pred_double_succ (h : Nat) : (2 * h + 1) &&& (2 * h + 1 - 1) = 2 * h := by
  have e1 : 2 * h + 1 = Nat.bit true h := by simp [Nat.bit_val]
  have e2 : 2 * h + 1 - 1 = Nat.bit false h := by simp [Nat.bit_val]
  rw [e2, e1, Nat.land_bit, Nat.and_self]
  simp [Nat.bit_val]

theorem countP_le_one_of_hist (p : Char → Bool) (s : List Char) (h : s.length ≤ 64)
    (hb : hist p s &&& (hist p s - 1) = 0) : s.countP p ≤ 1 := by
  induction s using List.reverseRecOn with
  | nil => simp
  | append_singleton s c ih =>
    rw [List.length_append, List.length_singleton] at h
    rw [hist_snoc_of_lt p s c (by omega)] at hb
    rw [List.countP_append, List.countP_singleton]
    cases hpc : p c
    · rw [hpc] at hb
      simp only [Bool.toNat_false, Nat.add_zero] at hb
      simp only [Bool.false_eq_true, if_false, Nat.add_zero]
      by_cases h0 : hist p s = 0
      · have := (hist_eq_zero_iff p s (by omega)).1 h0
        have hz : s.countP p = 0 := by
          rw [List.countP_eq_zero]
          intro x hx; simp [this x hx]
        omega
      · rw [land_pred_double _ (by omega)] at hb
        exact ih (by omega) (by omega)
    · rw [hpc] at hb
      simp only [Bool.toNat_true] at hb
      rw [land_pred_double_succ] at hb
      have h0 : hist p s = 0 := by omega
      have := (hist_eq_zero_iff p s (by omega)).1 h0
      have hz : s.countP p = 0 := by
        rw [List.countP_eq_zero]
        intro x hx; simp [this x hx]
      simp [hz]

/-- C11 as stated fails: the 66-character token `".."` followed by 64 zeros
holds two dots, both shifted out of the 64-bit history, and `isnumber()` is
true. -/
theorem C11_counterexample :
    ∃ m, construct "..0000000000000000000000000000000000000000000000000000000000000000".toList ' ' = .ok m
      ∧ (unwrapped m).count '.' = 2 ∧ isnumber m = .ok true :=
  ⟨_, construct_eq _ _, by decide!, by decide!⟩

/-- C11, amended: for every token reached by appends and removals whose text
was never longer than 64 characters, if `isnumber()` returns true then each of
`'.'`, `'-'`, `'$'`, `'('`, `')'` and `'%'` occurs at most once in the text. -/
theorem C11_markers_occur_once (tok : Char) (m : MaybeNumber) (hr : Reachable 64 tok m)
    (h : isnumber m = .ok true) :
    (unwrapped m).count '.' ≤ 1 ∧ (unwrapped m).count '-' ≤ 1 ∧ (unwrapped m).count '$' ≤ 1
    ∧ (unwrapped m).count '(' ≤ 1 ∧ (unwrapped m).count ')' ≤ 1
    ∧ (unwrapped m).count '%' ≤ 1 := by
  obtain ⟨hs, hl, -, he⟩ := reachable_isnumber 64 (Nat.le_refl _) tok m hr
  rw [he] at h
  obtain ⟨⟨-, -, -, ⟨d1, d2, d3, d4, d5, d6⟩, -⟩, -, -⟩ := checks_of_isnumber _ h
  rw [model_of_dot tok _ hs] at d1
  rw [model_of_dash tok _ hs] at d2
  rw [model_of_currency tok _ hs] at d3
  rw [model_of_openparen tok _ hs] at d4
  rw [model_of_closedparen tok _ hs] at d5
  rw [model_of_percent tok _ hs] at d6
  unfold unwrapped
  refine ⟨?_, ?_, ?_, ?_, ?_, ?_⟩
  · rw [← count_eq_countP_beq]; exact countP_le_one_of_hist _ _ hl d1
  · rw [← count_eq_countP_beq]; exact countP_le_one_of_hist _ _ hl d2
  · rw [← countP_currency]; exact countP_le_one_of_hist _ _ hl d3
  · rw [← count_eq_countP_beq]; exact countP_le_one_of_hist _ _ hl d4
  · rw [← count_eq_countP_beq]; exact countP_le_one_of_hist _ _ hl d5
  · rw [← count_eq_countP_beq]; exact countP_le_one_of_hist _ _ hl d6

/-- C11, amended, at the token `"(12.5%)"`. -/
theorem C11_markers_occur_once_witness :
    ∃ m, construct "(12.5%)".toList ' ' = .ok m ∧ Reachable 64 ' ' m ∧ isnumber m = .ok true
      ∧ ((unwrapped m).count '.' ≤ 1 ∧ (unwrapped m).count '-' ≤ 1
        ∧ (unwrapped m).count '$' ≤ 1 ∧ (unwrapped m).count '(' ≤ 1
        ∧ (unwrapped m).count ')' ≤ 1 ∧ (unwrapped m).count '%' ≤ 1) :=
  ⟨_, construct_eq _ _, reachable_model_of 64 ' ' "(12.5%)".toList (by decide), by decide!,
    C11_markers_occur_once ' ' _ (reachable_model_of 64 ' ' "(12.5%)".toList (by decide))
      (by decide!)⟩

/-! ### Looking a history up by name -/

theorem get_any (v : Histories) (P : Nat → Prop) (name : String) (h : name ∈ bitmask_names) :
    ∃ x, get_bitmask_in name v.toList = .ok ⟨name, x⟩ ∧ (v.All P → P x) := by
  simp only [bitmask_names, List.mem_cons, List.mem_singleton, List.not_mem_nil, or_false] at h
  rcases h with h | h | h | h | h | h | h | h | h | h | h | h | h | h <;> subst h
  · exact ⟨v.numberelem, rfl, fun a => a.1⟩
  · exact ⟨v.dash, rfl, fun a => a.2.1⟩
  · exact ⟨v.dot, rfl, fun a => a.2.2.1⟩
  · exact ⟨v.digit, rfl, fun a => a.2.2.2.1⟩
  · exact ⟨v.token, rfl, fun a => a.2.2.2.2.1⟩
  · exact ⟨v.defnotnumber, rfl, fun a => a.2.2.2.2.2.1⟩
  · exact ⟨v.upper, rfl, fun a => a.2.2.2.2.2.2.1⟩
  · exact ⟨v.lower, rfl, fun a => a.2.2.2.2.2.2.2.1⟩
  · exact ⟨v.acceptablestart, rfl, fun a => a.2.2.2.2.2.2.2.2.1⟩
  · exact ⟨v.acceptableend, rfl, fun a => a.2.2.2.2.2.2.2.2.2.1⟩
  · exact ⟨v.closedparen, rfl, fun a => a.2.2.2.2.2.2.2.2.2.2.1⟩
  · exact ⟨v.openparen, rfl, fun a => a.2.2.2.2.2.2.2.2.2.2.2.1⟩
  · exact ⟨v.percent, rfl, fun a => a.2.2.2.2.2.2.2.2.2.2.2.2.1⟩
  · exact ⟨v.currency, rfl, fun a => a.2.2.2.2.2.2.2.2.2.2.2.2.2⟩

theorem get_bitmask_in_of_not_mem (name : String) (l : List Bitmask)
    (h : name ∉ l.map Bitmask.name) : get_bitmask_in name l = .error (.out_of_range name) := by
  induction l with
  | nil => rfl
  | cons b rest ih =>
    rw [List.map_cons, List.mem_cons, not_or] at h
    rw [get_bitmask_in, if_neg (fun e => h.1 e.symm), ih h.2]

theorem get_none (v : Histories) (name : String) (h : name ∉ bitmask_names) :
    get_bitmask_in name v.toList = .error (.out_of_range name) :=
  get_bitmask_in_of_not_mem name _ (by rw [toList_names]; exact h)

theorem get_char (tok : Char) (s : List Char) (hs : ∀ c ∈ s, c ≠ NUL) (name : String)
    (h : name ∈ char_names) :
    get_bitmask_in name (model_of tok s).hists.toList
      = .ok ⟨name, hist (char_pred tok name) s⟩ := by
  simp only [char_names, List.mem_cons, List.mem_singleton, List.not_mem_nil, or_false] at h
  rcases h with h | h | h | h | h | h | h | h | h | h | h | h | h <;> subst h
  · rw [get_numberelem, model_of_field (fun v => v.numberelem) _ tok rfl (fun _ _ _ => rfl) s hs]
    rfl
  · rw [get_dash, model_of_field (fun v => v.dash) _ tok rfl (fun _ _ _ => rfl) s hs]; rfl
  · rw [get_dot, model_of_field (fun v => v.dot) _ tok rfl (fun _ _ _ => rfl) s hs]; rfl
  · rw [get_digit, model_of_field (fun v => v.digit) _ tok rfl (fun _ _ _ => rfl) s hs]; rfl
  · have e : get_bitmask_in "ISTOKEN" (model_of tok s).hists.toList
        = .ok ⟨"ISTOKEN", (model_of tok s).hists.token⟩ := rfl
    rw [e, model_of_field (fun v => v.token) (fun c => c == tok) tok rfl (fun _ _ _ => rfl) s hs]
    rfl
  · rw [get_defnotnumber,
      model_of_field (fun v => v.defnotnumber) _ tok rfl (fun _ _ _ => rfl) s hs]
    rfl
  · have e : get_bitmask_in "ISUPPER" (model_of tok s).hists.toList
        = .ok ⟨"ISUPPER", (model_of tok s).hists.upper⟩ := rfl
    rw [e, model_of_field (fun v => v.upper) _ tok rfl (fun _ _ _ => rfl) s hs]; rfl
  · have e : get_bitmask_in "ISLOWER" (model_of tok s).hists.toList
        = .ok ⟨"ISLOWER", (model_of tok s).hists.lower⟩ := rfl
    rw [e, model_of_field (fun v => v.lower) _ tok rfl (fun _ _ _ => rfl) s hs]; rfl
  · have e : get_bitmask_in "ISACCEPTABLEEND" (model_of tok s).hists.toList
        = .ok ⟨"ISACCEPTABLEEND", (model_of tok s).hists.acceptableend⟩ := rfl
    rw [e, model_of_field (fun v => v.acceptableend) _ tok rfl (fun _ _ _ => rfl) s hs]; rfl
  · rw [get_closedparen,
      model_of_field (fun v => v.closedparen) _ tok rfl (fun _ _ _ => rfl) s hs]
    rfl
  · rw [get_openparen, model_of_field (fun v => v.openparen) _ tok rfl (fun _ _ _ => rfl) s hs]
    rfl
  · rw [get_percent, model_of_field (fun v => v.percent) _ tok rfl (fun _ _ _ => rfl) s hs]; rfl
  · rw [get_currency, model_of_field (fun v => v.currency) _ tok rfl (fun _ _ _ => rfl) s hs]
    rfl

/-! ### Tokens reached by all five operations -/

theorem push_text_length_le (a : Model) (c : Char) : a.text.length ≤ (a.push c).text.length := by
  by_cases h0 : c = NUL
  · have : a.push c = a := by simp [Model.push, h0]
    rw [this]
  · rw [push_text a c h0, List.length_append]; omega

theorem foldl_push_length_le (s : List Char) :
    ∀ a : Model, a.text.length ≤ (s.foldl Model.push a).text.length := by
  induction s with
  | nil => intro a; exact Nat.le_refl _
  | cons c t ih =>
    intro a
    exact (push_text_length_le a c).trans (ih (a.push c))

theorem reachable_foldl_push (bound : Nat) (tok : Char) (s : List Char) :
    ∀ a : Model, Reachable bound tok a.toToken →
      (s.foldl Model.push a).text.length ≤ bound →
      Reachable bound tok (s.foldl Model.push a).toToken := by
  induction s with
  | nil => intro a hr _; exact hr
  | cons c t ih =>
    intro a hr hlen
    apply ih (a.push c) _ hlen
    exact Reachable.append a.toToken _ c hr (push_back_toToken a c)
      ((foldl_push_length_le t (a.push c)).trans hlen)

theorem reachable_append_string (tok : Char) (m m1 : MaybeNumber) (s : List Char)
    (hr : Reachable 64 tok m) (h : append_string m s = .ok m1) (hlen : m1.original.length ≤ 64) :
    Reachable 64 tok m1 := by
  obtain ⟨a, ha, -, -⟩ := reachable_model 64 (Nat.le_refl _) tok m hr
  subst ha
  unfold append_string at h
  rw [foldlM_push_toToken] at h
  have e : m1 = (s.foldl Model.push a).toToken := by injection h with e; exact e.symm
  subst e
  exact reachable_foldl_push 64 tok s a hr hlen

theorem reachable_clear_loop (bound : Nat) (tok : Char) (k : Nat) :
    ∀ m m1 : MaybeNumber, Reachable bound tok m → clear_loop k m = .ok m1 →
      Reachable bound tok m1 := by
  induction k with
  | zero =>
    intro m m1 hr h
    rw [clear_loop] at h
    by_cases h0 : m.original.length > 0
    · rw [if_pos h0] at h; exact absurd h (by simp)
    · rw [if_neg h0] at h
      have e : m1 = m := by injection h with e; exact e.symm
      rw [e]; exact hr
  | succ k ih =>
    intro m m1 hr h
    rw [clear_loop] at h
    by_cases h0 : m.original.length > 0
    · rw [if_pos h0] at h
      cases hp : pop_back m with
      | error e => rw [hp] at h; exact absurd h (by simp [bind, Except.bind])
      | ok m2 =>
        rw [hp] at h
        exact ih m2 m1 (Reachable.remove m m2 hr hp) h
    · rw [if_neg h0] at h
      have e : m1 = m := by injection h with e; exact e.symm
      rw [e]; exact hr

theorem built_reachable (tok : Char) (m : MaybeNumber) (h : Built 64 tok m) :
    Reachable 64 tok m := by
  induction h with
  | constructed s m hlen hm => exact reachable_construct 64 tok s hlen m hm
  | pushed m m1 c _ hp hlen ih => exact Reachable.append m m1 c ih hp hlen
  | popped m m1 _ hp ih => exact Reachable.remove m m1 ih hp
  | appended m m1 s _ hp hlen ih => exact reachable_append_string tok m m1 s ih hp hlen
  | cleared m m1 _ hp ih => exact reachable_clear_loop 64 tok _ m m1 ih hp

/-- What the histories of a token reached within 64 characters look like. -/
theorem reachable_histories (tok : Char) (m : MaybeNumber) (hr : Reachable 64 tok m) :
    (∀ c ∈ m.original, c ≠ NUL) ∧ m.original.length ≤ 64
    ∧ m._len_bitmasks = m.original.length
    ∧ m.the_bitmasks.map Bitmask.name = bitmask_names
    ∧ (∀ name ∈ bitmask_names, ∃ x, _get_bitmask m name = .ok ⟨name, x⟩
        ∧ x < 2 ^ m.original.length)
    ∧ (∀ name, name ∉ bitmask_names → _get_bitmask m name = .error (.out_of_range name))
    ∧ (∀ name ∈ char_names,
        _get_bitmask m name = .ok ⟨name, hist (char_pred tok name) m.original⟩) := by
  obtain ⟨a, ha, ⟨h1, h2, h3, h4, h5⟩, hl⟩ := reachable_model 64 (Nat.le_refl _) tok m hr
  subst ha
  have hlt := model_of_hists_lt tok a.text
  rw [model_of_text tok a.text h1, ← h3] at hlt
  refine ⟨h1, hl, h5, toList_names _, ?_, ?_, ?_⟩
  · intro name hn
    obtain ⟨x, hx, hP⟩ := get_any a.hists (fun b => b < 2 ^ a.text.length) name hn
    exact ⟨x, hx, hP hlt⟩
  · intro name hn
    exact get_none a.hists name hn
  · intro name hn
    show get_bitmask_in name a.hists.toList = _
    rw [h3]
    exact get_char tok a.text h1 name hn

/-- C21: for every token reached from a constructor by `push_back`,
`pop_back`, `operator +=` and `clear()` whose text was never longer than 64
characters, the length counter is the length `n` of the text, the vector holds
the fourteen histories, none of them has a bit at position `n` or above, and
for each name other than `ISACCEPTABLESTART` the bit at position `n - 1 - i`
is the value of the registered predicate at the character of index `i`. -/
theorem C21_history_invariant (tok : Char) (m : MaybeNumber) (h : Built 64 tok m) :
    m._len_bitmasks = m.original.length
    ∧ m.the_bitmasks.map Bitmask.name = bitmask_names
    ∧ (∀ b ∈ m.the_bitmasks, ∀ i, m.original.length ≤ i → b.bitmask.testBit i = false)
    ∧ (∀ name ∈ char_names, ∃ b, _get_bitmask m name = .ok b
        ∧ ∀ i c, m.original[i]? = some c →
          b.bitmask.testBit (m.original.length - 1 - i) = alt_func tok name c [] 0) := by
  have hr := built_reachable tok m h
  obtain ⟨a, ha, ⟨h1, h2, h3, h4, h5⟩, hl⟩ := reachable_model 64 (Nat.le_refl _) tok m hr
  obtain ⟨-, hl2, k3, k4, -, -, k7⟩ := reachable_histories tok m hr
  refine ⟨k3, k4, ?_, ?_⟩
  · subst ha
    have hlt := model_of_hists_lt tok a.text
    rw [model_of_text tok a.text h1, ← h3] at hlt
    obtain ⟨b1, b2, b3, b4, b5, b6, b7, b8, b9, b10, b11, b12, b13, b14⟩ := hlt
    intro b hb i hi
    simp only [Model.toToken, Histories.toList, List.mem_cons, List.mem_singleton,
      List.not_mem_nil, or_false] at hb
    rcases hb with e | e | e | e | e | e | e | e | e | e | e | e | e | e <;> subst e <;>
      exact testBit_eq_false_of_lt _ _ _ (by assumption) hi
  · intro name hn
    refine ⟨_, k7 name hn, ?_⟩
    intro i c hc
    have hb := bits_hist (char_pred tok name) m.original hl2
    exact testBit_of_bits_eq _ _ _ hb i (char_pred tok name c) (by
      rw [List.getElem?_map, hc]; rfl)

/-- C21 at the token built from `"1-2"`, extended by `"-3"` with
`operator +=` and shortened by one `pop_back()`: the text is `"1-2-"`, the
counter is 4 and the dash history is `0b0101`. -/
theorem C21_history_invariant_witness :
    ∃ m, Built 64 ' ' m
      ∧ m.original = "1-2-".toList
      ∧ m._len_bitmasks = 4
      ∧ (∀ b ∈ m.the_bitmasks, ∀ i, 4 ≤ i → b.bitmask.testBit i = false)
      ∧ _get_bitmask m "ISDASH" = .ok ⟨"ISDASH", 5⟩ :=
  have hb : Built 64 ' '
      (("-3".toList.foldl Model.push (model_of ' ' "1-2".toList)).pop_char '3').toToken :=
    Built.popped _ _
      (Built.appended (model_of ' ' "1-2".toList).toToken _ "-3".toList
        (Built.constructed "1-2".toList _ (by decide) (construct_eq _ _))
        (foldlM_push_toToken _ _) (by decide!))
      (pop_back_toToken _ '3' (by decide!))
  have w := C21_history_invariant ' ' _ hb
  ⟨_, hb, by decide!, w.1.trans (by decide!), fun b hm i hi => w.2.2.1 b hm i hi, by decide!⟩

/-! ### The case conversions -/

theorem convert_loop_zero (name : String) (fuel : Nat) (s : List Char) :
    convert_loop name fuel 0 s = .ok s := by
  cases fuel <;> simp [convert_loop]

theorem lowest_bit_step (B j : Nat) :
    ((2 * B + 1) * 2 ^ j) &&& ((2 * B + 1) * 2 ^ j - 1) = B * 2 ^ (j + 1)
    ∧ (2 * B + 1) * 2 ^ j - B * 2 ^ (j + 1) = 2 ^ j := by
  have h := and_pred_odd_mul_pow (2 * B + 1) j (by omega)
  have e : (2 * B + 1 - 1) * 2 ^ j = B * 2 ^ (j + 1) := by
    rw [Nat.add_sub_cancel, pow_succ]; ring
  rw [e] at h
  refine ⟨h, ?_⟩
  have h3 : (2 * B + 1) * 2 ^ j = B * 2 ^ (j + 1) + 2 ^ j := by rw [pow_succ]; ring
  rw [h3, Nat.add_sub_cancel_left]

theorem convert_loop_spec (name : String) (pre : List (Char × Bool)) :
    ∀ (suf : List Char) (fuel : Nat), pre.length + suf.length ≤ 64 → pre.length ≤ fuel →
      convert_loop name fuel (of_bits (pre.map Prod.snd) * 2 ^ suf.length)
          (pre.map Prod.fst ++ suf)
        = .ok (pre.map (fun x => if x.2 = true then
              (if name = "ISUPPER" then char_add x.1 32 else char_add x.1 224) else x.1)
            ++ suf) := by
  induction pre using List.reverseRecOn with
  | nil =>
    intro suf fuel _ _
    simp only [List.map_nil, List.nil_append]
    rw [show of_bits [] = 0 from rfl, Nat.zero_mul]
    exact convert_loop_zero name fuel suf
  | append_singleton q x ih =>
    intro suf fuel hlen hfuel
    obtain ⟨c, f⟩ := x
    rw [List.length_append, List.length_singleton] at hlen hfuel
    simp only [List.map_append, List.map_cons, List.map_nil, List.append_assoc,
      List.singleton_append]
    rw [of_bits_snoc]
    cases f with
    | false =>
      have e : (2 * of_bits (q.map Prod.snd) + false.toNat) * 2 ^ suf.length
          = of_bits (q.map Prod.snd) * 2 ^ (c :: suf).length := by
        rw [List.length_cons, pow_succ]; simp; ring
      rw [e]
      have := ih (c :: suf) fuel (by rw [List.length_cons]; omega) (by omega)
      rw [this]
      simp
    | true =>
      obtain ⟨k, hk⟩ : ∃ k, fuel = k + 1 := ⟨fuel - 1, by omega⟩
      subst hk
      obtain ⟨h1, h2⟩ := lowest_bit_step (of_bits (q.map Prod.snd)) suf.length
      have hpos : (2 * of_bits (q.map Prod.snd) + true.toNat) * 2 ^ suf.length > 0 :=
        Nat.mul_pos (by simp) (Nat.two_pow_pos _)
      rw [convert_loop, if_pos hpos]
      simp only [Bool.toNat_true]
      rw [h1, h2, Nat.log2_two_pow]
      have hidx : ((q.map Prod.fst ++ c :: suf).length + (2 ^ 64 - 1 - suf.length)) % 2 ^ 64
          = q.length := by
        rw [List.length_append, List.length_map, List.length_cons]
        omega
      rw [hidx]
      have hget : (q.map Prod.fst ++ c :: suf)[q.length]? = some c := by
        rw [List.getElem?_append_right (by rw [List.length_map])]
        simp
      rw [hget]
      simp only
      have hset : (q.map Prod.fst ++ c :: suf).set q.length
            (if name = "ISUPPER" then char_add c 32 else char_add c 224)
          = q.map Prod.fst
            ++ (if name = "ISUPPER" then char_add c 32 else char_add c 224) :: suf := by
        rw [List.set_append_right _ _ (by rw [List.length_map])]
        simp
      rw [hset]
      have := ih ((if name = "ISUPPER" then char_add c 32 else char_add c 224) :: suf) k
        (by rw [List.length_cons]; omega) (by omega)
      rw [List.length_cons] at this
      rw [this]
      simp

theorem convert_of_mask (m : MaybeNumber) (name : String) (p : Char → Bool)
    (hlen : m.original.length ≤ 64)
    (hb : _get_bitmask m name = .ok ⟨name, of_bits (m.original.map p)⟩) :
    _convert_upper_or_lower m name
      = .ok (m.original.map (fun c => if p c = true then
          (if name = "ISUPPER" then char_add c 32 else char_add c 224) else c)) := by
  have h := convert_loop_spec name (m.original.map (fun c => (c, p c))) [] 64
    (by simpa using hlen) (by simpa using hlen)
  simp only [List.map_map, List.length_nil, pow_zero, Nat.mul_one, List.append_nil] at h
  have e1 : (Prod.snd ∘ fun c => (c, p c)) = p := rfl
  have e2 : (Prod.fst ∘ fun c => (c, p c)) = id := rfl
  have e3 : ((fun x : Char × Bool => if x.2 = true then
        (if name = "ISUPPER" then char_add x.1 32 else char_add x.1 224) else x.1)
      ∘ fun c => (c, p c))
      = fun c => if p c = true then
        (if name = "ISUPPER" then char_add c 32 else char_add c 224) else c := rfl
  rw [e1, e2, e3, List.map_id] at h
  unfold _convert_upper_or_lower
  rw [hb]
  simp only [bind, Except.bind]
  by_cases h0 : m.original.length = 0 ∨ of_bits (m.original.map p) = 0
  · rw [if_pos h0]
    rw [← h]
    rcases h0 with h0 | h0
    · have : m.original = [] := List.length_eq_zero.1 h0
      rw [this]
      exact (convert_loop_zero name 64 []).symm
    · rw [h0]
      exact (convert_loop_zero name 64 _).symm
  · rw [if_neg h0]
    rw [h]

theorem lower_char (tok : Char) (c : Char) :
    (if char_pred tok "ISUPPER" c = true then
      (if "ISUPPER" = "ISUPPER" then char_add c 32 else char_add c 224) else c) = c.toLower := by
  have e : char_pred tok "ISUPPER" c = (decide (c.toNat ≥ 65) && decide (c.toNat < 91)) := rfl
  rw [e, if_pos rfl]
  unfold Char.toLower char_add
  by_cases h : c.toNat ≥ 65 ∧ c.toNat ≤ 90
  · have h2 : (decide (c.toNat ≥ 65) && decide (c.toNat < 91)) = true := by
      simp only [Bool.and_eq_true, decide_eq_true_eq]; omega
    rw [h2, if_pos rfl]
    simp only
    rw [if_pos h, Nat.mod_eq_of_lt (by omega)]
  · have h2 : (decide (c.toNat ≥ 65) && decide (c.toNat < 91)) = false := by
      rw [Bool.and_eq_false_iff]
      simp only [decide_eq_false_iff_not]; omega
    rw [h2]
    simp only [Bool.false_eq_true, if_false]
    rw [if_neg h]

theorem upper_char (tok : Char) (c : Char) :
    (if char_pred tok "ISLOWER" c = true then
      (if "ISLOWER" = "ISUPPER" then char_add c 32 else char_add c 224) else c) = c.toUpper := by
  have e : char_pred tok "ISLOWER" c = (decide (c.toNat ≥ 97) && decide (c.toNat < 123)) := rfl
  have hn : ¬ ("ISLOWER" = "ISUPPER") := by decide
  rw [e, if_neg hn]
  unfold Char.toUpper char_add
  by_cases h : c.toNat ≥ 97 ∧ c.toNat ≤ 122
  · have h2 : (decide (c.toNat ≥ 97) && decide (c.toNat < 123)) = true := by
      simp only [Bool.and_eq_true, decide_eq_true_eq]; omega
    rw [h2, if_pos rfl]
    simp only
    rw [if_pos h]
    congr 1
    omega
  · have h2 : (decide (c.toNat ≥ 97) && decide (c.toNat < 123)) = false := by
      rw [Bool.and_eq_false_iff]
      simp only [decide_eq_false_iff_not]; omega
    rw [h2]
    simp only [Bool.false_eq_true, if_false]
    rw [if_neg h]

theorem lower_of_reachable (tok : Char) (m : MaybeNumber) (hr : Reachable 64 tok m) :
    lower m = .ok (m.original.map Char.toLower) := by
  obtain ⟨-, hl, -, -, -, -, hc⟩ := reachable_histories tok m hr
  have hb := hc "ISUPPER" (by decide)
  rw [hist_eq_of_bits _ _ hl] at hb
  unfold lower
  rw [convert_of_mask m "ISUPPER" _ hl hb]
  congr 1
  apply List.map_congr_left
  intro c _
  exact lower_char tok c

theorem upper_of_reachable (tok : Char) (m : MaybeNumber) (hr : Reachable 64 tok m) :
    upper m = .ok (m.original.map Char.toUpper) := by
  obtain ⟨-, hl, -, -, -, -, hc⟩ := reachable_histories tok m hr
  have hb := hc "ISLOWER" (by decide)
  rw [hist_eq_of_bits _ _ hl] at hb
  unfold upper
  rw [convert_of_mask m "ISLOWER" _ hl hb]
  congr 1
  apply List.map_congr_left
  intro c _
  exact upper_char tok c

/-- C19: for every token reached by appends and removals whose text was never
longer than 64 characters, `lower()` returns the text with `'A'..'Z'` replaced
by `'a'..'z'` and `upper()` the text with `'a'..'z'` replaced by `'A'..'Z'`,
every other character unchanged. Both are functions of the token that return
a string: the token itself, its text and its histories are not touched. -/
theorem C19_lower_and_upper (tok : Char) (m : MaybeNumber) (hr : Reachable 64 tok m) :
    lower m = .ok (m.original.map Char.toLower)
    ∧ upper m = .ok (m.original.map Char.toUpper) :=
  ⟨lower_of_reachable tok m hr, upper_of_reachable tok m hr⟩

/-- C19 at the token `"aBc-1"`. -/
theorem C19_lower_and_upper_witness :
    ∃ m, construct "aBc-1".toList ' ' = .ok m ∧ Reachable 64 ' ' m
      ∧ lower m = .ok "abc-1".toList ∧ upper m = .ok "ABC-1".toList :=
  have w := C19_lower_and_upper ' ' _ (reachable_model_of 64 ' ' "aBc-1".toList (by decide))
  ⟨_, construct_eq _ _, reachable_model_of 64 ' ' "aBc-1".toList (by decide),
    w.1.trans (by decide!), w.2.trans (by decide!)⟩

/-- C13: for every token reached by appends and removals whose text was never
longer than 64 characters and on which `isnumber()` returns false,
`get_type()` returns BOOLTYPE when the lowered text is `"false"` or `"true"`,
DOUBLETYPE when it is `"inf"`, and STRINGTYPE otherwise. -/
theorem C13_type_of_a_non_numeric_token (tok : Char) (m : MaybeNumber)
    (hr : Reachable 64 tok m) (h : isnumber m = .ok false) :
    get_type m = .ok
      (if m.original.map Char.toLower = "false".toList
          ∨ m.original.map Char.toLower = "true".toList then TypeValues.BOOLTYPE
       else if m.original.map Char.toLower = "inf".toList then TypeValues.DOUBLETYPE
       else TypeValues.STRINGTYPE) :=
  get_type_of_not_numeric m _ h (lower_of_reachable tok m hr)

/-- C13 at `"TRUE"`, `"inf"` and `"abc"`. -/
theorem C13_type_of_a_non_numeric_token_witness :
    (∃ m, construct "TRUE".toList ' ' = .ok m ∧ isnumber m = .ok false
      ∧ get_type m = .ok .BOOLTYPE)
    ∧ (∃ m, construct "inf".toList ' ' = .ok m ∧ isnumber m = .ok false
      ∧ get_type m = .ok .DOUBLETYPE)
    ∧ (∃ m, construct "abc".toList ' ' = .ok m ∧ isnumber m = .ok false
      ∧ get_type m = .ok .STRINGTYPE) :=
  ⟨⟨_, construct_eq _ _, by decide!,
      (C13_type_of_a_non_numeric_token ' ' _
        (reachable_model_of 64 ' ' "TRUE".toList (by decide)) (by decide!)).trans (by decide!)⟩,
   ⟨_, construct_eq _ _, by decide!,
      (C13_type_of_a_non_numeric_token ' ' _
        (reachable_model_of 64 ' ' "inf".toList (by decide)) (by decide!)).trans (by decide!)⟩,
   ⟨_, construct_eq _ _, by decide!,
      (C13_type_of_a_non_numeric_token ' ' _
        (reachable_model_of 64 ' ' "abc".toList (by decide)) (by decide!)).trans (by decide!)⟩⟩



/-! ### Concatenation by bitmask -/

theorem indices_loop_zero (n fuel prev total : Nat) (vec : List Slice) :
    indices_loop n fuel 0 prev total vec = .ok (prev, total, vec) := by
  cases fuel <;> simp [indices_loop]

theorem indices_spec (n : Nat) (hn : n ≤ 64) (pre : List Bool) :
    ∀ (r fuel total : Nat) (vec : List Slice), pre.length + r ≤ n → pre.length ≤ fuel →
      total + pre.length + r ≤ n →
      (indices_loop n fuel (of_bits pre * 2 ^ (n - pre.length)) (pre.length + r) total vec
        >>= fun x => if x.1 = 0 then (Except.ok (x.2.1, x.2.2) : Except Error (Nat × List Slice))
            else .ok (add64 x.2.1 x.1, ⟨0, x.1⟩ :: x.2.2))
        = .ok (total + pre.count false + r, slices_rev pre.reverse r ++ vec) := by
  induction pre using List.reverseRecOn with
  | nil =>
    intro r fuel total vec h1 _ h3
    rw [show of_bits [] = 0 from rfl, Nat.zero_mul, indices_loop_zero]
    simp only [bind, Except.bind, List.length_nil, Nat.zero_add, List.count_nil, Nat.add_zero,
      List.reverse_nil, slices_rev]
    by_cases hr : r = 0
    · simp [hr]
    · simp only [hr, if_false]
      have : add64 total r = total + r := by
        unfold add64; apply Nat.mod_eq_of_lt; simp at h3; omega
      rw [this]; rfl
  | append_singleton q x ih =>
    intro r fuel total vec h1 h2 h3
    rw [List.length_append, List.length_singleton] at h1 h2 h3
    rw [of_bits_snoc, List.reverse_append, List.reverse_singleton, List.singleton_append,
      List.length_append, List.length_singleton, List.count_append]
    cases x with
    | false =>
      have e : (2 * of_bits q + false.toNat) * 2 ^ (n - (q.length + 1))
          = of_bits q * 2 ^ (n - q.length) := by
        have : n - q.length = (n - (q.length + 1)) + 1 := by omega
        rw [this, pow_succ]; simp; ring
      rw [e, show q.length + 1 + r = q.length + (r + 1) by omega]
      rw [ih (r + 1) fuel total vec (by omega) (by omega) (by omega)]
      simp only [slices_rev, List.count_singleton, beq_self_eq_true, if_true]
      congr 2
      omega
    | true =>
      obtain ⟨k, hk⟩ : ∃ k, fuel = k + 1 := ⟨fuel - 1, by omega⟩
      subst hk
      obtain ⟨e1, e2⟩ := lowest_bit_step (of_bits q) (n - (q.length + 1))
      have hpos : (2 * of_bits q + true.toNat) * 2 ^ (n - (q.length + 1)) > 0 :=
        Nat.mul_pos (by simp) (Nat.two_pow_pos _)
      rw [indices_loop, if_pos hpos]
      simp only [Bool.toNat_true]
      rw [e1, e2, Nat.log2_two_pow]
      have hj : n - (q.length + 1) + 1 = n - q.length := by omega
      have hidx : (n + (2 ^ 64 - (n - (q.length + 1)))) % 2 ^ 64 = q.length + 1 := by omega
      have hsub : sub64 (q.length + 1) 1 = q.length := by unfold sub64; omega
      rw [hidx, hsub, hj]
      have hq := ih 0 k
      simp only [Nat.add_zero] at hq
      by_cases hr : r = 0
      · subst hr
        simp only [Nat.add_zero, Nat.lt_irrefl, if_false]
        rw [hq total vec (by omega) (by omega) (by omega)]
        simp [slices_rev]
      · have hlt : q.length + 1 < q.length + 1 + r := by omega
        simp only [hlt, if_true]
        have ha : add64 total (q.length + 1 + r - (q.length + 1)) = total + r := by
          unfold add64; rw [Nat.add_sub_cancel_left]; apply Nat.mod_eq_of_lt; omega
        rw [ha, hq (total + r) _ (by omega) (by omega) (by omega)]
        simp [slices_rev, hr]
        omega

theorem char_at_of_lt (s : List Char) (i : Nat) (h : i < s.length) :
    char_at s i = .ok (s[i]) := by
  unfold char_at
  rw [List.getElem?_eq_getElem h]

theorem concat_copy_spec (text : List Char) (count : Nat) :
    ∀ (start : Nat) (done rest : List Char), start + count ≤ text.length →
      count ≤ rest.length →
      concat_copy text count start (done ++ rest, done.length)
        = .ok (done ++ (text.drop start).take count ++ rest.drop count, done.length + count) := by
  induction count with
  | zero => intro start done rest _ _; simp [concat_copy]
  | succ k ih =>
    intro start done rest h1 h2
    have hs : start < text.length := by omega
    cases rest with
    | nil => simp at h2
    | cons x rest1 =>
      rw [concat_copy, char_at_of_lt text start hs]
      simp only [bind, Except.bind]
      rw [if_pos (by rw [List.length_append, List.length_cons]; omega)]
      have hset : (done ++ x :: rest1).set done.length text[start]
          = (done ++ [text[start]]) ++ rest1 := by
        rw [List.set_append_right _ _ (Nat.le_refl _)]
        simp
      have hi := ih (start + 1) (done ++ [text[start]]) rest1 (by omega) (by simpa using h2)
      rw [List.length_append, List.length_singleton] at hi
      rw [hset, hi]
      have hd : List.drop start text = text[start] :: List.drop (start + 1) text :=
        List.drop_eq_getElem_cons hs
      rw [hd, List.take_succ_cons, List.drop_succ_cons]
      simp only [List.append_assoc, List.singleton_append]
      congr 2
      omega

theorem concat_fold_spec (text : List Char) (slices : List Slice) :
    ∀ (done rest : List Char),
      (∀ sl ∈ slices, sl.start ≤ sl.stop ∧ sl.stop ≤ text.length) →
      (slices.map (fun sl => sl.stop - sl.start)).sum ≤ rest.length →
      slices.foldlM (fun st sl => concat_copy text (sl.stop - sl.start) sl.start st)
          (done ++ rest, done.length)
        = .ok (done ++ slices.flatMap (text_range text)
            ++ rest.drop (slices.map (fun sl => sl.stop - sl.start)).sum,
          done.length + (slices.map (fun sl => sl.stop - sl.start)).sum) := by
  induction slices with
  | nil => intro done rest _ _; simp; rfl
  | cons sl rest_slices ih =>
    intro done rest hv hsum
    rw [List.map_cons, List.sum_cons] at hsum
    obtain ⟨h1, h2⟩ := hv sl (by simp)
    rw [List.foldlM_cons, concat_copy_spec text _ sl.start done rest (by omega) (by omega)]
    simp only [bind, Except.bind]
    have hl : (done ++ (text.drop sl.start).take (sl.stop - sl.start)).length
        = done.length + (sl.stop - sl.start) := by
      rw [List.length_append, List.length_take, List.length_drop]
      omega
    have hi := ih (done ++ (text.drop sl.start).take (sl.stop - sl.start))
      (rest.drop (sl.stop - sl.start)) (fun x hx => hv x (by simp [hx]))
      (by rw [List.length_drop]; omega)
    rw [hl] at hi
    rw [hi]
    simp only [List.flatMap_cons, List.map_cons, List.sum_cons, text_range, List.append_assoc,
      List.drop_drop]
    rw [Nat.add_assoc]

theorem kept_snoc (a : List Char) (l : List Bool) (c : Char) (f : Bool)
    (h : a.length = l.length) :
    kept (a ++ [c]) (l ++ [f]) = kept a l ++ (if f = true then [] else [c]) := by
  unfold kept
  rw [List.zip_append h, List.filter_append, List.map_append]
  cases f <;> simp

theorem slices_rev_spec (text : List Char) (lr : List Bool) :
    ∀ r : Nat, lr.length + r ≤ text.length →
      (∀ sl ∈ slices_rev lr r, sl.start ≤ sl.stop ∧ sl.stop ≤ text.length)
      ∧ ((slices_rev lr r).map (fun sl => sl.stop - sl.start)).sum = lr.count false + r
      ∧ (slices_rev lr r).flatMap (text_range text)
          = kept (text.take lr.length) lr.reverse ++ (text.drop lr.length).take r := by
  induction lr with
  | nil =>
    intro r hr
    by_cases h0 : r = 0
    · subst h0; simp [slices_rev, kept]
    · simp [slices_rev, h0, kept, text_range]
      simpa using hr
  | cons x rest ih =>
    intro r hr
    rw [List.length_cons] at hr
    have hk : rest.length < text.length := by omega
    have htake : text.take (rest.length + 1) = text.take rest.length ++ [text[rest.length]] := by
      rw [List.take_succ, List.getElem?_eq_getElem hk]; rfl
    have hlen : (text.take rest.length).length = rest.reverse.length := by
      rw [List.length_take, List.length_reverse]; omega
    cases x with
    | false =>
      obtain ⟨i1, i2, i3⟩ := ih (r + 1) (by omega)
      refine ⟨i1, ?_, ?_⟩
      · rw [slices_rev, i2, List.count_cons]; simp; omega
      · rw [slices_rev, i3, List.length_cons, List.reverse_cons, htake,
          kept_snoc _ _ _ _ hlen, List.drop_eq_getElem_cons hk, List.take_succ_cons]
        simp
    | true =>
      obtain ⟨i1, i2, i3⟩ := ih 0 (by omega)
      have hkept : kept (text.take (rest.length + 1)) (rest.reverse ++ [true])
          = kept (text.take rest.length) rest.reverse := by
        rw [htake, kept_snoc _ _ _ _ hlen]; simp
      by_cases h0 : r = 0
      · subst h0
        simp only [slices_rev, if_true, List.append_nil, List.length_cons, List.reverse_cons,
          List.take_zero, Nat.add_zero]
        refine ⟨i1, ?_, ?_⟩
        · rw [i2, List.count_cons]; simp
        · rw [i3, hkept]; simp
      · simp only [slices_rev, h0, if_false, List.length_cons, List.reverse_cons]
        refine ⟨?_, ?_, ?_⟩
        · intro sl hsl
          rcases List.mem_append.1 hsl with h | h
          · exact i1 sl h
          · have : sl = ⟨rest.length + 1, rest.length + 1 + r⟩ := by simpa using h
            subst this
            exact ⟨by simp, by simpa using hr⟩
        · rw [List.map_append, List.sum_append, i2, List.count_cons]; simp
        · rw [List.flatMap_append, i3, hkept]
          simp [text_range]

theorem of_bits_replicate_false (d : Nat) (l : List Bool) :
    of_bits (List.replicate d false ++ l) = of_bits l := by
  unfold of_bits
  rw [List.foldl_append]
  congr 1
  induction d with
  | zero => rfl
  | succ d ih => rw [List.replicate_succ, List.foldl_cons]; exact ih

theorem set_bits_of_bits (l : List Bool) (h : l.length ≤ 64) :
    set_bits (of_bits l) = l.count true := by
  unfold set_bits
  have e := bits_of_bits (List.replicate (64 - l.length) false ++ l)
  rw [of_bits_replicate_false, List.length_append, List.length_replicate,
    show 64 - l.length + l.length = 64 by omega] at e
  rw [e, List.count_append]
  simp [List.count_replicate]

theorem length_kept (s : List Char) (l : List Bool) (h : s.length = l.length) :
    (kept s l).length = l.count false := by
  induction s using List.reverseRecOn generalizing l with
  | nil =>
    have : l = [] := List.length_eq_zero.1 (by simpa using h.symm)
    subst this; rfl
  | append_singleton s c ih =>
    rcases List.eq_nil_or_concat l with hl | ⟨l1, f, hl⟩
    · subst hl; simp at h
    · rw [List.concat_eq_append] at hl
      subst hl
      rw [List.length_append, List.length_append, List.length_singleton,
        List.length_singleton] at h
      rw [kept_snoc _ _ _ _ (by omega), List.length_append, ih l1 (by omega), List.count_append]
      cases f <;> simp

theorem count_false_add_true (l : List Bool) : l.count false + l.count true = l.length := by
  induction l with
  | nil => rfl
  | cons x t ih => cases x <;> simp [List.count_cons] <;> omega

theorem get_slice_indices_spec (m : MaybeNumber) (l : List Bool)
    (hl : l.length = m.original.length) (hn : m.original.length ≤ 64)
    (h0 : m.original.length ≠ 0) :
    _get_slice_indices_from_bitmask m [] (of_bits l)
      = .ok (l.count false, slices_rev l.reverse 0) := by
  have hspec := indices_spec m.original.length hn l 0 64 0 [] (by omega) (by omega) (by omega)
  rw [hl, Nat.sub_self, pow_zero, Nat.mul_one, Nat.add_zero, Nat.zero_add, Nat.add_zero,
    List.append_nil] at hspec
  unfold _get_slice_indices_from_bitmask
  rw [if_neg h0]
  by_cases hb : of_bits l = 0
  · rw [if_pos hb]
    rw [hb, indices_loop_zero] at hspec
    simp only [bind, Except.bind, if_neg h0] at hspec
    rw [← hspec]
    unfold add64
    rw [Nat.zero_add, Nat.mod_eq_of_lt (by omega)]
    rfl
  · rw [if_neg hb, ← hspec]

theorem concat_spec (m : MaybeNumber) (l : List Bool)
    (hl : l.length = m.original.length) (hn : m.original.length ≤ 64) :
    _concat_by_bitmask m (of_bits l) = .ok (kept m.original l)
    ∧ ∃ slices, _get_slice_indices_from_bitmask m [] (of_bits l)
        = .ok ((kept m.original l).length, slices) := by
  rw [length_kept m.original l hl.symm]
  by_cases h0 : m.original.length = 0
  · have e1 : m.original = [] := List.length_eq_zero.1 h0
    have e2 : l = [] := List.length_eq_zero.1 (by rw [hl, h0])
    have hg : _get_slice_indices_from_bitmask m [] (of_bits l) = .ok (0, []) := by
      unfold _get_slice_indices_from_bitmask
      rw [if_pos h0]
    refine ⟨?_, [], by rw [hg, e2]; rfl⟩
    unfold _concat_by_bitmask
    rw [hg, e1, e2]
    rfl
  · have hg := get_slice_indices_spec m l hl hn h0
    refine ⟨?_, _, hg⟩
    obtain ⟨s1, s2, s3⟩ := slices_rev_spec m.original l.reverse 0
      (by rw [List.length_reverse, hl]; omega)
    rw [List.count_reverse, Nat.add_zero] at s2
    rw [List.length_reverse, List.reverse_reverse, hl, List.take_length, List.take_zero,
      List.append_nil] at s3
    have hf := concat_fold_spec m.original (slices_rev l.reverse 0) []
      (List.replicate (l.count false) NUL) s1 (by rw [s2, List.length_replicate])
    rw [s2, s3] at hf
    unfold _concat_by_bitmask
    rw [hg]
    simp only [bind, Except.bind, pure, Except.pure]
    simp only [List.nil_append, List.length_nil, Nat.zero_add] at hf
    rw [hf]
    simp only [List.drop_replicate, Nat.sub_self, List.replicate_zero, List.append_nil]

theorem reachable_bitmask_lt (tok : Char) (m : MaybeNumber) (hr : Reachable 64 tok m)
    (b : Bitmask) (hb : b ∈ m.the_bitmasks) : b.bitmask < 2 ^ m.original.length := by
  obtain ⟨a, ha, ⟨h1, h2, h3, h4, h5⟩, hl⟩ := reachable_model 64 (Nat.le_refl _) tok m hr
  subst ha
  have hlt := model_of_hists_lt tok a.text
  rw [model_of_text tok a.text h1, ← h3] at hlt
  obtain ⟨b1, b2, b3, b4, b5, b6, b7, b8, b9, b10, b11, b12, b13, b14⟩ := hlt
  simp only [Model.toToken, Histories.toList, List.mem_cons, List.mem_singleton,
    List.not_mem_nil, or_false] at hb
  rcases hb with e | e | e | e | e | e | e | e | e | e | e | e | e | e <;> subst e <;> assumption

/-- C20: for every token reached by appends and removals whose text was never
longer than 64 characters and every history `b` of its vector,
`_concat_by_bitmask(b)` returns the characters of the text whose bit in `b` is
clear, in their order; `_get_slice_indices_from_bitmask` returns the length of
that string, which is the length of the text minus the number of set bits. -/
theorem C20_concat_by_bitmask (tok : Char) (m : MaybeNumber) (hr : Reachable 64 tok m)
    (b : Bitmask) (hb : b ∈ m.the_bitmasks) :
    _concat_by_bitmask m b.bitmask
      = .ok (kept m.original (bits b.bitmask m.original.length))
    ∧ (∃ slices, _get_slice_indices_from_bitmask m [] b.bitmask
        = .ok ((kept m.original (bits b.bitmask m.original.length)).length, slices))
    ∧ (kept m.original (bits b.bitmask m.original.length)).length
        = m.original.length - set_bits b.bitmask := by
  have hlt := reachable_bitmask_lt tok m hr b hb
  obtain ⟨-, hl, -⟩ := reachable_histories tok m hr
  have hob := of_bits_bits m.original.length b.bitmask hlt
  have hlen := length_bits b.bitmask m.original.length
  obtain ⟨c1, c2⟩ := concat_spec m (bits b.bitmask m.original.length) hlen hl
  rw [hob] at c1 c2
  refine ⟨c1, c2, ?_⟩
  rw [length_kept _ _ hlen.symm]
  have hs := set_bits_of_bits (bits b.bitmask m.original.length) (by rw [hlen]; exact hl)
  rw [hob] at hs
  have := count_false_add_true (bits b.bitmask m.original.length)
  rw [hlen] at this
  omega

/-- C20 at `"1-2-3"` and its ISDASH history `0b01010`: the result is `"123"`. -/
theorem C20_concat_by_bitmask_witness :
    ∃ m, construct "1-2-3".toList ' ' = .ok m ∧ Reachable 64 ' ' m
      ∧ _get_bitmask m "ISDASH" = .ok ⟨"ISDASH", 10⟩
      ∧ _concat_by_bitmask m 10 = .ok "123".toList
      ∧ ∃ slices, _get_slice_indices_from_bitmask m [] 10 = .ok (3, slices) :=
  have hr := reachable_model_of 64 ' ' "1-2-3".toList (by decide)
  have w := C20_concat_by_bitmask ' ' _ hr ⟨"ISDASH", 10⟩ (by decide!)
  have h3 : (kept (model_of ' ' "1-2-3".toList).toToken.original
      (bits 10 (model_of ' ' "1-2-3".toList).toToken.original.length)).length = 3 := by decide!
  ⟨_, construct_eq _ _, hr, by decide!, w.1.trans (by decide!),
    w.2.1.elim fun slices hs => ⟨slices, h3 ▸ hs⟩⟩

/-! ### The acceptable-start history -/

theorem of_bits_replicate_true (k : Nat) : of_bits (List.replicate k true) = 2 ^ k - 1 := by
  induction k with
  | zero => rfl
  | succ k ih =>
    rw [List.replicate_succ', of_bits_snoc, ih, pow_succ]
    have := Nat.two_pow_pos k
    simp only [Bool.toNat_true]
    omega

theorem of_bits_append_replicate_false (l : List Bool) (d : Nat) :
    of_bits (l ++ List.replicate d false) = of_bits l * 2 ^ d := by
  induction d with
  | zero => simp
  | succ d ih =>
    rw [List.replicate_succ', ← List.append_assoc, of_bits_snoc, ih, pow_succ]
    simp only [Bool.toNat_false, Nat.add_zero]
    ring

theorem bits_of_run (k n : Nat) (h : k ≤ n) :
    bits ((2 ^ k - 1) * 2 ^ (n - k)) n
      = List.replicate k true ++ List.replicate (n - k) false := by
  have e := bits_of_bits (List.replicate k true ++ List.replicate (n - k) false)
  rw [of_bits_append_replicate_false, of_bits_replicate_true, List.length_append,
    List.length_replicate, List.length_replicate, show k + (n - k) = n by omega] at e
  exact e

theorem all_take_eq (p : Char → Bool) (s : List Char) :
    ∀ i, i < s.length → (s.take (i + 1)).all p = decide (i < (s.takeWhile p).length) := by
  induction s with
  | nil => intro i hi; simp at hi
  | cons c t ih =>
    intro i hi
    rw [List.take_succ_cons, List.all_cons, List.takeWhile_cons]
    cases hp : p c
    · simp
    · simp only [Bool.true_and, if_true, List.length_cons]
      cases i with
      | zero => simp
      | succ j =>
        rw [ih j (by simpa using hi)]
        simp

theorem run_getElem? (k n i : Nat) (hi : i < n) (hk : k ≤ n) :
    (List.replicate k true ++ List.replicate (n - k) false)[i]? = some (decide (i < k)) := by
  by_cases h : i < k
  · rw [List.getElem?_append_left (by simpa using h)]
    simp [h]
  · rw [List.getElem?_append_right (by simpa using h), List.length_replicate,
      List.getElem?_replicate]
    have h2 : i - k < n - k := by omega
    simp [h, h2]

/-- C22, amended: for every token reached by appends and removals whose text
was never longer than 64 characters and has no space or `'$'` at index 32 or
later, the ISACCEPTABLESTART history is `k` set bits followed by `n - k` clear
bits, `k` being the length of the leading run of spaces and `'$'`, and the bit
of the character of index `i` is set exactly when that character and all the
characters before it are spaces or `'$'`. -/
theorem C22_acceptable_start_history (tok : Char) (m : MaybeNumber) (hr : Reachable 64 tok m)
    (hlate : ∀ x ∈ m.original.drop 32, is_boundary x = false) :
    ∃ b, _get_bitmask m "ISACCEPTABLESTART" = .ok b
      ∧ b.bitmask = (2 ^ (leading_run m.original).length - 1)
          * 2 ^ (m.original.length - (leading_run m.original).length)
      ∧ ∀ i c, m.original[i]? = some c →
          b.bitmask.testBit (m.original.length - 1 - i)
            = (m.original.take (i + 1)).all is_boundary := by
  obtain ⟨a, ha, ⟨h1, h2, h3, h4, h5⟩, hl⟩ := reachable_model 64 (Nat.le_refl _) tok m hr
  subst ha
  have hform := model_of_acceptablestart tok a.text h1 hl hlate
  rw [← h3] at hform
  refine ⟨⟨"ISACCEPTABLESTART", a.hists.acceptablestart⟩, get_acceptablestart _, hform, ?_⟩
  intro i c hc
  have hi : i < a.text.length := (List.getElem?_eq_some_iff.1 hc).1
  have hk := leading_run_length_le a.text
  show a.hists.acceptablestart.testBit (a.text.length - 1 - i) = _
  have hb := bits_of_run (leading_run a.text).length a.text.length hk
  rw [← hform] at hb
  rw [testBit_of_bits_eq _ _ _ hb i _ (run_getElem? _ _ i hi hk)]
  exact (all_take_eq is_boundary a.text i hi).symm

/-- C22, amended, at the token `" $12"`: the history is `0b1100`. -/
theorem C22_acceptable_start_history_witness :
    ∃ m, construct " $12".toList ' ' = .ok m ∧ Reachable 64 ' ' m
      ∧ ∃ b, _get_bitmask m "ISACCEPTABLESTART" = .ok b ∧ b.bitmask = 12 :=
  have hr := reachable_model_of 64 ' ' " $12".toList (by decide)
  have w := C22_acceptable_start_history ' ' _ hr (by decide)
  ⟨_, construct_eq _ _, hr, w.elim fun b hb => ⟨b, hb.1, hb.2.1.trans (by decide)⟩⟩

/-! ### One round of the slicing loop -/

theorem get_slice_index_len_lowest (B j n : Nat) (hlt : (2 * B + 1) * 2 ^ j < 2 ^ 64) :
    _get_slice_index_len ((2 * B + 1) * 2 ^ j) n
      = .ok (((n + (2 ^ 64 - 1 - j)) % 2 ^ 64 + 1) % 2 ^ 64) := by
  obtain ⟨e1, e2⟩ := lowest_bit_step B j
  have hpos : 0 < (2 * B + 1) * 2 ^ j := Nat.mul_pos (by omega) (Nat.two_pow_pos _)
  have hP : 0 < (2 : Nat) ^ j := Nat.two_pow_pos _
  rw [get_slice_index_len_eq]
  have hm1 : ((2 * B + 1) * 2 ^ j + (2 ^ 64 - 1)) % 2 ^ 64 = (2 * B + 1) * 2 ^ j - 1 := by
    omega
  have hdiff : ((2 * B + 1) * 2 ^ j + 2 ^ 64
      - ((2 * B + 1) * 2 ^ j &&& ((2 * B + 1) * 2 ^ j - 1))) % 2 ^ 64 = 2 ^ j := by
    rw [e1]
    generalize (2 * B + 1) * 2 ^ j = X at *
    generalize B * 2 ^ (j + 1) = Y at *
    omega
  rw [hm1, hdiff, Nat.log2_two_pow, if_neg (by omega)]

theorem copy_loop_spec (original : List Char) (count : Nat) :
    ∀ (start : Nat) (a : Model), start + count ≤ original.length →
      copy_loop original count start a.toToken
        = .ok (((original.drop start).take count).foldl Model.push a).toToken := by
  induction count with
  | zero => intro start a _; simp [copy_loop]
  | succ k ih =>
    intro start a h
    have hs : start < original.length := by omega
    rw [copy_loop, char_at_of_lt original start hs]
    simp only [bind, Except.bind]
    rw [push_back_toToken]
    simp only []
    rw [ih (start + 1) _ (by omega), List.drop_eq_getElem_cons hs, List.take_succ_cons,
      List.foldl_cons]

theorem slice_loop_step (m : MaybeNumber) (bitval fuel my_bitmask prev_stop : Nat)
    (vec : List MaybeNumber) (pos_index loc : Nat)
    (hc : 0 < my_bitmask ∧ my_bitmask < 2 ^ 63)
    (h1 : _get_slice_index m my_bitmask = .ok pos_index)
    (hne : sar64 my_bitmask (sub64 (sub64 m.original.length (sub64 pos_index 1)) 1) ≠ bitval)
    (hloc : _get_slice_index_len
        (not64 (sar64 my_bitmask (sub64 (sub64 m.original.length (sub64 pos_index 1)) 1)))
        (add64 (sub64 m.original.length (sub64 m.original.length (sub64 pos_index 1))) 1)
      = .ok loc)
    (start stop : Nat)
    (hstart : (if bitval = 0 then pos_index
        else sub64 (sub64 pos_index
          (sub64 (add64 (sub64 m.original.length
            (sub64 m.original.length (sub64 pos_index 1))) 1) loc)) (1 - bitval)) = start)
    (hstop : (if bitval = 0 then prev_stop else pos_index) = stop)
    (hs1 : start < 2 ^ 63) (hs2 : stop < 2 ^ 63) :
    slice_loop m bitval (fuel + 1) my_bitmask prev_stop vec
      = (if start ≠ stop then
          (copy_loop m.original (stop - start) start (_setup ' ')).bind (fun current =>
            slice_loop m bitval fuel
              (my_bitmask &&& not64 (sign_extend
                ((int_shl1 (sub64 (add64 (sub64 m.original.length (sub64 pos_index 1))
                  (sub64 (add64 (sub64 m.original.length
                    (sub64 m.original.length (sub64 pos_index 1))) 1) loc)) bitval)
                  + (2 ^ 32 - 1)) % 2 ^ 32)))
              (sub64 pos_index (sub64 (add64 (sub64 m.original.length
                (sub64 m.original.length (sub64 pos_index 1))) 1) loc))
              (current :: vec))
        else
          slice_loop m bitval fuel
            (my_bitmask &&& not64 (sign_extend
              ((int_shl1 (sub64 (add64 (sub64 m.original.length (sub64 pos_index 1))
                (sub64 (add64 (sub64 m.original.length
                  (sub64 m.original.length (sub64 pos_index 1))) 1) loc)) bitval)
                + (2 ^ 32 - 1)) % 2 ^ 32)))
            (sub64 pos_index (sub64 (add64 (sub64 m.original.length
              (sub64 m.original.length (sub64 pos_index 1))) 1) loc))
            vec) := by
  rw [slice_loop, if_pos hc, h1]
  simp only [bind, Except.bind]
  rw [if_neg hne, hloc]
  simp only []
  rw [hstart, hstop]
  have n1 : ¬ (start ≥ 2 ^ 63 ∧ stop ≥ 2 ^ 63) := by omega
  have n2 : ¬ (start < 2 ^ 63 ∧ stop ≥ 2 ^ 63) := by omega
  have n3 : ¬ (start ≥ 2 ^ 63) := by omega
  rw [if_neg n1, if_neg n2, if_neg n3]
  by_cases he : start = stop
  · have n4 : ¬ (start ≠ stop) := fun h => h he
    rw [if_neg n4, if_neg n4]
    rfl
  · rw [if_pos he, if_pos he]
    cases copy_loop m.original (stop - start) start (_setup ' ') <;> rfl

theorem slice_loop_fixpoint (m : MaybeNumber) (hlen : m.original.length = 32) (fuel : Nat) :
    ∀ vec : List MaybeNumber, slice_loop m 0 fuel 2147483648 0 vec = .error .out_of_fuel := by
  have hc : 0 < 2147483648 ∧ 2147483648 < 2 ^ 63 := by norm_num
  induction fuel with
  | zero => intro vec; rw [slice_loop, if_pos hc]
  | succ fuel ih =>
    intro vec
    have h1 : _get_slice_index m 2147483648 = .ok 1 := by
      unfold _get_slice_index
      rw [hlen, show (2147483648 : Nat) = (2 * 0 + 1) * 2 ^ 31 by norm_num,
        get_slice_index_len_lowest 0 31 32 (by norm_num)]
      rfl
    have hloc : _get_slice_index_len (not64 1) 1 = .ok 0 := by
      rw [show not64 1 = (2 * (2 ^ 62 - 1) + 1) * 2 ^ 1 by decide,
        get_slice_index_len_lowest (2 ^ 62 - 1) 1 1 (by norm_num)]
      rfl
    have st := slice_loop_step m 0 fuel 2147483648 0 vec 1 0 hc h1
      (by rw [hlen]; decide) (by rw [hlen]; exact hloc) 1 0 rfl rfl (by norm_num) (by norm_num)
    rw [hlen] at st
    rw [st]
    exact ih (_setup ' ' :: vec)

theorem setup_eq_init (tok : Char) : _setup tok = (Model.init tok).toToken := rfl

theorem slice_loop_second_round (m : MaybeNumber) (hlen : m.original.length = 32) (fuel : Nat)
    (vec : List MaybeNumber) : slice_loop m 0 fuel 2147483648 30 vec = .error .out_of_fuel := by
  have c2 : 0 < 2147483648 ∧ 2147483648 < 2 ^ 63 := by norm_num
  cases fuel with
  | zero => rw [slice_loop, if_pos c2]
  | succ fuel =>
    have h2 : _get_slice_index m 2147483648 = .ok 1 := by
      unfold _get_slice_index
      rw [hlen, show (2147483648 : Nat) = (2 * 0 + 1) * 2 ^ 31 by norm_num,
        get_slice_index_len_lowest 0 31 32 (by norm_num)]
      rfl
    have hloc2 : _get_slice_index_len (not64 1) 1 = .ok 0 := by
      rw [show not64 1 = (2 * (2 ^ 62 - 1) + 1) * 2 ^ 1 by decide,
        get_slice_index_len_lowest (2 ^ 62 - 1) 1 1 (by norm_num)]
      rfl
    have st2 := slice_loop_step m 0 fuel 2147483648 30 vec 1 0 c2 h2
      (by rw [hlen]; decide) (by rw [hlen]; exact hloc2) 1 30 rfl rfl (by norm_num)
      (by norm_num)
    rw [hlen] at st2
    rw [st2, if_pos (by decide), setup_eq_init,
      copy_loop_spec m.original _ 1 _ (by rw [hlen]; norm_num)]
    exact slice_loop_fixpoint m hlen fuel _

theorem slice_loop_first_round (m : MaybeNumber) (hlen : m.original.length = 32) (fuel : Nat)
    (vec : List MaybeNumber) : slice_loop m 0 fuel 2147483650 32 vec = .error .out_of_fuel := by
  have c1 : 0 < 2147483650 ∧ 2147483650 < 2 ^ 63 := by norm_num
  cases fuel with
  | zero => rw [slice_loop, if_pos c1]
  | succ fuel =>
    have h1 : _get_slice_index m 2147483650 = .ok 31 := by
      unfold _get_slice_index
      rw [hlen, show (2147483650 : Nat) = (2 * 536870912 + 1) * 2 ^ 1 by norm_num,
        get_slice_index_len_lowest 536870912 1 32 (by norm_num)]
      rfl
    have hloc : _get_slice_index_len (not64 1073741825) 31 = .ok 30 := by
      rw [show not64 1073741825 = (2 * 4611686018158952447 + 1) * 2 ^ 1 by decide,
        get_slice_index_len_lowest 4611686018158952447 1 31 (by norm_num)]
      rfl
    have st := slice_loop_step m 0 fuel 2147483650 32 vec 31 30 c1 h1
      (by rw [hlen]; decide) (by rw [hlen]; exact hloc) 31 32 rfl rfl (by norm_num) (by norm_num)
    rw [hlen] at st
    rw [st, if_pos (by decide), setup_eq_init,
      copy_loop_spec m.original _ 31 _ (by rw [hlen])]
    exact slice_loop_second_round m hlen fuel _

/-- C18, the code at the 32 characters `"-"` followed by 31 zeros: the
artificial bit `1 << 33` is computed as `1 << 1`, the bit of the dash is never
cleared, and from the third round on the loop repeats the same round, adding an
empty sub-token each time: whatever number of rounds it is given, it has not
ended. -/
theorem C18_loop_never_ends (fuel : Nat) :
    ∃ m, construct ('-' :: List.replicate 31 '0') ' ' = .ok m
      ∧ m.original.length = 32
      ∧ sliceby m "ISDASH" false fuel = .error .out_of_fuel := by
  refine ⟨_, construct_eq _ _, by decide!, ?_⟩
  have hlen : (model_of ' ' ('-' :: List.replicate 31 '0')).toToken.original.length = 32 := by
    decide!
  have h := sliceby_eq_loop (model_of ' ' ('-' :: List.replicate 31 '0')).toToken
    "ISDASH" false fuel ⟨"ISDASH", 2147483648⟩ (by decide!) (by decide!) (by decide!) (by decide!)
  have hmy : ((⟨"ISDASH", 2147483648⟩ : Bitmask).bitmask ||| sign_extend (int_shl1 (add64
      (model_of ' ' ('-' :: List.replicate 31 '0')).toToken._len_bitmasks 1))) = 2147483650 := by
    decide!
  rw [h, hmy, hlen]
  exact slice_loop_first_round _ hlen fuel []



/-! ### Runs of a mask -/

end MaybeNumber
